import Mathlib

/-!
# Merkle Mountain Range (`mmr.go`, `mmr_circuit.go`)

A shallow embedding of the MMR accumulator and of its two verifiers.

* `uint64` values are natural numbers below `2 ^ 64`; every operation that can wrap
  is written with an explicit `% 2 ^ 64`.
* A `hash.Hash` is used only in the pattern `Reset; Write c₁; …; Write cₙ; Sum(nil)`,
  so it is modelled by the digest it returns as a function of the written chunks.
* A slice read out of range is a Go panic; a loop whose number of iterations is not
  bounded by its syntax carries a fuel argument.  Both are visible in `Outcome`.
-/

namespace MerkleTreesGnark

/-! ## Data model -/

abbrev Byte := Fin 256

abbrev Bytes := List Byte

/-- Digest returned by `Sum(nil)` after `Reset` and one `Write` per listed chunk. -/
abbrev Hasher := List Bytes → Bytes

/-- Result of a Go call that may panic or (in the model) run out of loop fuel. -/
inductive Outcome (α : Type) where
  | done (a : α)
  | panicked
  | outOfFuel
  deriving DecidableEq, Repr

/-- Go `type MMR struct`. -/
structure MMR where
  elements : List Bytes
  hash : Hasher

/-- Go `type ProofElement struct`. -/
structure ProofElement where
  Hash : Bytes
  IsLeft : Bool
  deriving DecidableEq, Repr

/-- Go `type MMRProof struct`. -/
structure MMRProof where
  MerkleProof : List ProofElement
  Peaks : List Bytes
  Hash : Hasher

/-- Go `New`. -/
def New (h : Hasher) : MMR := ⟨[], h⟩

/-! ## 64-bit arithmetic -/

/-- Conversion `uint64(x)` of a non-negative value. -/
def toU64 (x : Nat) : Nat := x % 2 ^ 64

/-- Conversion `uint64(x)` of a signed value (two's complement). -/
def intToU64 (x : Int) : Nat := Int.toNat (x % 2 ^ 64)

/-- Addition on `uint64`. -/
def add64 (a b : Nat) : Nat := (a + b) % 2 ^ 64

/-- Subtraction on `uint64` (wraps below zero). -/
def sub64 (a b : Nat) : Nat := (a + 2 ^ 64 - b % 2 ^ 64) % 2 ^ 64

/-- Left shift on `uint64`; a shift count of 64 or more gives zero. -/
def shl64 (a s : Nat) : Nat := (a <<< s) % 2 ^ 64

/-- Number of binary digits of `x`, counted with at most `fuel` halvings. -/
def bitLength : Nat → Nat → Nat
  | 0, _ => 0
  | fuel + 1, x => if x = 0 then 0 else bitLength fuel (x / 2) + 1

/-- Go `bits.Len64`: the minimum number of bits needed to represent `x`. -/
def Len64 (x : Nat) : Nat := bitLength 64 x

/-- Go `bits.LeadingZeros64`. -/
def LeadingZeros64 (x : Nat) : Nat := 64 - Len64 x

/-- Go `math.MaxUint64`. -/
def MaxUint64 : Nat := 2 ^ 64 - 1

/-! ## Height-bitmap oracle -/

/-- The loop `for subtreeSize > 0` of `HeightBitmapForMMRSize`; it returns
`(peaks, updatedMmrSize)`.  `subtreeSize` is halved in every iteration, so 64 units of
fuel are never used up on 64-bit values (`HeightBitmapLoop_fuel`). -/
def HeightBitmapLoop : Nat → Nat → Nat → Nat → Nat × Nat
  | 0, _, updatedMmrSize, peaks => (peaks, updatedMmrSize)
  | fuel + 1, subtreeSize, updatedMmrSize, peaks =>
    if subtreeSize > 0 then
      if updatedMmrSize ≥ subtreeSize then
        HeightBitmapLoop fuel (subtreeSize >>> 1) (updatedMmrSize - subtreeSize)
          (shl64 peaks 1 ||| 1)
      else
        HeightBitmapLoop fuel (subtreeSize >>> 1) updatedMmrSize (shl64 peaks 1)
    else (peaks, updatedMmrSize)

/-- Go `HeightBitmapForMMRSize(size uint64) (uint64, uint64)`. -/
def HeightBitmapForMMRSize (size : Nat) : Nat × Nat :=
  if size = 0 then (0, 0)
  else
    let allPeaksSet := MaxUint64 >>> LeadingZeros64 size
    HeightBitmapLoop 64 allPeaksSet size 0

/-! ## Accumulator store -/

/-- The loop `for peaks > 0` of `AddLeaf`. -/
def AddLeafLoop (h : Hasher) :
    Nat → List Bytes → Nat → Nat → Bytes → Nat → Outcome (List Bytes)
  | 0, _, _, _, _, _ => Outcome.outOfFuel
  | fuel + 1, elements, peaks, currentPos, nextHash, height =>
    if peaks > 0 then
      if peaks &&& 1 = 1 then
        let prevPeakIndex := sub64 currentPos (sub64 (shl64 1 height) 1)
        match elements[prevPeakIndex]? with
        | none => Outcome.panicked
        | some prevPeak =>
          let nextHash := h [prevPeak, nextHash]
          AddLeafLoop h fuel (elements ++ [nextHash]) (peaks >>> 1) (add64 currentPos 1)
            nextHash (height + 1)
      else Outcome.done elements
    else Outcome.done elements

/-- Go `(mmr *MMR) AddLeaf(leaf []byte)`; the result is the store after the call. -/
def AddLeaf (mmr : MMR) (leaf : Bytes) : Outcome MMR :=
  let hashedLeaf := mmr.hash [leaf]
  if mmr.elements.length = 0 then
    Outcome.done { mmr with elements := mmr.elements ++ [hashedLeaf] }
  else
    let peaks := (HeightBitmapForMMRSize (toU64 mmr.elements.length)).1
    let currentPos := toU64 mmr.elements.length
    match AddLeafLoop mmr.hash 65 (mmr.elements ++ [hashedLeaf]) peaks currentPos hashedLeaf 1 with
    | Outcome.done elements => Outcome.done { mmr with elements := elements }
    | Outcome.panicked => Outcome.panicked
    | Outcome.outOfFuel => Outcome.outOfFuel

/-- Leaves appended one at a time with `AddLeaf`, starting from `mmr`. -/
def AddLeaves (mmr : MMR) : List Bytes → Outcome MMR
  | [] => Outcome.done mmr
  | leaf :: rest =>
    match AddLeaf mmr leaf with
    | Outcome.done mmr1 => AddLeaves mmr1 rest
    | Outcome.panicked => Outcome.panicked
    | Outcome.outOfFuel => Outcome.outOfFuel

/-! ## Proof builder -/

/-- Go `addRightElm`. -/
def addRightElm (currIndex height : Nat) (mmr : MMR) (proofElms : List ProofElement) :
    Outcome (List ProofElement × Nat × Bool) :=
  let nextElmIndex := add64 currIndex (sub64 (shl64 1 ((height + 1) % 2 ^ 32)) 1)
  if nextElmIndex < intToU64 ((mmr.elements.length : Int) - 1) then
    match mmr.elements[nextElmIndex]? with
    | none => Outcome.panicked
    | some e => Outcome.done (proofElms ++ [⟨e, false⟩], add64 nextElmIndex 1, true)
  else Outcome.done (proofElms, currIndex, false)

/-- The loop `for inTree` of `GetSubtreeProofElm`; `height` is a `uint32`. -/
def GetSubtreeProofElmLoop (mmr : MMR) :
    Nat → List ProofElement → Nat → Nat → Outcome (List ProofElement)
  | 0, _, _, _ => Outcome.outOfFuel
  | fuel + 1, proofElms, currIndex, height =>
    let size := sub64 (shl64 1 ((height + 1) % 2 ^ 32)) 1
    let right : Outcome (List ProofElement) :=
      match addRightElm currIndex height mmr proofElms with
      | Outcome.done (proofElms1, currIndex1, inTree) =>
        if inTree then
          GetSubtreeProofElmLoop mmr fuel proofElms1 currIndex1 ((height + 1) % 2 ^ 32)
        else Outcome.done proofElms1
      | Outcome.panicked => Outcome.panicked
      | Outcome.outOfFuel => Outcome.outOfFuel
    if currIndex ≥ size then
      let prevElmIndex := sub64 currIndex size
      let heightPrevElm := (HeightBitmapForMMRSize prevElmIndex).2
      if heightPrevElm = height then
        match mmr.elements[prevElmIndex]? with
        | none => Outcome.panicked
        | some e =>
          GetSubtreeProofElmLoop mmr fuel (proofElms ++ [⟨e, true⟩]) (add64 currIndex 1)
            ((height + 1) % 2 ^ 32)
      else right
    else right

/-- Go `(mmr *MMR) GetSubtreeProofElm(mmrIndex uint64) []ProofElement`. -/
def GetSubtreeProofElm (mmr : MMR) (mmrIndex : Nat) : Outcome (List ProofElement) :=
  GetSubtreeProofElmLoop mmr 65 [] mmrIndex 0

/-- The loop `for maxTreeSize > 0` of `GetPeaks`; 64 units of fuel are never used up on
64-bit values.  The read of `elements[peakPos-1]` is guarded by the range test of the
source, so it cannot panic. -/
def GetPeaksLoop (elements : List Bytes) : Nat → Nat → Nat → Nat → List Bytes → List Bytes
  | 0, _, _, _, peaks => peaks
  | fuel + 1, maxTreeSize, currentIndex, peakPos, peaks =>
    if maxTreeSize > 0 then
      if currentIndex ≥ maxTreeSize then
        let peakPos := add64 peakPos maxTreeSize
        let peaks :=
          if sub64 peakPos 1 < toU64 elements.length then
            peaks ++ (elements[sub64 peakPos 1]?).toList
          else peaks
        GetPeaksLoop elements fuel (maxTreeSize >>> 1) (currentIndex - maxTreeSize) peakPos peaks
      else GetPeaksLoop elements fuel (maxTreeSize >>> 1) currentIndex peakPos peaks
    else peaks

/-- Go `(mmr *MMR) GetPeaks() [][]byte`. -/
def GetPeaks (mmr : MMR) : List Bytes :=
  let mmrLen := mmr.elements.length
  let maxTreeSize := MaxUint64 >>> LeadingZeros64 (toU64 mmrLen)
  GetPeaksLoop mmr.elements 64 maxTreeSize (toU64 mmrLen) 0 []

/-- Go `(mmr *MMR) GetProof(mmrIndex uint64) MMRProof`. -/
def GetProof (mmr : MMR) (mmrIndex : Nat) : Outcome MMRProof :=
  match GetSubtreeProofElm mmr mmrIndex with
  | Outcome.done path => Outcome.done ⟨path, GetPeaks mmr, mmr.hash⟩
  | Outcome.panicked => Outcome.panicked
  | Outcome.outOfFuel => Outcome.outOfFuel

/-! ## Peak bagger and native verifier -/

/-- Go `(mmr *MMR) BaggingThePeaks(h hash.Hash) []byte`. -/
def BaggingThePeaks (mmr : MMR) (h : Hasher) : Bytes :=
  h (GetPeaks mmr)

/-- One iteration of the path loop of `Verify`. -/
def verifyStep (h : Hasher) (nextHash : Bytes) (elem : ProofElement) : Bytes :=
  if elem.IsLeft then h [elem.Hash, nextHash] else h [nextHash, elem.Hash]

/-- The search loop of `Verify`: `found` after ranging over the peaks. -/
def foundAmong (nextHash : Bytes) : List Bytes → Bool
  | [] => false
  | peak :: rest => if nextHash = peak then true else foundAmong nextHash rest

/-- Go `(proof MMRProof) Verify(leaf []byte, root []byte, h hash.Hash) bool`. -/
def Verify (proof : MMRProof) (leaf root : Bytes) (h : Hasher) : Bool :=
  let leafHash := h [leaf]
  let nextHash := proof.MerkleProof.foldl (verifyStep h) leafHash
  let found := foundAmong nextHash proof.Peaks
  if !found then false
  else
    let calcRoot := h proof.Peaks
    decide (calcRoot = root)

/-! ## Closed forms and layout of the store (specification side) -/

/-- Number of one bits among the lowest `fuel` binary digits of `n`. -/
def popcountAux : Nat → Nat → Nat
  | 0, _ => 0
  | fuel + 1, n => if n = 0 then 0 else n % 2 + popcountAux fuel (n / 2)

/-- Population count: the number of one bits of `n`. -/
def popcount (n : Nat) : Nat := popcountAux n n

/-- Number of consecutive one bits at the low end of `n`, looking at `fuel` digits. -/
def trailingOnesAux : Nat → Nat → Nat
  | 0, _ => 0
  | fuel + 1, n => if n % 2 = 1 then trailingOnesAux fuel (n / 2) + 1 else 0

/-- Number of consecutive one bits at the low end of `n`. -/
def trailingOnes (n : Nat) : Nat := trailingOnesAux n n

/-- Number of stored elements of an MMR with `n` leaves: `2n - popcount(n)`. -/
def mmrSize (n : Nat) : Nat := 2 * n - popcount n

/-- Root digest of the perfect subtree of height `g` whose first leaf is leaf number `k`. -/
def subtreeRoot (h : Hasher) (leaf : Nat → Bytes) : Nat → Nat → Bytes
  | 0, k => h [leaf k]
  | g + 1, k => h [subtreeRoot h leaf g k, subtreeRoot h leaf g (k + 2 ^ g)]

/-- Storage index of the root of the `a`-th perfect subtree of height `r` (leaves
`a * 2 ^ r` to `(a + 1) * 2 ^ r - 1`). -/
def nodeIndex (r a : Nat) : Nat := (a + 1) * 2 ^ (r + 1) - 2 - popcount a

/-- The elements appended while adding leaf number `N`: the leaf digest and one merged
peak per trailing one bit of `N`. -/
def newElems (h : Hasher) (leaf : Nat → Bytes) (N cnt : Nat) : List Bytes :=
  (List.range cnt).map fun r => subtreeRoot h leaf r (N / 2 ^ r * 2 ^ r)

/-- The store holds exactly the subtree roots of the first `N` leaves, in MMR order. -/
def StoreInv (h : Hasher) (leaf : Nat → Bytes) (N : Nat) (els : List Bytes) : Prop :=
  els.length = mmrSize N ∧
    ∀ r a, (a + 1) * 2 ^ r ≤ N → els[nodeIndex r a]? = some (subtreeRoot h leaf r (a * 2 ^ r))

/-- The path element recorded for the `a`-th subtree of height `r`: its sibling root and
the side the sibling is on. -/
def siblingElem (h : Hasher) (leaf : Nat → Bytes) (r a : Nat) : ProofElement :=
  if a % 2 = 1 then ⟨subtreeRoot h leaf r ((a - 1) * 2 ^ r), true⟩
  else ⟨subtreeRoot h leaf r ((a + 1) * 2 ^ r), false⟩

/-- The `d` path elements met when climbing from the `a`-th subtree of height `r`. -/
def specPath (h : Hasher) (leaf : Nat → Bytes) : Nat → Nat → Nat → List ProofElement
  | 0, _, _ => []
  | d + 1, r, a => siblingElem h leaf r a :: specPath h leaf d (r + 1) (a / 2)

/-- The peaks of the MMR with `N` leaves that have height below `k`, tallest first: one
subtree root per one bit of `N`. -/
def peaksBelow (h : Hasher) (leaf : Nat → Bytes) (N : Nat) : Nat → List Bytes
  | 0 => []
  | k + 1 =>
    (if (N / 2 ^ k) % 2 = 1 then [subtreeRoot h leaf k ((N / 2 ^ k - 1) * 2 ^ k)] else [])
      ++ peaksBelow h leaf N k

/-- Heights of the nodes of a perfect binary tree of height `g`, in the order in which
an MMR stores them: `0` for a leaf, and `g + 1` for the parent that follows its two
subtrees of height `g`. -/
def treeHeights : Nat → List Nat
  | 0 => [0]
  | g + 1 => treeHeights g ++ treeHeights g ++ [g + 1]

/-- The digest `x` has the shape of the root of a perfect tree of height `g`: a hash of
one written leaf at height `0`, a hash of two written digests of height `g` at height
`g + 1`. -/
def treeDigest (h : Hasher) : Nat → Bytes → Prop
  | 0, x => ∃ l, x = h [l]
  | g + 1, x => ∃ a b, treeDigest h g a ∧ treeDigest h g b ∧ x = h [a, b]

/-- Every element of the path carries a digest of the height at which it is used,
starting at height `r`. -/
def typedPath (h : Hasher) : Nat → List ProofElement → Prop
  | _, [] => True
  | r, e :: rest => treeDigest h r e.Hash ∧ typedPath h (r + 1) rest

/-- The path with the `IsLeft` flag of the element at position `j` flipped. -/
def flipFlag : List ProofElement → Nat → List ProofElement
  | [], _ => []
  | e :: rest, 0 => ⟨e.Hash, !e.IsLeft⟩ :: rest
  | e :: rest, j + 1 => e :: flipFlag rest j

/-! ## Concrete inputs used to exercise the theorems -/

/-- A streaming hash that returns everything written to it (`Write` appends, `Sum`
returns the buffer); it is injective on the written byte stream. -/
def concatHash : Hasher := fun chunks => chunks.flatten

/-- The one-byte leaves `[0], [1], …, [n-1]`. -/
def byteLeaves (n : Nat) : List Bytes := (List.range n).map fun i => [Fin.ofNat i]

/-- Self-delimiting encoding of one written chunk: every byte is preceded by `1`, and
the chunk is closed by `0`. -/
def encodeChunk : Bytes → Bytes
  | [] => [0]
  | b :: rest => 1 :: b :: encodeChunk rest

/-- A hash that returns the self-delimiting encoding of the sequence of writes; it is
injective on sequences of writes. -/
def tagHash : Hasher
  | [] => []
  | c :: cs => encodeChunk c ++ tagHash cs

/-- A streaming hash: the digest `H` of the concatenation of everything written since
`Reset`, whatever the boundaries of the `Write` calls (as `sha256` or MiMC behave). -/
def streamHash (H : Bytes → Bytes) : Hasher := fun chunks => H chunks.flatten

/-! ## Circuit verifier (`mmr_circuit.go`)

Circuit variables are elements of the scalar field `ZMod p`.  The result of `Define` is
`done true` when every constraint added by the circuit is satisfied by the assignment. -/

/-- Go `type ProofElm struct`. -/
structure ProofElm (p : Nat) where
  Val : ZMod p
  IsLeft : ZMod p

/-- Go `type MMRCircuit struct`. -/
structure MMRCircuit (p : Nat) where
  Root : ZMod p
  ProofElements : List (ProofElm p)
  Peaks : List (ZMod p)
  Leaf : ZMod p

/-- Digest returned by the circuit MiMC after `Reset` and the listed written variables. -/
abbrev FieldHasher (p : Nat) := List (ZMod p) → ZMod p

/-- The gnark call `api.Select(b, i1, i2)`: `i1` when `b` is one, `i2` when `b` is zero. -/
def apiSelect {p : Nat} (b i1 i2 : ZMod p) : ZMod p := i2 + b * (i1 - i2)

/-- The gnark call `api.Cmp(i1, i2)`: `1` if `i1 > i2`, `0` if they are equal, `-1` if
`i1 < i2`, comparing canonical representatives. -/
def apiCmp {p : Nat} (i1 i2 : ZMod p) : ZMod p :=
  if i1.val < i2.val then -1 else if i1.val = i2.val then 0 else 1

/-- One iteration of the path loop of `Define`: the new `hashed`, and whether the
booleanity constraint that `api.Select` puts on `isLeft` holds so far. -/
def defineStep {p : Nat} (h : FieldHasher p) (st : ZMod p × Bool) (e : ProofElm p) :
    ZMod p × Bool :=
  let element := e.Val
  let isLeft := e.IsLeft
  let d1 := apiSelect isLeft element st.1
  let d2 := apiSelect isLeft st.1 element
  (h [d1, d2], st.2 && decide (isLeft * (1 - isLeft) = 0))

/-- Go `(circuit *MMRCircuit) Define(api frontend.API) error`, evaluated on an
assignment: `panicked` when `circuit.Peaks[0]` is out of range, else whether the
constraints (`Select` flags boolean, `mul = -mul`, `calculatedRoot = Root`) all hold. -/
def Define {p : Nat} (h : FieldHasher p) (circuit : MMRCircuit p) : Outcome Bool :=
  let hashed0 := h [circuit.Leaf]
  let st := circuit.ProofElements.foldl (defineStep h) (hashed0, true)
  let hashed := st.1
  match circuit.Peaks with
  | [] => Outcome.panicked
  | peak0 :: rest =>
    let mul := rest.foldl (fun mul peak => mul * apiCmp peak hashed) (apiCmp peak0 hashed)
    let minusMul := -mul
    let calculatedRoot := h circuit.Peaks
    Outcome.done (st.2 && decide (mul = minusMul) && decide (calculatedRoot = circuit.Root))

/-- The assignment of a flag in `TestSimpleMMR`: `IsLeft` becomes `1` or `0`. -/
def flagOf {p : Nat} (isLeft : Bool) : ZMod p := if isLeft then 1 else 0

/-- The witness that `TestSimpleMMR` fills from a native proof, leaf and root: every byte
slice is assigned to its circuit variable, which gnark reads as an integer reduced into
the field (`toField`), and every `IsLeft` becomes `1` or `0`. -/
def fillWitness {p : Nat} (toField : Bytes → ZMod p) (proof : MMRProof) (leaf root : Bytes) :
    MMRCircuit p :=
  ⟨toField root, proof.MerkleProof.map fun e => ⟨toField e.Hash, flagOf e.IsLeft⟩,
    proof.Peaks.map toField, toField leaf⟩

instance prime_seven : Fact (Nat.Prime 7) := ⟨by norm_num⟩

/-- Canonical one-byte encoding of an element of `ZMod 7`. -/
def encode7 (x : ZMod 7) : Bytes := [Fin.ofNat x.val]

/-- Field element encoded by a byte string (zero when it is not one byte). -/
def decode7 : Bytes → ZMod 7
  | [b] => (b.val : ZMod 7)
  | _ => 0

/-- A toy circuit hash on `ZMod 7`. -/
def sumHash7 : FieldHasher 7 := fun xs => xs.foldl (fun acc x => 3 * acc + x + 1) 0

/-- The native hash that corresponds to `sumHash7` under `encode7`. -/
def sumHashBytes7 : Hasher := fun chunks => encode7 (sumHash7 (chunks.map decode7))

/-! ## The right-sibling step as the specification words it -/

/-- The right-sibling step with the range test of the specification: the sibling is
recorded when `nextElmIndex` lies within the stored range, `nextElmIndex < len elements`.
Everything else is as in `addRightElm`. -/
def addRightElmSpec (currIndex height : Nat) (mmr : MMR) (proofElms : List ProofElement) :
    Outcome (List ProofElement × Nat × Bool) :=
  let nextElmIndex := add64 currIndex (sub64 (shl64 1 ((height + 1) % 2 ^ 32)) 1)
  if nextElmIndex < toU64 mmr.elements.length then
    match mmr.elements[nextElmIndex]? with
    | none => Outcome.panicked
    | some e => Outcome.done (proofElms ++ [⟨e, false⟩], add64 nextElmIndex 1, true)
  else Outcome.done (proofElms, currIndex, false)

/-- The loop of `GetSubtreeProofElm` with `addRightElmSpec` in the place of
`addRightElm`. -/
def GetSubtreeProofElmSpecLoop (mmr : MMR) :
    Nat → List ProofElement → Nat → Nat → Outcome (List ProofElement)
  | 0, _, _, _ => Outcome.outOfFuel
  | fuel + 1, proofElms, currIndex, height =>
    let size := sub64 (shl64 1 ((height + 1) % 2 ^ 32)) 1
    let right : Outcome (List ProofElement) :=
      match addRightElmSpec currIndex height mmr proofElms with
      | Outcome.done (proofElms1, currIndex1, inTree) =>
        if inTree then
          GetSubtreeProofElmSpecLoop mmr fuel proofElms1 currIndex1 ((height + 1) % 2 ^ 32)
        else Outcome.done proofElms1
      | Outcome.panicked => Outcome.panicked
      | Outcome.outOfFuel => Outcome.outOfFuel
    if currIndex ≥ size then
      let prevElmIndex := sub64 currIndex size
      let heightPrevElm := (HeightBitmapForMMRSize prevElmIndex).2
      if heightPrevElm = height then
        match mmr.elements[prevElmIndex]? with
        | none => Outcome.panicked
        | some e =>
          GetSubtreeProofElmSpecLoop mmr fuel (proofElms ++ [⟨e, true⟩]) (add64 currIndex 1)
            ((height + 1) % 2 ^ 32)
      else right
    else right

/-- The proof builder of the specification: `GetSubtreeProofElm` with the range test
`nextElmIndex < len elements`. -/
def GetSubtreeProofElmSpec (mmr : MMR) (mmrIndex : Nat) : Outcome (List ProofElement) :=
  GetSubtreeProofElmSpecLoop mmr 65 [] mmrIndex 0

/-! ## `AddLeaf` over a hash whose `Write` can report an error -/

/-- A Go `hash.Hash` with its state made explicit: `reset` is the state after `Reset()`,
`write s b` is the state after `Write(b)` in state `s` together with whether the call
returned a non-nil error, and `sum s` is `Sum(nil)` in state `s`. -/
structure FallibleHash (σ : Type) where
  reset : σ
  write : σ → Bytes → σ × Bool
  sum : σ → Bytes

/-- The loop `for peaks > 0` of `AddLeaf` over a `FallibleHash`: the results of the two
`mmr.hash.Write` calls of a merge are not looked at. -/
def AddLeafWithErrorsLoop {σ : Type} (fh : FallibleHash σ) :
    Nat → List Bytes → Nat → Nat → Bytes → Nat → Outcome (List Bytes)
  | 0, _, _, _, _, _ => Outcome.outOfFuel
  | fuel + 1, elements, peaks, currentPos, nextHash, height =>
    if peaks > 0 then
      if peaks &&& 1 = 1 then
        let prevPeakIndex := sub64 currentPos (sub64 (shl64 1 height) 1)
        match elements[prevPeakIndex]? with
        | none => Outcome.panicked
        | some prevPeak =>
          let s := fh.reset
          let s := (fh.write s prevPeak).1
          let s := (fh.write s nextHash).1
          let nextHash := fh.sum s
          AddLeafWithErrorsLoop fh fuel (elements ++ [nextHash]) (peaks >>> 1)
            (add64 currentPos 1) nextHash (height + 1)
      else Outcome.done elements
    else Outcome.done elements

/-- Go `(mmr *MMR) AddLeaf(leaf []byte)` over a `FallibleHash`: the error of the leaf
write is checked (`if err != nil { panic(err) }`), those of the merge writes are not. -/
def AddLeafWithErrors {σ : Type} (fh : FallibleHash σ) (elements : List Bytes)
    (leaf : Bytes) : Outcome (List Bytes) :=
  let s := fh.reset
  let w := fh.write s leaf
  if w.2 then Outcome.panicked
  else
    let hashedLeaf := fh.sum w.1
    if elements.length = 0 then Outcome.done (elements ++ [hashedLeaf])
    else
      let peaks := (HeightBitmapForMMRSize (toU64 elements.length)).1
      let currentPos := toU64 elements.length
      AddLeafWithErrorsLoop fh 65 (elements ++ [hashedLeaf]) peaks currentPos hashedLeaf 1

/-- A hash that never reports an error: the state is the sequence of chunks written. -/
def infallible (h : Hasher) : FallibleHash (List Bytes) :=
  ⟨[], fun s b => (s ++ [b], false), h⟩

/-- A hash whose `Write` reports an error, and absorbs nothing, whenever something has
been written since the last `Reset`; `Sum` is the concatenation of what was absorbed. -/
def secondWriteFails : FallibleHash (List Bytes) :=
  ⟨[], fun s b => if s = [] then ([b], false) else (s, true), concatHash⟩

/-! ## Peaks named by a height bitmap -/

/-- The heights below `k` at which the bitmap `b` has a set bit, tallest first. -/
def peakHeights (b : Nat) : Nat → List Nat
  | 0 => []
  | k + 1 => (if (b / 2 ^ k) % 2 = 1 then [k] else []) ++ peakHeights b k

/-- Sum of the subtree sizes `2 ^ (i + 1) - 1` over the set bits `i` of `b` below `k`
that are at height `j` or higher. -/
def subtreeSizeSum (b k j : Nat) : Nat :=
  (((peakHeights b k).filter fun i => j ≤ i).map fun i => 2 ^ (i + 1) - 1).sum

/-! ## Closed forms used by the claims -/

/-! ## Arithmetic of `popcount`, `trailingOnes` and `mmrSize` -/

theorem popcountAux_fuel : ∀ (f g n : Nat), n < 2 ^ f → n < 2 ^ g →
    popcountAux f n = popcountAux g n := by
  intro f
  induction f with
  | zero =>
    intro g n hf _
    have hn : n = 0 := by simpa using hf
    subst hn
    cases g <;> simp [popcountAux]
  | succ f ih =>
    intro g n hf hg
    cases g with
    | zero =>
      have hn : n = 0 := by simpa using hg
      subst hn
      simp [popcountAux]
    | succ g =>
      simp only [popcountAux]
      by_cases hn : n = 0
      · simp [hn]
      · simp only [hn, if_false]
        rw [ih g (n / 2) (by rw [pow_succ] at hf; omega) (by rw [pow_succ] at hg; omega)]

theorem popcount_zero : popcount 0 = 0 := rfl

theorem popcount_step (n : Nat) (hn : n ≠ 0) : popcount n = n % 2 + popcount (n / 2) := by
  obtain ⟨m, rfl⟩ := Nat.exists_eq_succ_of_ne_zero hn
  show popcountAux (m + 1) (m + 1) = _
  simp only [popcountAux, popcount]
  simp only [Nat.succ_ne_zero, if_false]
  congr 1
  apply popcountAux_fuel
  · have : (m + 1) / 2 ≤ m := by omega
    exact lt_of_le_of_lt this (Nat.lt_two_pow m)
  · exact Nat.lt_two_pow _

theorem popcount_double (n : Nat) : popcount (2 * n) = popcount n := by
  by_cases hn : n = 0
  · subst hn; rfl
  · rw [popcount_step (2 * n) (by omega)]
    have h1 : 2 * n % 2 = 0 := by omega
    have h2 : 2 * n / 2 = n := by omega
    rw [h1, h2]; omega

theorem popcount_double_succ (n : Nat) : popcount (2 * n + 1) = popcount n + 1 := by
  rw [popcount_step (2 * n + 1) (by omega)]
  have h1 : (2 * n + 1) % 2 = 1 := by omega
  have h2 : (2 * n + 1) / 2 = n := by omega
  rw [h1, h2]; omega

theorem trailingOnesAux_fuel : ∀ (f g n : Nat), n < 2 ^ f → n < 2 ^ g →
    trailingOnesAux f n = trailingOnesAux g n := by
  intro f
  induction f with
  | zero =>
    intro g n hf _
    have hn : n = 0 := by simpa using hf
    subst hn
    cases g <;> simp [trailingOnesAux]
  | succ f ih =>
    intro g n hf hg
    cases g with
    | zero =>
      have hn : n = 0 := by simpa using hg
      subst hn
      simp [trailingOnesAux]
    | succ g =>
      simp only [trailingOnesAux]
      by_cases hn : n % 2 = 1
      · simp only [hn, if_true]
        rw [ih g (n / 2) (by rw [pow_succ] at hf; omega) (by rw [pow_succ] at hg; omega)]
      · simp [hn]

theorem trailingOnes_double (n : Nat) : trailingOnes (2 * n) = 0 := by
  unfold trailingOnes
  cases h : 2 * n with
  | zero => rfl
  | succ m =>
    simp only [trailingOnesAux]
    have : (m + 1) % 2 ≠ 1 := by omega
    simp [this]

theorem trailingOnes_double_succ (n : Nat) : trailingOnes (2 * n + 1) = trailingOnes n + 1 := by
  show trailingOnesAux (2 * n + 1) (2 * n + 1) = _
  simp only [trailingOnesAux, trailingOnes]
  have h1 : (2 * n + 1) % 2 = 1 := by omega
  have h2 : (2 * n + 1) / 2 = n := by omega
  simp only [h1, if_true, h2]
  congr 1
  apply trailingOnesAux_fuel
  · exact lt_of_le_of_lt (by omega : n ≤ 2 * n) (Nat.lt_two_pow _)
  · exact Nat.lt_two_pow _

/-- Induction on the binary representation. -/
theorem binary_induction {P : Nat → Prop} (h0 : P 0) (heven : ∀ n, 0 < n → P n → P (2 * n))
    (hodd : ∀ n, P n → P (2 * n + 1)) : ∀ n, P n := by
  intro n
  induction n using Nat.strong_induction_on with
  | _ n ih =>
    by_cases hn : n = 0
    · subst hn; exact h0
    · rcases Nat.even_or_odd' n with ⟨m, rfl | rfl⟩
      · exact heven m (by omega) (ih m (by omega))
      · exact hodd m (ih m (by omega))

theorem popcount_le (n : Nat) : popcount n ≤ n := by
  induction n using binary_induction with
  | h0 => simp [popcount_zero]
  | heven n _ ih => rw [popcount_double]; omega
  | hodd n ih => rw [popcount_double_succ]; omega

theorem mmrSize_add_popcount (n : Nat) : mmrSize n + popcount n = 2 * n := by
  have := popcount_le n
  unfold mmrSize; omega

theorem popcount_succ (n : Nat) : popcount (n + 1) + trailingOnes n = popcount n + 1 := by
  induction n using binary_induction with
  | h0 => decide
  | heven n _ _ => rw [popcount_double_succ, trailingOnes_double, popcount_double]
  | hodd n ih =>
    have : 2 * n + 1 + 1 = 2 * (n + 1) := by ring
    rw [this, popcount_double, trailingOnes_double_succ, popcount_double_succ]; omega

theorem mmrSize_succ (n : Nat) : mmrSize (n + 1) = mmrSize n + trailingOnes n + 1 := by
  have h1 := mmrSize_add_popcount n
  have h2 := mmrSize_add_popcount (n + 1)
  have h3 := popcount_succ n
  omega

theorem mmrSize_zero : mmrSize 0 = 0 := rfl

theorem mmrSize_strictMono : StrictMono mmrSize := by
  apply strictMono_nat_of_lt_succ
  intro n; rw [mmrSize_succ]; omega

theorem mmrSize_lt_iff {a b : Nat} : mmrSize a < mmrSize b ↔ a < b :=
  mmrSize_strictMono.lt_iff_lt

theorem mmrSize_le_iff {a b : Nat} : mmrSize a ≤ mmrSize b ↔ a ≤ b :=
  mmrSize_strictMono.le_iff_le

theorem le_mmrSize (n : Nat) : n ≤ mmrSize n := by
  have := mmrSize_add_popcount n
  have := popcount_le n
  omega

/-- The decomposition of a storage index as `mmrSize n + r` with `r ≤ trailingOnes n`
is unique. -/
theorem mmrSize_decomp_unique {n r n' r' : Nat} (hr : r ≤ trailingOnes n)
    (hr' : r' ≤ trailingOnes n') (h : mmrSize n + r = mmrSize n' + r') : n = n' ∧ r = r' := by
  have key : ∀ a b ra rb, ra ≤ trailingOnes a → mmrSize a + ra = mmrSize b + rb → ¬ a < b := by
    intro a b ra rb hra hab hlt
    have h1 : mmrSize (a + 1) ≤ mmrSize b := mmrSize_le_iff.mpr hlt
    rw [mmrSize_succ] at h1
    omega
  have hn : n = n' := by
    rcases Nat.lt_trichotomy n n' with h1 | h1 | h1
    · exact absurd h1 (key n n' r r' hr h)
    · exact h1
    · exact absurd h1 (key n' n r' r hr' h.symm)
  subst hn
  exact ⟨rfl, by omega⟩

theorem popcount_shift (a k : Nat) : ∀ b, b < 2 ^ k →
    popcount (a * 2 ^ k + b) = popcount a + popcount b := by
  induction k with
  | zero => intro b hb; have : b = 0 := by simpa using hb
            subst this; simp [popcount_zero]
  | succ k ih =>
    intro b hb
    rw [pow_succ] at hb
    have hb2 : b / 2 < 2 ^ k := by omega
    rcases Nat.mod_two_eq_zero_or_one b with h | h
    · have e0 : a * 2 ^ (k + 1) = 2 * (a * 2 ^ k) := by ring
      have e1 : a * 2 ^ (k + 1) + b = 2 * (a * 2 ^ k + b / 2) := by omega
      have e2 : b = 2 * (b / 2) := by omega
      rw [e1, popcount_double, ih _ hb2]
      conv_rhs => rw [e2, popcount_double]
    · have e0 : a * 2 ^ (k + 1) = 2 * (a * 2 ^ k) := by ring
      have e1 : a * 2 ^ (k + 1) + b = 2 * (a * 2 ^ k + b / 2) + 1 := by omega
      have e2 : b = 2 * (b / 2) + 1 := by omega
      rw [e1, popcount_double_succ, ih _ hb2]
      conv_rhs => rw [e2, popcount_double_succ]
      omega

theorem popcount_mul_pow (a k : Nat) : popcount (a * 2 ^ k) = popcount a := by
  have := popcount_shift a k 0 (by positivity)
  simpa [popcount_zero] using this

theorem popcount_pow_sub_one (k : Nat) : popcount (2 ^ k - 1) = k := by
  induction k with
  | zero => rfl
  | succ k ih =>
    have hk : 0 < 2 ^ k := by positivity
    have : 2 ^ (k + 1) - 1 = 2 * (2 ^ k - 1) + 1 := by rw [pow_succ]; omega
    rw [this, popcount_double_succ, ih]

theorem trailingOnes_shift (a k : Nat) :
    trailingOnes (a * 2 ^ k + (2 ^ k - 1)) = trailingOnes a + k := by
  induction k with
  | zero => simp
  | succ k ih =>
    have hk : 0 < 2 ^ k := by positivity
    have e0 : a * 2 ^ (k + 1) = 2 * (a * 2 ^ k) := by ring
    have : a * 2 ^ (k + 1) + (2 ^ (k + 1) - 1) = 2 * (a * 2 ^ k + (2 ^ k - 1)) + 1 := by
      rw [e0, pow_succ]; omega
    rw [this, trailingOnes_double_succ, ih]; omega

theorem two_mul_succ_mod (m c : Nat) (hc : 0 < c) :
    (2 * m + 1) % (2 * c) = 2 * (m % c) + 1 := by
  have h1 := Nat.div_add_mod m c
  have h2 := Nat.mod_lt m hc
  have e : 2 * m + 1 = 2 * c * (m / c) + (2 * (m % c) + 1) := by
    have : 2 * c * (m / c) = 2 * (c * (m / c)) := by ring
    omega
  rw [e, Nat.mul_add_mod, Nat.mod_eq_of_lt (by omega)]

/-- The low `r` bits of `n` are ones when `r ≤ trailingOnes n`. -/
theorem trailingOnes_ge_iff (r : Nat) : ∀ n, r ≤ trailingOnes n ↔ n % 2 ^ r = 2 ^ r - 1 := by
  induction r with
  | zero => intro n; simp [Nat.mod_one]
  | succ r ih =>
    intro n
    have hr : 0 < 2 ^ r := by positivity
    rcases Nat.even_or_odd' n with ⟨m, rfl | rfl⟩
    · rw [trailingOnes_double, pow_succ, Nat.mul_comm (2 ^ r) 2, Nat.mul_mod_mul_left]
      constructor
      · intro h; omega
      · intro h; omega
    · rw [trailingOnes_double_succ, pow_succ, Nat.mul_comm (2 ^ r) 2, two_mul_succ_mod _ _ hr]
      have := ih m
      omega

/-! ## 64-bit helper facts -/

theorem bitLength_le (f x : Nat) : bitLength f x ≤ f := by
  induction f generalizing x with
  | zero => simp [bitLength]
  | succ f ih =>
    simp only [bitLength]
    split
    · omega
    · have := ih (x / 2); omega

theorem lt_two_pow_bitLength (f : Nat) : ∀ x, x < 2 ^ f → x < 2 ^ bitLength f x := by
  induction f with
  | zero => intro x hx; simpa [bitLength] using hx
  | succ f ih =>
    intro x hx
    simp only [bitLength]
    split
    · simp [*]
    · rw [pow_succ] at hx
      have := ih (x / 2) (by omega)
      rw [pow_succ]; omega

theorem Len64_le (x : Nat) : Len64 x ≤ 64 := bitLength_le 64 x

theorem lt_two_pow_Len64 (x : Nat) (hx : x < 2 ^ 64) : x < 2 ^ Len64 x :=
  lt_two_pow_bitLength 64 x hx

theorem allPeaksSet_eq (x : Nat) : MaxUint64 >>> LeadingZeros64 x = 2 ^ Len64 x - 1 := by
  have hm := Len64_le x
  unfold MaxUint64 LeadingZeros64
  generalize Len64 x = m at hm
  rw [Nat.shiftRight_eq_div_pow]
  have h64 : (2 : Nat) ^ 64 = 2 ^ m * 2 ^ (64 - m) := by
    rw [← pow_add]; congr 1; omega
  have hpos : 0 < 2 ^ (64 - m) := by positivity
  have hm1 : 0 < 2 ^ m := by positivity
  rw [h64]
  apply Nat.div_eq_of_lt_le
  · have : (2 ^ m - 1) * 2 ^ (64 - m) = 2 ^ m * 2 ^ (64 - m) - 2 ^ (64 - m) := by
      rw [Nat.sub_mul]; simp
    rw [this]
    have : 2 ^ (64 - m) ≤ 2 ^ m * 2 ^ (64 - m) := Nat.le_mul_of_pos_left _ hm1
    omega
  · have : (2 ^ m - 1 + 1) * 2 ^ (64 - m) = 2 ^ m * 2 ^ (64 - m) := by
      congr 1; omega
    rw [this]; omega

theorem pow_succ_sub_one_shiftRight (k : Nat) : (2 ^ (k + 1) - 1) >>> 1 = 2 ^ k - 1 := by
  have hk : 0 < 2 ^ k := by positivity
  rw [Nat.shiftRight_eq_div_pow, pow_succ]; omega

theorem shl64_one (p : Nat) (hp : 2 * p < 2 ^ 64) : shl64 p 1 = 2 * p := by
  unfold shl64
  rw [Nat.shiftLeft_eq, Nat.mod_eq_of_lt (by omega)]; omega

theorem two_mul_lor_one (p : Nat) : 2 * p ||| 1 = 2 * p + 1 := by
  have h := Nat.mul_add_lt_is_or (i := 1) (b := 1) (by norm_num) p
  simp only [pow_one] at h
  rw [← h]

/-! ## The height-bitmap oracle decomposes a size as `mmrSize p + r` -/

theorem mmrSize_double_succ_shift (p k : Nat) :
    mmrSize ((2 * p + 1) * 2 ^ k) = mmrSize (p * 2 ^ (k + 1)) + (2 ^ (k + 1) - 1) := by
  have h1 := mmrSize_add_popcount ((2 * p + 1) * 2 ^ k)
  have h2 := mmrSize_add_popcount (p * 2 ^ (k + 1))
  rw [popcount_mul_pow, popcount_double_succ] at h1
  rw [popcount_mul_pow] at h2
  have e1 : (2 * p + 1) * 2 ^ k = 2 * (p * 2 ^ k) + 2 ^ k := by ring
  have e2 : p * 2 ^ (k + 1) = 2 * (p * 2 ^ k) := by ring
  have hk : 0 < 2 ^ k := by positivity
  have e3 : 2 ^ (k + 1) = 2 * 2 ^ k := by ring
  have hp : popcount p ≤ p := popcount_le p
  have hp2 : p ≤ p * 2 ^ k := Nat.le_mul_of_pos_right _ hk
  rw [e1] at h1 ⊢
  rw [e2] at h2 ⊢
  rw [e3]
  omega

theorem HeightBitmapLoop_spec : ∀ (k fuel upd p : Nat), k ≤ fuel → (p + 1) * 2 ^ k ≤ 2 ^ 64 →
    upd ≤ 2 * (2 ^ k - 1) + trailingOnes p →
    mmrSize (HeightBitmapLoop fuel (2 ^ k - 1) upd p).1 + (HeightBitmapLoop fuel (2 ^ k - 1) upd p).2
        = mmrSize (p * 2 ^ k) + upd ∧
      (HeightBitmapLoop fuel (2 ^ k - 1) upd p).2
        ≤ trailingOnes (HeightBitmapLoop fuel (2 ^ k - 1) upd p).1 ∧
      (HeightBitmapLoop fuel (2 ^ k - 1) upd p).1 < (p + 1) * 2 ^ k := by
  intro k
  induction k with
  | zero =>
    intro fuel upd p _ _ hupd
    have : HeightBitmapLoop fuel (2 ^ 0 - 1) upd p = (p, upd) := by
      cases fuel <;> simp [HeightBitmapLoop]
    rw [this]
    simp at hupd ⊢
    exact hupd
  | succ k ih =>
    intro fuel upd p hfuel hp hupd
    obtain ⟨f, rfl⟩ : ∃ f, fuel = f + 1 := ⟨fuel - 1, by omega⟩
    have hk : 0 < 2 ^ k := by positivity
    have e3 : 2 ^ (k + 1) = 2 * 2 ^ k := by ring
    have hpk : 2 * p < 2 ^ 64 := by
      have : (p + 1) * 2 ^ (k + 1) = 2 * ((p + 1) * 2 ^ k) := by ring
      have : p + 1 ≤ (p + 1) * 2 ^ k := Nat.le_mul_of_pos_right _ hk
      omega
    have hsub : 2 ^ (k + 1) - 1 > 0 := by omega
    simp only [HeightBitmapLoop, hsub, if_true, pow_succ_sub_one_shiftRight, shl64_one p hpk,
      two_mul_lor_one]
    by_cases hge : upd ≥ 2 ^ (k + 1) - 1
    · simp only [hge, if_true]
      have hp1 : (2 * p + 1 + 1) * 2 ^ k ≤ 2 ^ 64 := by
        have : (2 * p + 1 + 1) * 2 ^ k = (p + 1) * 2 ^ (k + 1) := by ring
        omega
      have hu1 : upd - (2 ^ (k + 1) - 1) ≤ 2 * (2 ^ k - 1) + trailingOnes (2 * p + 1) := by
        rw [trailingOnes_double_succ]; omega
      obtain ⟨h1, h2, h3⟩ := ih f (upd - (2 ^ (k + 1) - 1)) (2 * p + 1) (by omega) hp1 hu1
      refine ⟨?_, h2, ?_⟩
      · rw [h1, mmrSize_double_succ_shift]; omega
      · have : (2 * p + 1 + 1) * 2 ^ k = (p + 1) * 2 ^ (k + 1) := by ring
        omega
    · simp only [hge, if_false]
      have hp1 : (2 * p + 1) * 2 ^ k ≤ 2 ^ 64 := by
        have : (p + 1) * 2 ^ (k + 1) = (2 * p + 1) * 2 ^ k + 2 ^ k := by ring
        omega
      have hu1 : upd ≤ 2 * (2 ^ k - 1) + trailingOnes (2 * p) := by
        rw [trailingOnes_double]; omega
      obtain ⟨h1, h2, h3⟩ := ih f upd (2 * p) (by omega) hp1 hu1
      refine ⟨?_, h2, ?_⟩
      · rw [h1]
        have : 2 * p * 2 ^ k = p * 2 ^ (k + 1) := by ring
        rw [this]
      · have : (p + 1) * 2 ^ (k + 1) = (2 * p + 1) * 2 ^ k + 2 ^ k := by ring
        omega

/-- Every 64-bit size splits as `mmrSize peaks + residual` with the residual at most the
number of trailing one bits of `peaks`. -/
theorem HeightBitmapForMMRSize_spec (size : Nat) (hsize : size < 2 ^ 64) :
    mmrSize (HeightBitmapForMMRSize size).1 + (HeightBitmapForMMRSize size).2 = size ∧
      (HeightBitmapForMMRSize size).2 ≤ trailingOnes (HeightBitmapForMMRSize size).1 ∧
      (HeightBitmapForMMRSize size).1 < 2 ^ 64 := by
  unfold HeightBitmapForMMRSize
  by_cases h0 : size = 0
  · subst h0; simp [mmrSize_zero]
  · simp only [h0, if_false, allPeaksSet_eq]
    have hm := Len64_le size
    have hlt := lt_two_pow_Len64 size hsize
    have hpow : 2 ^ Len64 size ≤ 2 ^ 64 := Nat.pow_le_pow_right (by norm_num) hm
    obtain ⟨h1, h2, h3⟩ := HeightBitmapLoop_spec (Len64 size) 64 size 0 hm (by simpa using hpow)
      (by omega)
    refine ⟨?_, h2, ?_⟩
    · rw [h1]; simp [mmrSize_zero]
    · simp at h3; omega

/-- The oracle on the index `mmrSize n + r` of the `r`-th element written while appending
leaf `n`. -/
theorem HeightBitmapForMMRSize_decomp (n r : Nat) (hr : r ≤ trailingOnes n)
    (hsize : mmrSize n + r < 2 ^ 64) : HeightBitmapForMMRSize (mmrSize n + r) = (n, r) := by
  obtain ⟨h1, h2, _⟩ := HeightBitmapForMMRSize_spec (mmrSize n + r) hsize
  obtain ⟨e1, e2⟩ := mmrSize_decomp_unique h2 hr h1
  exact Prod.ext e1 e2

theorem HeightBitmapLoop_fuel : ∀ (f g sub upd p : Nat), sub < 2 ^ f → sub < 2 ^ g →
    HeightBitmapLoop f sub upd p = HeightBitmapLoop g sub upd p := by
  intro f
  induction f with
  | zero =>
    intro g sub upd p hf _
    have : sub = 0 := by simpa using hf
    subst this
    cases g <;> simp [HeightBitmapLoop]
  | succ f ih =>
    intro g sub upd p hf hg
    cases g with
    | zero =>
      have : sub = 0 := by simpa using hg
      subst this
      simp [HeightBitmapLoop]
    | succ g =>
      rw [pow_succ] at hf hg
      have h1 : sub >>> 1 < 2 ^ f := by rw [Nat.shiftRight_eq_div_pow]; omega
      have h2 : sub >>> 1 < 2 ^ g := by rw [Nat.shiftRight_eq_div_pow]; omega
      simp only [HeightBitmapLoop]
      rw [ih g _ _ _ h1 h2, ih g _ _ _ h1 h2]

/-! ## Layout of the store -/

theorem nodeIndex_add (r a : Nat) : nodeIndex r a + 2 + popcount a = (a + 1) * 2 ^ (r + 1) := by
  have h1 := popcount_le a
  have h2 : 0 < 2 ^ r := by positivity
  have h3 : (a + 1) * 2 ^ (r + 1) = 2 * ((a + 1) * 2 ^ r) := by ring
  have h4 : a + 1 ≤ (a + 1) * 2 ^ r := Nat.le_mul_of_pos_right _ h2
  unfold nodeIndex
  omega

theorem nodeIndex_eq (r a : Nat) : nodeIndex r a = mmrSize (a * 2 ^ r + (2 ^ r - 1)) + r := by
  have h1 := nodeIndex_add r a
  have h2 := mmrSize_add_popcount (a * 2 ^ r + (2 ^ r - 1))
  have hr : 0 < 2 ^ r := by positivity
  rw [popcount_shift a r _ (by omega), popcount_pow_sub_one] at h2
  have h3 : (a + 1) * 2 ^ (r + 1) = 2 * (a * 2 ^ r) + 2 * 2 ^ r := by ring
  omega

theorem le_trailingOnes_node (r a : Nat) : r ≤ trailingOnes (a * 2 ^ r + (2 ^ r - 1)) := by
  rw [trailingOnes_shift]; omega

theorem HeightBitmapForMMRSize_nodeIndex (r a : Nat) (hlt : nodeIndex r a < 2 ^ 64) :
    HeightBitmapForMMRSize (nodeIndex r a) = (a * 2 ^ r + (2 ^ r - 1), r) := by
  rw [nodeIndex_eq] at hlt ⊢
  exact HeightBitmapForMMRSize_decomp _ _ (le_trailingOnes_node r a) hlt

theorem nodeIndex_lt_mmrSize_iff (r a N : Nat) :
    nodeIndex r a < mmrSize N ↔ (a + 1) * 2 ^ r ≤ N := by
  have hr : 0 < 2 ^ r := by positivity
  have e : (a + 1) * 2 ^ r = a * 2 ^ r + (2 ^ r - 1) + 1 := by
    have : (a + 1) * 2 ^ r = a * 2 ^ r + 2 ^ r := by ring
    omega
  rw [nodeIndex_eq, e]
  have hto := le_trailingOnes_node r a
  generalize a * 2 ^ r + (2 ^ r - 1) = n at hto ⊢
  constructor
  · intro hlt
    by_contra hcon
    have : mmrSize N ≤ mmrSize n := mmrSize_le_iff.mpr (by omega)
    omega
  · intro hle
    have h1 : mmrSize (n + 1) ≤ mmrSize N := mmrSize_le_iff.mpr hle
    rw [mmrSize_succ] at h1
    omega

theorem nodeIndex_odd_succ (r b : Nat) : nodeIndex r (2 * b + 1) + 1 = nodeIndex (r + 1) b := by
  have h1 := nodeIndex_add r (2 * b + 1)
  have h2 := nodeIndex_add (r + 1) b
  rw [popcount_double_succ] at h1
  have e : (2 * b + 1 + 1) * 2 ^ (r + 1) = (b + 1) * 2 ^ (r + 1 + 1) := by ring
  omega

theorem nodeIndex_even_add (r b : Nat) :
    nodeIndex r (2 * b) + (2 ^ (r + 1) - 1) = nodeIndex r (2 * b + 1) := by
  have h1 := nodeIndex_add r (2 * b + 1)
  have h2 := nodeIndex_add r (2 * b)
  rw [popcount_double_succ] at h1
  rw [popcount_double] at h2
  have e : (2 * b + 1 + 1) * 2 ^ (r + 1) = (2 * b + 1) * 2 ^ (r + 1) + 2 ^ (r + 1) := by ring
  have hr : 0 < 2 ^ (r + 1) := by positivity
  omega

theorem subtreeRoot_succ_even (h : Hasher) (leaf : Nat → Bytes) (r b : Nat) :
    subtreeRoot h leaf (r + 1) (b * 2 ^ (r + 1)) =
      h [subtreeRoot h leaf r (2 * b * 2 ^ r), subtreeRoot h leaf r ((2 * b + 1) * 2 ^ r)] := by
  have e1 : b * 2 ^ (r + 1) = 2 * b * 2 ^ r := by ring
  have e2 : 2 * b * 2 ^ r + 2 ^ r = (2 * b + 1) * 2 ^ r := by ring
  simp only [subtreeRoot, e1, e2]

theorem StoreInv.get {h : Hasher} {leaf : Nat → Bytes} {N : Nat} {els : List Bytes}
    (inv : StoreInv h leaf N els) (r a : Nat) (ha : (a + 1) * 2 ^ r ≤ N) :
    els[nodeIndex r a]? = some (subtreeRoot h leaf r (a * 2 ^ r)) := inv.2 r a ha

/-! ## 64-bit facts used by the loops -/

theorem sub64_of_le (a b : Nat) (ha : a < 2 ^ 64) (hb : b ≤ a) : sub64 a b = a - b := by
  unfold sub64
  rw [Nat.mod_eq_of_lt (by omega : b < 2 ^ 64)]
  have : a + 2 ^ 64 - b = (a - b) + 2 ^ 64 := by omega
  rw [this, Nat.add_mod_right, Nat.mod_eq_of_lt (by omega)]

theorem add64_of_lt (a b : Nat) (h : a + b < 2 ^ 64) : add64 a b = a + b := by
  unfold add64; exact Nat.mod_eq_of_lt h

theorem shl64_one_left (s : Nat) (hs : s < 64) : shl64 1 s = 2 ^ s := by
  unfold shl64
  rw [Nat.shiftLeft_eq, one_mul]
  exact Nat.mod_eq_of_lt (Nat.pow_lt_pow_right (by norm_num) hs)

theorem subtreeSize64 (s : Nat) (hs : s < 64) : sub64 (shl64 1 s) 1 = 2 ^ s - 1 := by
  have h1 : 2 ^ s < 2 ^ 64 := Nat.pow_lt_pow_right (by norm_num) hs
  have h2 : 0 < 2 ^ s := by positivity
  rw [shl64_one_left s hs, sub64_of_le _ _ h1 (by omega)]

theorem toU64_of_lt (x : Nat) (h : x < 2 ^ 64) : toU64 x = x := Nat.mod_eq_of_lt h

/-! ## `AddLeaf` on a reachable store -/

theorem subtreeSize64_le (s : Nat) (hs : s ≤ 64) : sub64 (shl64 1 s) 1 = 2 ^ s - 1 := by
  rcases Nat.lt_or_ge s 64 with h | h
  · exact subtreeSize64 s h
  · have : s = 64 := by omega
    subst this
    decide

theorem trailingOnes_split (N i : Nat) (hi : i ≤ trailingOnes N) :
    N = N / 2 ^ i * 2 ^ i + (2 ^ i - 1) := by
  have h1 := (trailingOnes_ge_iff i N).mp hi
  have h2 := Nat.div_add_mod N (2 ^ i)
  rw [Nat.mul_comm] at h2
  omega

theorem trailingOnes_div (N i : Nat) (hi : i ≤ trailingOnes N) :
    trailingOnes (N / 2 ^ i) + i = trailingOnes N := by
  have h := trailingOnes_shift (N / 2 ^ i) i
  rw [← trailingOnes_split N i hi] at h
  omega

theorem trailingOnes_pos_iff (m : Nat) : 1 ≤ trailingOnes m ↔ m % 2 = 1 := by
  have := trailingOnes_ge_iff 1 m
  simpa using this

theorem mmrSize_add_eq_nodeIndex (N i : Nat) (hi : i ≤ trailingOnes N) :
    mmrSize N + i = nodeIndex i (N / 2 ^ i) := by
  rw [nodeIndex_eq, ← trailingOnes_split N i hi]

theorem newElems_succ (h : Hasher) (leaf : Nat → Bytes) (N cnt : Nat) :
    newElems h leaf N (cnt + 1) =
      newElems h leaf N cnt ++ [subtreeRoot h leaf cnt (N / 2 ^ cnt * 2 ^ cnt)] := by
  simp [newElems, List.range_succ]

theorem newElems_length (h : Hasher) (leaf : Nat → Bytes) (N cnt : Nat) :
    (newElems h leaf N cnt).length = cnt := by
  simp [newElems]

theorem AddLeafLoop_reach (h : Hasher) (leaf : Nat → Bytes) (N : Nat) (els : List Bytes)
    (inv : StoreInv h leaf N els) (hN : mmrSize (N + 1) ≤ 2 ^ 64) :
    ∀ (m i fuel : Nat), i + m = trailingOnes N → m < fuel →
      AddLeafLoop h fuel (els ++ newElems h leaf N (i + 1)) (N / 2 ^ i) (mmrSize N + i)
          (subtreeRoot h leaf i (N / 2 ^ i * 2 ^ i)) (i + 1)
        = Outcome.done (els ++ newElems h leaf N (trailingOnes N + 1)) := by
  intro m
  induction m with
  | zero =>
    intro i fuel hi hfuel
    obtain ⟨f, rfl⟩ : ∃ f, fuel = f + 1 := ⟨fuel - 1, by omega⟩
    have hi' : i = trailingOnes N := by omega
    have hdiv := trailingOnes_div N i (by omega)
    have hodd : ¬ (N / 2 ^ i) % 2 = 1 := by
      intro hc
      have := (trailingOnes_pos_iff _).mpr hc
      omega
    rw [AddLeafLoop]
    simp only [Nat.and_one_is_mod, hodd, if_false, ite_self]
    rw [hi']
  | succ m ih =>
    intro i fuel hi hfuel
    obtain ⟨f, rfl⟩ : ∃ f, fuel = f + 1 := ⟨fuel - 1, by omega⟩
    have hdiv := trailingOnes_div N (i + 1) (by omega)
    have hdiv0 := trailingOnes_div N i (by omega)
    have hodd : (N / 2 ^ i) % 2 = 1 := (trailingOnes_pos_iff (N / 2 ^ i)).mp (by omega)
    have hpos : N / 2 ^ i > 0 := by
      generalize N / 2 ^ i = x at hodd
      omega
    have hb : N / 2 ^ i = 2 * (N / 2 ^ (i + 1)) + 1 := by
      have : N / 2 ^ (i + 1) = N / 2 ^ i / 2 := by
        rw [pow_succ, Nat.div_div_eq_div_mul]
      rw [this]
      generalize N / 2 ^ i = x at hodd
      omega
    have hidx := mmrSize_add_eq_nodeIndex N i (by omega)
    have hsucc := mmrSize_succ N
    have heven := nodeIndex_even_add i (N / 2 ^ (i + 1))
    rw [← hb, ← hidx] at heven
    have hi64 : i + 1 ≤ 64 := by
      by_contra hc
      have : 2 ^ 65 ≤ 2 ^ (i + 1) := Nat.pow_le_pow_right (by norm_num) (by omega)
      omega
    have hrd : (els ++ newElems h leaf N (i + 1))[nodeIndex i (2 * (N / 2 ^ (i + 1)))]?
        = some (subtreeRoot h leaf i (2 * (N / 2 ^ (i + 1)) * 2 ^ i)) := by
      have hle : (2 * (N / 2 ^ (i + 1)) + 1) * 2 ^ i ≤ N := by
        rw [← hb]; exact Nat.div_mul_le_self N (2 ^ i)
      have hlt := (nodeIndex_lt_mmrSize_iff i _ N).mpr hle
      rw [List.getElem?_append_left (by rw [inv.1]; exact hlt)]
      exact inv.get i _ hle
    have hsub : sub64 (mmrSize N + i) (sub64 (shl64 1 (i + 1)) 1)
        = nodeIndex i (2 * (N / 2 ^ (i + 1))) := by
      rw [subtreeSize64_le _ hi64, sub64_of_le _ _ (by omega) (by omega)]
      omega
    rw [AddLeafLoop]
    simp only [Nat.and_one_is_mod, hodd, hpos, if_true, hsub, hrd]
    have hnext : h [subtreeRoot h leaf i (2 * (N / 2 ^ (i + 1)) * 2 ^ i),
        subtreeRoot h leaf i (N / 2 ^ i * 2 ^ i)]
          = subtreeRoot h leaf (i + 1) (N / 2 ^ (i + 1) * 2 ^ (i + 1)) := by
      rw [subtreeRoot_succ_even, ← hb]
    have hshift : (N / 2 ^ i) >>> 1 = N / 2 ^ (i + 1) := by
      rw [Nat.shiftRight_eq_div_pow, pow_one, pow_succ, Nat.div_div_eq_div_mul]
    have hadd : add64 (mmrSize N + i) 1 = mmrSize N + (i + 1) := by
      rw [add64_of_lt _ _ (by omega)]; rfl
    rw [hnext, hshift, hadd, List.append_assoc, ← newElems_succ]
    exact ih (i + 1) f (by omega) (by omega)

theorem two_pow_trailingOnes_le (N : Nat) : 2 ^ trailingOnes N ≤ N + 1 := by
  have h := trailingOnes_split N (trailingOnes N) le_rfl
  have hp : 0 < 2 ^ trailingOnes N := by positivity
  omega

theorem trailingOnes_le_of_lt (N : Nat) (hN : N < 2 ^ 64) : trailingOnes N ≤ 64 := by
  by_contra hc
  have h1 := two_pow_trailingOnes_le N
  have h2 : 2 ^ 65 ≤ 2 ^ trailingOnes N := Nat.pow_le_pow_right (by norm_num) (by omega)
  omega

theorem newElems_get (h : Hasher) (leaf : Nat → Bytes) (N cnt r : Nat) (hr : r < cnt) :
    (newElems h leaf N cnt)[r]? = some (subtreeRoot h leaf r (N / 2 ^ r * 2 ^ r)) := by
  simp [newElems, List.getElem?_map, List.getElem?_range hr]

theorem StoreInv_empty (h : Hasher) (leaf : Nat → Bytes) : StoreInv h leaf 0 [] := by
  refine ⟨rfl, ?_⟩
  intro r a ha
  have : 0 < (a + 1) * 2 ^ r := by positivity
  omega

/-- Appending leaf number `N` extends the invariant from `N` to `N + 1` leaves. -/
theorem StoreInv_succ (h : Hasher) (leaf : Nat → Bytes) (N : Nat) (els : List Bytes)
    (inv : StoreInv h leaf N els) :
    StoreInv h leaf (N + 1) (els ++ newElems h leaf N (trailingOnes N + 1)) := by
  refine ⟨?_, ?_⟩
  · rw [List.length_append, newElems_length, inv.1, mmrSize_succ]; omega
  · intro r a ha
    rcases Nat.lt_or_ge ((a + 1) * 2 ^ r) (N + 1) with hlt | hge
    · have hle : (a + 1) * 2 ^ r ≤ N := by omega
      have hidx := (nodeIndex_lt_mmrSize_iff r a N).mpr hle
      rw [List.getElem?_append_left (by rw [inv.1]; exact hidx)]
      exact inv.get r a hle
    · have heq : (a + 1) * 2 ^ r = N + 1 := by omega
      have hp : 0 < 2 ^ r := by positivity
      have hN : N = a * 2 ^ r + (2 ^ r - 1) := by
        have : (a + 1) * 2 ^ r = a * 2 ^ r + 2 ^ r := by ring
        omega
      have hto : r ≤ trailingOnes N := by rw [hN]; exact le_trailingOnes_node r a
      have hdiv : N / 2 ^ r = a := by
        rw [hN, Nat.mul_comm, Nat.mul_add_div hp, Nat.div_eq_of_lt (by omega)]; simp
      have hidx := mmrSize_add_eq_nodeIndex N r hto
      rw [hdiv] at hidx
      rw [← hidx, List.getElem?_append_right (by rw [inv.1]; omega), inv.1,
        Nat.add_sub_cancel_left, newElems_get h leaf N _ r (by omega), hdiv]

theorem AddLeaf_reach (h : Hasher) (leaf : Nat → Bytes) (N : Nat) (els : List Bytes)
    (inv : StoreInv h leaf N els) (hN : mmrSize (N + 1) ≤ 2 ^ 64) :
    AddLeaf ⟨els, h⟩ (leaf N) = Outcome.done ⟨els ++ newElems h leaf N (trailingOnes N + 1), h⟩ := by
  have hsucc := mmrSize_succ N
  have hlt : mmrSize N < 2 ^ 64 := by omega
  unfold AddLeaf
  by_cases h0 : els.length = 0
  · have hN0 : N = 0 := by
      have := le_mmrSize N
      have := inv.1
      omega
    subst hN0
    simp only [h0, if_true]
    rfl
  · simp only [h0, if_false]
    have hpk : (HeightBitmapForMMRSize (toU64 els.length)).1 = N := by
      rw [inv.1, toU64_of_lt _ hlt]
      have := HeightBitmapForMMRSize_decomp N 0 (Nat.zero_le _) (by simpa using hlt)
      simp only [Nat.add_zero] at this
      rw [this]
    have hloop := AddLeafLoop_reach h leaf N els inv hN (trailingOnes N) 0 65 (by omega)
      (by
        have := trailingOnes_le_of_lt N (lt_of_le_of_lt (le_mmrSize N) hlt)
        omega)
    simp only [pow_zero, Nat.div_one, Nat.mul_one, Nat.add_zero, Nat.zero_add] at hloop
    have hne : newElems h leaf N 1 = [h [leaf N]] := by
      simp [newElems, List.range_succ, subtreeRoot]
    rw [hne] at hloop
    have hroot : subtreeRoot h leaf 0 N = h [leaf N] := rfl
    rw [hroot] at hloop
    rw [hpk, inv.1, toU64_of_lt _ hlt]
    simp only [hloop]

theorem AddLeaves_append (mmr : MMR) (xs ys : List Bytes) :
    AddLeaves mmr (xs ++ ys) =
      match AddLeaves mmr xs with
      | Outcome.done mmr1 => AddLeaves mmr1 ys
      | Outcome.panicked => Outcome.panicked
      | Outcome.outOfFuel => Outcome.outOfFuel := by
  induction xs generalizing mmr with
  | nil => simp [AddLeaves]
  | cons x xs ih =>
    simp only [List.cons_append, AddLeaves]
    cases AddLeaf mmr x with
    | done m => exact ih m
    | panicked => rfl
    | outOfFuel => rfl

/-- The store after appending the first `N` leaves of `leaf` to an empty MMR. -/
theorem AddLeaves_reach (h : Hasher) (leaf : Nat → Bytes) :
    ∀ N, mmrSize N ≤ 2 ^ 64 →
      ∃ els, AddLeaves (New h) ((List.range N).map leaf) = Outcome.done ⟨els, h⟩ ∧
        StoreInv h leaf N els := by
  intro N
  induction N with
  | zero => intro _; exact ⟨[], rfl, StoreInv_empty h leaf⟩
  | succ N ih =>
    intro hN
    have hsucc := mmrSize_succ N
    obtain ⟨els, hrun, inv⟩ := ih (by omega)
    refine ⟨els ++ newElems h leaf N (trailingOnes N + 1), ?_, StoreInv_succ h leaf N els inv⟩
    rw [List.range_succ, List.map_append, AddLeaves_append, hrun]
    simp only [List.map_cons, List.map_nil, AddLeaves]
    rw [AddLeaf_reach h leaf N els inv hN]

theorem list_eq_map_getD (leaves : List Bytes) :
    leaves = (List.range leaves.length).map (fun k => leaves.getD k []) := by
  apply List.ext_getElem
  · simp
  · intro n h1 h2
    simp [List.getElem?_eq_getElem h1]

/-! ## `GetSubtreeProofElm` on a reachable store -/

theorem intToU64_pred (n : Nat) (h1 : 1 ≤ n) (h2 : n < 2 ^ 64) :
    intToU64 ((n : Int) - 1) = n - 1 := by
  unfold intToU64
  have e : ((n : Int) - 1) = ((n - 1 : Nat) : Int) := by omega
  rw [e]
  have : (((n - 1 : Nat) : Int) % 2 ^ 64) = ((n - 1 : Nat) : Int) := by
    apply Int.emod_eq_of_lt <;> omega
  rw [this]; simp

theorem height_lt_of_node {r a N : Nat} (ha : (a + 1) * 2 ^ r ≤ N) (hN : mmrSize N < 2 ^ 63) :
    r < 63 := by
  by_contra hc
  have h1 : 2 ^ 63 ≤ 2 ^ r := Nat.pow_le_pow_right (by norm_num) (by omega)
  have h2 : 2 ^ r ≤ (a + 1) * 2 ^ r := Nat.le_mul_of_pos_left _ (by omega)
  have h3 := le_mmrSize N
  omega

theorem addRightElm_even (h : Hasher) (leaf : Nat → Bytes) (N : Nat) (els : List Bytes)
    (inv : StoreInv h leaf N els) (hN : mmrSize N < 2 ^ 63) (r b : Nat)
    (ha : (2 * b + 1) * 2 ^ r ≤ N) (proofElms : List ProofElement) :
    addRightElm (nodeIndex r (2 * b)) r ⟨els, h⟩ proofElms =
      if (b + 1) * 2 ^ (r + 1) ≤ N then
        Outcome.done (proofElms ++ [⟨subtreeRoot h leaf r ((2 * b + 1) * 2 ^ r), false⟩],
          nodeIndex (r + 1) b, true)
      else Outcome.done (proofElms, nodeIndex r (2 * b), false) := by
  have hr := height_lt_of_node ha hN
  have hidx := (nodeIndex_lt_mmrSize_iff r (2 * b) N).mpr ha
  have hsz : sub64 (shl64 1 ((r + 1) % 2 ^ 32)) 1 = 2 ^ (r + 1) - 1 := by
    rw [Nat.mod_eq_of_lt (by omega), subtreeSize64 _ (by omega)]
  have hpow : 2 ^ (r + 1) ≤ 2 ^ 63 := Nat.pow_le_pow_right (by norm_num) (by omega)
  have hnext : add64 (nodeIndex r (2 * b)) (2 ^ (r + 1) - 1) = nodeIndex r (2 * b + 1) := by
    rw [add64_of_lt _ _ (by omega), nodeIndex_even_add]
  have hpos : 1 ≤ mmrSize N := by omega
  have hparent := nodeIndex_odd_succ r b
  have hiff := nodeIndex_lt_mmrSize_iff (r + 1) b N
  unfold addRightElm
  simp only [hsz, hnext, inv.1, intToU64_pred _ hpos (by omega)]
  by_cases hin : (b + 1) * 2 ^ (r + 1) ≤ N
  · have hlt : nodeIndex r (2 * b + 1) < mmrSize N - 1 := by
      have := hiff.mpr hin
      omega
    have hle : (2 * b + 1 + 1) * 2 ^ r ≤ N := by
      have : (2 * b + 1 + 1) * 2 ^ r = (b + 1) * 2 ^ (r + 1) := by ring
      omega
    simp only [hlt, hin, if_true, inv.get r (2 * b + 1) hle]
    rw [add64_of_lt _ _ (by omega), hparent]
  · have hlt : ¬ nodeIndex r (2 * b + 1) < mmrSize N - 1 := by
      intro hc
      exact hin (hiff.mp (by omega))
    simp only [hlt, hin, if_false]

theorem GetSubtreeProofElmLoop_odd (h : Hasher) (leaf : Nat → Bytes) (N : Nat)
    (els : List Bytes) (inv : StoreInv h leaf N els) (hN : mmrSize N < 2 ^ 63) (r b : Nat)
    (ha : (2 * b + 1 + 1) * 2 ^ r ≤ N) (fuel : Nat) (proofElms : List ProofElement) :
    GetSubtreeProofElmLoop ⟨els, h⟩ (fuel + 1) proofElms (nodeIndex r (2 * b + 1)) r =
      GetSubtreeProofElmLoop ⟨els, h⟩ fuel
        (proofElms ++ [⟨subtreeRoot h leaf r (2 * b * 2 ^ r), true⟩]) (nodeIndex (r + 1) b)
        (r + 1) := by
  have hr := height_lt_of_node ha hN
  have hidx := (nodeIndex_lt_mmrSize_iff r (2 * b + 1) N).mpr ha
  have hsz : sub64 (shl64 1 ((r + 1) % 2 ^ 32)) 1 = 2 ^ (r + 1) - 1 := by
    rw [Nat.mod_eq_of_lt (by omega), subtreeSize64 _ (by omega)]
  have heven := nodeIndex_even_add r b
  have hge : nodeIndex r (2 * b + 1) ≥ 2 ^ (r + 1) - 1 := by omega
  have hprev : sub64 (nodeIndex r (2 * b + 1)) (2 ^ (r + 1) - 1) = nodeIndex r (2 * b) := by
    rw [sub64_of_le _ _ (by omega) hge]; omega
  have horacle := HeightBitmapForMMRSize_nodeIndex r (2 * b) (by omega)
  have hle : (2 * b + 1) * 2 ^ r ≤ N := by
    have : (2 * b + 1 + 1) * 2 ^ r = (2 * b + 1) * 2 ^ r + 2 ^ r := by ring
    have hp : 0 < 2 ^ r := by positivity
    omega
  have hmod : (r + 1) % 2 ^ 32 = r + 1 := Nat.mod_eq_of_lt (by omega)
  rw [GetSubtreeProofElmLoop]
  simp only [hsz, hge, if_true, hprev, horacle, inv.get r (2 * b) hle]
  rw [add64_of_lt _ _ (by omega), nodeIndex_odd_succ, hmod]

theorem trailingOnes_pred_shift (b s : Nat) (hb : 1 ≤ b) :
    s ≤ trailingOnes (b * 2 ^ s - 1) := by
  have hs : 0 < 2 ^ s := by positivity
  have e : b * 2 ^ s - 1 = (b - 1) * 2 ^ s + (2 ^ s - 1) := by
    obtain ⟨c, rfl⟩ : ∃ c, b = c + 1 := ⟨b - 1, by omega⟩
    have : (c + 1) * 2 ^ s = c * 2 ^ s + 2 ^ s := by ring
    simp only [Nat.add_sub_cancel]
    omega
  rw [e]
  exact le_trailingOnes_node s (b - 1)

theorem HeightBitmapForMMRSize_before_even (r b : Nat) (hb : 1 ≤ b)
    (hlt : nodeIndex r (2 * b) < 2 ^ 64) :
    (HeightBitmapForMMRSize (nodeIndex r (2 * b) - (2 ^ (r + 1) - 1))).2 ≠ r := by
  have hs : 0 < 2 ^ (r + 1) := by positivity
  have hpos : 1 ≤ b * 2 ^ (r + 1) := Nat.one_le_iff_ne_zero.mpr (by positivity)
  have h1 := nodeIndex_add r (2 * b)
  rw [popcount_double] at h1
  have h2 := mmrSize_add_popcount (b * 2 ^ (r + 1))
  rw [popcount_mul_pow] at h2
  have h3 : (2 * b + 1) * 2 ^ (r + 1) = 2 * (b * 2 ^ (r + 1)) + 2 ^ (r + 1) := by ring
  have h4 := mmrSize_succ (b * 2 ^ (r + 1) - 1)
  rw [Nat.sub_add_cancel hpos] at h4
  have h5 := trailingOnes_pred_shift b (r + 1) hb
  have e : nodeIndex r (2 * b) - (2 ^ (r + 1) - 1)
      = mmrSize (b * 2 ^ (r + 1) - 1) + trailingOnes (b * 2 ^ (r + 1) - 1) := by omega
  rw [e, HeightBitmapForMMRSize_decomp _ _ le_rfl (by omega)]
  simp only
  omega

theorem GetSubtreeProofElmLoop_even (h : Hasher) (leaf : Nat → Bytes) (N : Nat)
    (els : List Bytes) (inv : StoreInv h leaf N els) (hN : mmrSize N < 2 ^ 63) (r b : Nat)
    (ha : (2 * b + 1) * 2 ^ r ≤ N) (fuel : Nat) (proofElms : List ProofElement) :
    GetSubtreeProofElmLoop ⟨els, h⟩ (fuel + 1) proofElms (nodeIndex r (2 * b)) r =
      if (b + 1) * 2 ^ (r + 1) ≤ N then
        GetSubtreeProofElmLoop ⟨els, h⟩ fuel
          (proofElms ++ [⟨subtreeRoot h leaf r ((2 * b + 1) * 2 ^ r), false⟩])
          (nodeIndex (r + 1) b) (r + 1)
      else Outcome.done proofElms := by
  have hr := height_lt_of_node ha hN
  have hidx := (nodeIndex_lt_mmrSize_iff r (2 * b) N).mpr ha
  have hsz : sub64 (shl64 1 ((r + 1) % 2 ^ 32)) 1 = 2 ^ (r + 1) - 1 := by
    rw [Nat.mod_eq_of_lt (by omega), subtreeSize64 _ (by omega)]
  have hmod : (r + 1) % 2 ^ 32 = r + 1 := Nat.mod_eq_of_lt (by omega)
  have hright := addRightElm_even h leaf N els inv hN r b ha proofElms
  have hnotleft : ¬ (nodeIndex r (2 * b) ≥ 2 ^ (r + 1) - 1 ∧
      (HeightBitmapForMMRSize (sub64 (nodeIndex r (2 * b)) (2 ^ (r + 1) - 1))).2 = r) := by
    rintro ⟨hge, heq⟩
    rw [sub64_of_le _ _ (by omega) hge] at heq
    have hb : 1 ≤ b := by
      by_contra hc
      have hb0 : b = 0 := by omega
      subst hb0
      have := nodeIndex_add r 0
      simp only [popcount_zero, Nat.add_zero, Nat.zero_add, Nat.one_mul] at this
      simp only [Nat.mul_zero] at hge
      omega
    exact HeightBitmapForMMRSize_before_even r b hb (by omega) heq
  rw [GetSubtreeProofElmLoop]
  rw [hmod] at hsz
  simp only [hmod, hsz, hright]
  by_cases hge : nodeIndex r (2 * b) ≥ 2 ^ (r + 1) - 1
  · have hne : ¬ (HeightBitmapForMMRSize (sub64 (nodeIndex r (2 * b)) (2 ^ (r + 1) - 1))).2 = r :=
      fun hc => hnotleft ⟨hge, hc⟩
    simp only [hge, if_true, hne, if_false]
    by_cases hin : (b + 1) * 2 ^ (r + 1) ≤ N
    · simp only [hin, if_true]
    · simp only [hin, if_false]; rfl
  · simp only [hge, if_false]
    by_cases hin : (b + 1) * 2 ^ (r + 1) ≤ N
    · simp only [hin, if_true]
    · simp only [hin, if_false]; rfl

theorem siblingElem_odd (h : Hasher) (leaf : Nat → Bytes) (r b : Nat) :
    siblingElem h leaf r (2 * b + 1) = ⟨subtreeRoot h leaf r (2 * b * 2 ^ r), true⟩ := by
  have : (2 * b + 1) % 2 = 1 := by omega
  simp [siblingElem, this]

theorem siblingElem_even (h : Hasher) (leaf : Nat → Bytes) (r b : Nat) :
    siblingElem h leaf r (2 * b) = ⟨subtreeRoot h leaf r ((2 * b + 1) * 2 ^ r), false⟩ := by
  have : ¬ (2 * b) % 2 = 1 := by omega
  simp [siblingElem, this]

theorem div_two_pow_succ (a d : Nat) : a / 2 ^ (d + 1) = a / 2 / 2 ^ d := by
  rw [Nat.div_div_eq_div_mul, pow_succ, Nat.mul_comm]

/-- On a reachable store the proof builder climbs from the `a`-th subtree of height `r`
to the peak above it, recording the sibling of every subtree on the way. -/
theorem GetSubtreeProofElmLoop_reach (h : Hasher) (leaf : Nat → Bytes) (N : Nat)
    (els : List Bytes) (inv : StoreInv h leaf N els) (hN : mmrSize N < 2 ^ 63) :
    ∀ (B r a fuel : Nat) (proofElms : List ProofElement), N < 2 ^ (r + B) → B ≤ fuel →
      (a + 1) * 2 ^ r ≤ N →
      ∃ d, d < B ∧
        GetSubtreeProofElmLoop ⟨els, h⟩ fuel proofElms (nodeIndex r a) r
          = Outcome.done (proofElms ++ specPath h leaf d r a) ∧
        (a / 2 ^ d) % 2 = 0 ∧ (a / 2 ^ d + 1) * 2 ^ (r + d) ≤ N ∧
        N < (a / 2 ^ d + 2) * 2 ^ (r + d) := by
  intro B
  induction B with
  | zero =>
    intro r a fuel proofElms hB _ ha
    have h2 : 2 ^ r ≤ (a + 1) * 2 ^ r := Nat.le_mul_of_pos_left _ (by omega)
    simp only [Nat.add_zero] at hB
    omega
  | succ B ih =>
    intro r a fuel proofElms hB hfuel ha
    obtain ⟨f, rfl⟩ : ∃ f, fuel = f + 1 := ⟨fuel - 1, by omega⟩
    have hB' : N < 2 ^ (r + 1 + B) := by
      have : r + (B + 1) = r + 1 + B := by omega
      rwa [this] at hB
    rcases Nat.even_or_odd' a with ⟨b, rfl | rfl⟩
    · rw [GetSubtreeProofElmLoop_even h leaf N els inv hN r b ha]
      by_cases hin : (b + 1) * 2 ^ (r + 1) ≤ N
      · simp only [hin, if_true]
        obtain ⟨d, hd, hrun, h1, h2, h3⟩ := ih (r + 1) b f
          (proofElms ++ [⟨subtreeRoot h leaf r ((2 * b + 1) * 2 ^ r), false⟩]) hB' (by omega) hin
        have hb2 : 2 * b / 2 = b := by omega
        have hrd : r + (d + 1) = r + 1 + d := by omega
        refine ⟨d + 1, by omega, ?_, ?_, ?_, ?_⟩
        · rw [hrun, List.append_assoc]
          simp only [specPath, siblingElem_even, List.singleton_append, hb2]
        all_goals
          simp only [div_two_pow_succ, hb2, hrd]
          assumption
      · simp only [hin, if_false]
        refine ⟨0, by omega, by simp [specPath], by simp, by simpa using ha, ?_⟩
        simp only [pow_zero, Nat.div_one, Nat.add_zero]
        have : (2 * b + 2) * 2 ^ r = (b + 1) * 2 ^ (r + 1) := by ring
        omega
    · rw [GetSubtreeProofElmLoop_odd h leaf N els inv hN r b ha]
      have hin : (b + 1) * 2 ^ (r + 1) ≤ N := by
        have : (2 * b + 1 + 1) * 2 ^ r = (b + 1) * 2 ^ (r + 1) := by ring
        omega
      obtain ⟨d, hd, hrun, h1, h2, h3⟩ := ih (r + 1) b f
        (proofElms ++ [⟨subtreeRoot h leaf r (2 * b * 2 ^ r), true⟩]) hB' (by omega) hin
      have hb2 : (2 * b + 1) / 2 = b := by omega
      have hrd : r + (d + 1) = r + 1 + d := by omega
      refine ⟨d + 1, by omega, ?_, ?_, ?_, ?_⟩
      · rw [hrun, List.append_assoc]
        simp only [specPath, siblingElem_odd, List.singleton_append, hb2]
      all_goals
        simp only [div_two_pow_succ, hb2, hrd]
        assumption

/-- Replaying the recorded siblings from a subtree root gives the root `d` levels up. -/
theorem foldl_specPath (h : Hasher) (leaf : Nat → Bytes) : ∀ (d r a : Nat),
    (specPath h leaf d r a).foldl (verifyStep h) (subtreeRoot h leaf r (a * 2 ^ r))
      = subtreeRoot h leaf (r + d) (a / 2 ^ d * 2 ^ (r + d)) := by
  intro d
  induction d with
  | zero => intro r a; simp [specPath]
  | succ d ih =>
    intro r a
    have hstep : verifyStep h (subtreeRoot h leaf r (a * 2 ^ r)) (siblingElem h leaf r a)
        = subtreeRoot h leaf (r + 1) (a / 2 * 2 ^ (r + 1)) := by
      rcases Nat.even_or_odd' a with ⟨b, rfl | rfl⟩
      · rw [siblingElem_even, show 2 * b / 2 = b by omega, subtreeRoot_succ_even]
        simp [verifyStep]
      · rw [siblingElem_odd, show (2 * b + 1) / 2 = b by omega, subtreeRoot_succ_even]
        simp [verifyStep]
    simp only [specPath, List.foldl_cons, hstep]
    rw [ih (r + 1) (a / 2), div_two_pow_succ, show r + (d + 1) = r + 1 + d by omega]

/-! ## `GetPeaks` on a reachable store -/

theorem mmrSize_two_pow_add (k m : Nat) (hm : m < 2 ^ k) :
    mmrSize (2 ^ k + m) = (2 ^ (k + 1) - 1) + mmrSize m := by
  have h1 := mmrSize_add_popcount (2 ^ k + m)
  have h2 := mmrSize_add_popcount m
  have h3 := popcount_shift 1 k m hm
  rw [Nat.one_mul] at h3
  have h4 : popcount 1 = 1 := by decide
  have h5 : 2 ^ (k + 1) = 2 * 2 ^ k := by ring
  have hk : 0 < 2 ^ k := by positivity
  omega

theorem mmrSize_lt_of_lt_two_pow (k m : Nat) (hm : m < 2 ^ k) : mmrSize m < 2 ^ (k + 1) - 1 := by
  have h1 : mmrSize m < mmrSize (2 ^ k) := mmrSize_lt_iff.mpr hm
  have h2 := mmrSize_two_pow_add k 0 (by positivity)
  simp only [Nat.add_zero, mmrSize_zero] at h2
  omega

theorem div_mod_bit (N k : Nat) :
    N / 2 ^ k = 2 * (N / 2 ^ (k + 1)) + (N / 2 ^ k) % 2 ∧
      N % 2 ^ (k + 1) = (N / 2 ^ k) % 2 * 2 ^ k + N % 2 ^ k := by
  constructor
  · have : N / 2 ^ (k + 1) = N / 2 ^ k / 2 := by rw [pow_succ, Nat.div_div_eq_div_mul]
    rw [this]
    generalize N / 2 ^ k = x
    omega
  · rw [Nat.mod_pow_succ]; ring

theorem GetPeaksLoop_reach (h : Hasher) (leaf : Nat → Bytes) (N : Nat) (els : List Bytes)
    (inv : StoreInv h leaf N els) (hN : mmrSize N < 2 ^ 64) :
    ∀ (k fuel : Nat) (acc : List Bytes), k ≤ fuel →
      GetPeaksLoop els fuel (2 ^ k - 1) (mmrSize (N % 2 ^ k)) (mmrSize (N / 2 ^ k * 2 ^ k)) acc
        = acc ++ peaksBelow h leaf N k := by
  intro k
  induction k with
  | zero =>
    intro fuel acc _
    cases fuel <;> simp [GetPeaksLoop, peaksBelow]
  | succ k ih =>
    intro fuel acc hfuel
    obtain ⟨f, rfl⟩ : ∃ f, fuel = f + 1 := ⟨fuel - 1, by omega⟩
    have hk : 0 < 2 ^ k := by positivity
    have hk1 : 2 ^ (k + 1) = 2 * 2 ^ k := by ring
    have hpos : 2 ^ (k + 1) - 1 > 0 := by omega
    obtain ⟨hdiv, hmod⟩ := div_mod_bit N k
    have hm' : N % 2 ^ k < 2 ^ k := Nat.mod_lt _ hk
    rw [GetPeaksLoop]
    simp only [hpos, if_true, pow_succ_sub_one_shiftRight]
    rcases Nat.mod_two_eq_zero_or_one (N / 2 ^ k) with hbit | hbit
    · rw [hbit] at hdiv hmod
      simp only [Nat.zero_mul, Nat.zero_add, Nat.add_zero] at hdiv hmod
      have hlt := mmrSize_lt_of_lt_two_pow k (N % 2 ^ k) hm'
      have hnot : ¬ mmrSize (N % 2 ^ (k + 1)) ≥ 2 ^ (k + 1) - 1 := by rw [hmod]; omega
      have hpk : N / 2 ^ (k + 1) * 2 ^ (k + 1) = N / 2 ^ k * 2 ^ k := by
        rw [hdiv]; ring
      have hb0 : ¬ (0 = 1) := by omega
      simp only [hnot, if_false, peaksBelow, hbit, hb0, List.nil_append]
      rw [hmod, hpk]
      exact ih f acc (by omega)
    · rw [hbit] at hdiv hmod
      simp only [Nat.one_mul] at hmod
      have hsz := mmrSize_two_pow_add k (N % 2 ^ k) hm'
      have hge : mmrSize (N % 2 ^ (k + 1)) ≥ 2 ^ (k + 1) - 1 := by rw [hmod]; omega
      have hle : (2 * (N / 2 ^ (k + 1)) + 1) * 2 ^ k ≤ N := by
        rw [← hdiv]; exact Nat.div_mul_le_self N (2 ^ k)
      have hpk := mmrSize_double_succ_shift (N / 2 ^ (k + 1)) k
      have hle2 : mmrSize ((2 * (N / 2 ^ (k + 1)) + 1) * 2 ^ k) ≤ mmrSize N :=
        mmrSize_le_iff.mpr hle
      have hadd : add64 (mmrSize (N / 2 ^ (k + 1) * 2 ^ (k + 1))) (2 ^ (k + 1) - 1)
          = mmrSize (N / 2 ^ k * 2 ^ k) := by
        rw [add64_of_lt _ _ (by omega), hdiv, hpk]
      have hidx := (nodeIndex_lt_mmrSize_iff k (2 * (N / 2 ^ (k + 1))) N).mpr hle
      have hnode : sub64 (mmrSize (N / 2 ^ k * 2 ^ k)) 1 = nodeIndex k (2 * (N / 2 ^ (k + 1))) := by
        have h1 := nodeIndex_add k (2 * (N / 2 ^ (k + 1)))
        have h2 := mmrSize_add_popcount ((2 * (N / 2 ^ (k + 1)) + 1) * 2 ^ k)
        rw [popcount_mul_pow, popcount_double_succ] at h2
        rw [popcount_double] at h1
        have h3 : (2 * (N / 2 ^ (k + 1)) + 1) * 2 ^ (k + 1)
            = 2 * ((2 * (N / 2 ^ (k + 1)) + 1) * 2 ^ k) := by ring
        rw [hdiv, sub64_of_le _ _ (by omega) (by omega)]
        omega
      have hread := inv.get k (2 * (N / 2 ^ (k + 1))) hle
      have hsub : mmrSize (N % 2 ^ (k + 1)) - (2 ^ (k + 1) - 1) = mmrSize (N % 2 ^ k) := by
        rw [hmod]; omega
      have hpred : N / 2 ^ k - 1 = 2 * (N / 2 ^ (k + 1)) := by omega
      simp only [hge, if_true, hadd, hnode, inv.1, toU64_of_lt _ hN, hidx, hread, hsub,
        Option.toList, peaksBelow, hbit, hpred]
      rw [ih f _ (by omega), List.append_assoc]

/-- The peaks returned on a reachable store: one subtree root per one bit of the number
of leaves, tallest first. -/
theorem GetPeaks_reach (h : Hasher) (leaf : Nat → Bytes) (N : Nat) (els : List Bytes)
    (inv : StoreInv h leaf N els) (hN : mmrSize N < 2 ^ 64) :
    GetPeaks ⟨els, h⟩ = peaksBelow h leaf N (Len64 (mmrSize N)) := by
  have hlen := lt_two_pow_Len64 (mmrSize N) hN
  have hNlt : N < 2 ^ Len64 (mmrSize N) := lt_of_le_of_lt (le_mmrSize N) hlen
  have h1 : N % 2 ^ Len64 (mmrSize N) = N := Nat.mod_eq_of_lt hNlt
  have h2 : N / 2 ^ Len64 (mmrSize N) = 0 := Nat.div_eq_of_lt hNlt
  have := GetPeaksLoop_reach h leaf N els inv hN (Len64 (mmrSize N)) 64 [] (Len64_le _)
  rw [h1, h2] at this
  simp only [Nat.zero_mul, mmrSize_zero, List.nil_append] at this
  unfold GetPeaks
  simp only [inv.1, toU64_of_lt _ hN, allPeaksSet_eq]
  exact this

theorem peak_mem_peaksBelow (h : Hasher) (leaf : Nat → Bytes) (N g a : Nat)
    (heven : a % 2 = 0) (hle : (a + 1) * 2 ^ g ≤ N) (hlt : N < (a + 2) * 2 ^ g) :
    ∀ K, g < K → subtreeRoot h leaf g (a * 2 ^ g) ∈ peaksBelow h leaf N K := by
  have hdiv : N / 2 ^ g = a + 1 := by
    apply Nat.div_eq_of_lt_le hle
    have : (a + 1 + 1) * 2 ^ g = (a + 2) * 2 ^ g := by ring
    omega
  intro K
  induction K with
  | zero => intro hK; omega
  | succ K ih =>
    intro hK
    simp only [peaksBelow]
    rcases Nat.lt_or_ge g K with hlt' | hge
    · exact List.mem_append_right _ (ih hlt')
    · have hgK : g = K := by omega
      subst hgK
      apply List.mem_append_left
      have hodd : (N / 2 ^ g) % 2 = 1 := by rw [hdiv]; omega
      have hodd2 : (a + 1) % 2 = 1 := by omega
      simp [hdiv, hodd2]

theorem foundAmong_iff (x : Bytes) (peaks : List Bytes) :
    foundAmong x peaks = true ↔ x ∈ peaks := by
  induction peaks with
  | nil => simp [foundAmong]
  | cons p ps ih =>
    simp only [foundAmong, List.mem_cons]
    by_cases hx : x = p
    · simp [hx]
    · simp [hx, ih]

theorem Verify_iff (proof : MMRProof) (leaf root : Bytes) (h : Hasher) :
    Verify proof leaf root h = true ↔
      proof.MerkleProof.foldl (verifyStep h) (h [leaf]) ∈ proof.Peaks ∧ h proof.Peaks = root := by
  unfold Verify
  simp only []
  by_cases hf : foundAmong (proof.MerkleProof.foldl (verifyStep h) (h [leaf])) proof.Peaks = true
  · have hm := (foundAmong_iff _ _).mp hf
    simp [hf, hm]
  · have hm : ¬ _ ∈ proof.Peaks := fun hc => hf ((foundAmong_iff _ _).mpr hc)
    simp [hf, hm]

/-! ## `AddLeaf` never panics -/

theorem sub64_lt (a b : Nat) : sub64 a b < 2 ^ 64 := by
  unfold sub64; exact Nat.mod_lt _ (by positivity)

theorem two_pow_le_of_merge_bound (j T L : Nat) (hj : 1 ≤ j) (hT : 1 ≤ T)
    (hQ : 2 ^ (j + T) ≤ L + 1 + T) : 2 ^ j ≤ L := by
  by_contra hc
  have hX : 2 ≤ 2 ^ j := by
    calc 2 = 2 ^ 1 := by norm_num
      _ ≤ 2 ^ j := Nat.pow_le_pow_right (by norm_num) hj
  have hY : T + 1 ≤ 2 ^ T := Nat.lt_two_pow T
  have h1 : 2 * 2 ^ T ≤ 2 ^ j * 2 ^ T := Nat.mul_le_mul_right _ hX
  have h2 : 2 ^ j * 2 ≤ 2 ^ j * 2 ^ T := Nat.mul_le_mul_left _ (by omega)
  rw [pow_add] at hQ
  omega

theorem AddLeafLoop_total (h : Hasher) : ∀ (t fuel : Nat) (cur : List Bytes)
    (peaks pos : Nat) (nextHash : Bytes) (j : Nat), trailingOnes peaks = t → t < fuel →
    1 ≤ cur.length → pos = (cur.length - 1) % 2 ^ 64 → 1 ≤ j →
    (2 ^ 64 ≤ cur.length - 1 ∨ 2 ^ (j + t) ≤ cur.length + 1 + t) →
    ∃ ext, AddLeafLoop h fuel cur peaks pos nextHash j = Outcome.done (cur ++ ext) ∧
      ext.length = t := by
  intro t
  induction t with
  | zero =>
    intro fuel cur peaks pos nextHash j ht hfuel _ _ _ _
    obtain ⟨f, rfl⟩ : ∃ f, fuel = f + 1 := ⟨fuel - 1, by omega⟩
    have hodd : ¬ peaks % 2 = 1 := by
      intro hc
      have := (trailingOnes_pos_iff peaks).mpr hc
      omega
    refine ⟨[], ?_, rfl⟩
    rw [AddLeafLoop]
    simp only [Nat.and_one_is_mod, hodd, if_false, ite_self, List.append_nil]
  | succ t ih =>
    intro fuel cur peaks pos nextHash j ht hfuel hlen hpos hj hQ
    obtain ⟨f, rfl⟩ : ∃ f, fuel = f + 1 := ⟨fuel - 1, by omega⟩
    have hodd : peaks % 2 = 1 := (trailingOnes_pos_iff peaks).mp (by omega)
    have hpk : peaks > 0 := by omega
    have hhalf : trailingOnes (peaks >>> 1) = t := by
      have e : peaks = 2 * (peaks / 2) + 1 := by omega
      have := trailingOnes_double_succ (peaks / 2)
      rw [← e] at this
      rw [Nat.shiftRight_eq_div_pow, pow_one]
      omega
    have hidx : sub64 pos (sub64 (shl64 1 j) 1) < cur.length := by
      rcases hQ with hA | hB
      · have := sub64_lt pos (sub64 (shl64 1 j) 1)
        omega
      · rcases Nat.lt_or_ge (cur.length - 1) (2 ^ 64) with hsmall | hbig
        · have hle := two_pow_le_of_merge_bound j (t + 1) cur.length hj (by omega) hB
          have hj64 : j ≤ 64 := by
            by_contra hc
            have : 2 ^ 65 ≤ 2 ^ j := Nat.pow_le_pow_right (by norm_num) (by omega)
            omega
          have hp : 0 < 2 ^ j := by positivity
          rw [hpos, Nat.mod_eq_of_lt hsmall, subtreeSize64_le j hj64,
            sub64_of_le _ _ hsmall (by omega)]
          omega
        · have := sub64_lt pos (sub64 (shl64 1 j) 1)
          omega
    obtain ⟨prevPeak, hread⟩ : ∃ x, cur[sub64 pos (sub64 (shl64 1 j) 1)]? = some x :=
      ⟨cur[sub64 pos (sub64 (shl64 1 j) 1)], List.getElem?_eq_getElem hidx⟩
    have hpos' : add64 pos 1 = ((cur ++ [h [prevPeak, nextHash]]).length - 1) % 2 ^ 64 := by
      simp only [List.length_append, List.length_singleton, Nat.add_sub_cancel]
      unfold add64
      rw [hpos, Nat.mod_add_mod]
      congr 1
      omega
    have hQ' : 2 ^ 64 ≤ (cur ++ [h [prevPeak, nextHash]]).length - 1 ∨
        2 ^ (j + 1 + t) ≤ (cur ++ [h [prevPeak, nextHash]]).length + 1 + t := by
      simp only [List.length_append, List.length_singleton, Nat.add_sub_cancel]
      rcases hQ with hA | hB
      · left; omega
      · right
        have : j + 1 + t = j + (t + 1) := by omega
        rw [this]; omega
    obtain ⟨ext, hrun, hext⟩ := ih f (cur ++ [h [prevPeak, nextHash]]) (peaks >>> 1) (add64 pos 1)
      (h [prevPeak, nextHash]) (j + 1) hhalf (by omega) (by simp) hpos' (by omega) hQ'
    refine ⟨h [prevPeak, nextHash] :: ext, ?_, by simp [hext]⟩
    rw [AddLeafLoop]
    simp only [Nat.and_one_is_mod, hodd, hpk, if_true, hread]
    rw [hrun, List.append_assoc, List.singleton_append]

theorem mmrSize_two_pow_sub_one (t : Nat) : mmrSize (2 ^ t - 1) + t + 2 = 2 ^ (t + 1) := by
  have h1 := mmrSize_add_popcount (2 ^ t - 1)
  rw [popcount_pow_sub_one] at h1
  have : 0 < 2 ^ t := by positivity
  rw [pow_succ]; omega

/-- `AddLeaf` returns on every store, and its result extends the old store. -/
theorem AddLeaf_total (mmr : MMR) (leaf : Bytes) :
    ∃ ext, AddLeaf mmr leaf = Outcome.done ⟨mmr.elements ++ ext, mmr.hash⟩ ∧ 1 ≤ ext.length := by
  unfold AddLeaf
  by_cases h0 : mmr.elements.length = 0
  · exact ⟨[mmr.hash [leaf]], by simp [h0], by simp⟩
  · simp only [h0, if_false]
    have hlt : toU64 mmr.elements.length < 2 ^ 64 := Nat.mod_lt _ (by positivity)
    obtain ⟨hsum, hres, hpk⟩ := HeightBitmapForMMRSize_spec _ hlt
    have ht64 := trailingOnes_le_of_lt _ hpk
    have hQ : 2 ^ 64 ≤ (mmr.elements ++ [mmr.hash [leaf]]).length - 1 ∨
        2 ^ (1 + trailingOnes (HeightBitmapForMMRSize (toU64 mmr.elements.length)).1)
          ≤ (mmr.elements ++ [mmr.hash [leaf]]).length + 1
            + trailingOnes (HeightBitmapForMMRSize (toU64 mmr.elements.length)).1 := by
      simp only [List.length_append, List.length_singleton, Nat.add_sub_cancel]
      rcases Nat.lt_or_ge mmr.elements.length (2 ^ 64) with hs | hb
      · right
        rw [toU64_of_lt _ hs] at hsum hres hpk ⊢
        generalize (HeightBitmapForMMRSize mmr.elements.length).1 = p at hsum hres hpk ⊢
        have h1 := two_pow_trailingOnes_le p
        have h2 : mmrSize (2 ^ trailingOnes p - 1) ≤ mmrSize p := mmrSize_le_iff.mpr (by omega)
        have h3 := mmrSize_two_pow_sub_one (trailingOnes p)
        have : 1 + trailingOnes p = trailingOnes p + 1 := by omega
        rw [this]; omega
      · left; exact hb
    obtain ⟨ext, hrun, _⟩ := AddLeafLoop_total mmr.hash _ 65 (mmr.elements ++ [mmr.hash [leaf]])
      (HeightBitmapForMMRSize (toU64 mmr.elements.length)).1 (toU64 mmr.elements.length)
      (mmr.hash [leaf]) 1 rfl (by omega) (by simp) (by simp [toU64]) le_rfl hQ
    refine ⟨mmr.hash [leaf] :: ext, ?_, by simp⟩
    simp only [hrun, List.append_assoc, List.singleton_append]

/-! ## Supporting facts: loop fuel and the height of stored elements -/

theorem GetPeaksLoop_fuel (elements : List Bytes) : ∀ (f g maxTreeSize currentIndex peakPos : Nat)
    (peaks : List Bytes), maxTreeSize < 2 ^ f → maxTreeSize < 2 ^ g →
    GetPeaksLoop elements f maxTreeSize currentIndex peakPos peaks
      = GetPeaksLoop elements g maxTreeSize currentIndex peakPos peaks := by
  intro f
  induction f with
  | zero =>
    intro g m ci pp peaks hf _
    have : m = 0 := by simpa using hf
    subst this
    cases g <;> simp [GetPeaksLoop]
  | succ f ih =>
    intro g m ci pp peaks hf hg
    cases g with
    | zero =>
      have : m = 0 := by simpa using hg
      subst this
      simp [GetPeaksLoop]
    | succ g =>
      rw [pow_succ] at hf hg
      have h1 : m >>> 1 < 2 ^ f := by rw [Nat.shiftRight_eq_div_pow]; omega
      have h2 : m >>> 1 < 2 ^ g := by rw [Nat.shiftRight_eq_div_pow]; omega
      simp only [GetPeaksLoop]
      rw [ih g _ _ _ _ h1 h2, ih g _ _ _ _ h1 h2]

/-- On a reachable store the element at index `p` is the root of a perfect subtree whose
height is the second result of the oracle at `p`, and whose last leaf is the first
result. -/
theorem StoreInv.element_height {h : Hasher} {leaf : Nat → Bytes} {N : Nat}
    {els : List Bytes} (inv : StoreInv h leaf N els) (hN : mmrSize N ≤ 2 ^ 64) (p : Nat)
    (hp : p < els.length) :
    els[p]? = some (subtreeRoot h leaf (HeightBitmapForMMRSize p).2
      ((HeightBitmapForMMRSize p).1 + 1 - 2 ^ (HeightBitmapForMMRSize p).2)) := by
  rw [inv.1] at hp
  obtain ⟨hsum, hres, _⟩ := HeightBitmapForMMRSize_spec p (by omega)
  generalize (HeightBitmapForMMRSize p).1 = n at hsum hres
  generalize (HeightBitmapForMMRSize p).2 = r at hsum hres
  have hn : n < N := by
    have : mmrSize n < mmrSize N := by omega
    exact mmrSize_lt_iff.mp this
  have hsplit := trailingOnes_split n r hres
  have hidx := mmrSize_add_eq_nodeIndex n r hres
  have hpr : 0 < 2 ^ r := by positivity
  have hle : (n / 2 ^ r + 1) * 2 ^ r ≤ N := by
    have : (n / 2 ^ r + 1) * 2 ^ r = n / 2 ^ r * 2 ^ r + 2 ^ r := by ring
    omega
  have hstart : n + 1 - 2 ^ r = n / 2 ^ r * 2 ^ r := by omega
  rw [← hsum, hidx, hstart]
  exact inv.get r _ hle

/-! ## Reachable stores and their proofs -/

theorem nodeIndex_zero (k : Nat) : nodeIndex 0 k = mmrSize k := by
  rw [nodeIndex_eq]; simp

theorem AddLeaves_list (h : Hasher) (leaves : List Bytes)
    (hfit : mmrSize leaves.length ≤ 2 ^ 64) :
    ∃ els, AddLeaves (New h) leaves = Outcome.done ⟨els, h⟩ ∧
      StoreInv h (fun k => leaves.getD k []) leaves.length els := by
  have := AddLeaves_reach h (fun k => leaves.getD k []) leaves.length hfit
  rwa [← list_eq_map_getD] at this

theorem GetProof_reach (h : Hasher) (leaf : Nat → Bytes) (N : Nat) (els : List Bytes)
    (inv : StoreInv h leaf N els) (hN : mmrSize N < 2 ^ 63) (k : Nat) (hk : k < N) :
    ∃ d, d < 64 ∧
      GetProof ⟨els, h⟩ (mmrSize k)
        = Outcome.done ⟨specPath h leaf d 0 k, peaksBelow h leaf N (Len64 (mmrSize N)), h⟩ ∧
      (k / 2 ^ d) % 2 = 0 ∧ (k / 2 ^ d + 1) * 2 ^ d ≤ N ∧ N < (k / 2 ^ d + 2) * 2 ^ d := by
  have hNlt : N < 2 ^ (0 + 64) := by
    have := le_mmrSize N
    omega
  obtain ⟨d, hd, hrun, h1, h2, h3⟩ := GetSubtreeProofElmLoop_reach h leaf N els inv hN 64 0 k 65 []
    hNlt (by omega) (by simpa using hk)
  simp only [Nat.zero_add, List.nil_append, nodeIndex_zero] at hrun h2 h3
  refine ⟨d, hd, ?_, h1, h2, h3⟩
  unfold GetProof GetSubtreeProofElm
  rw [hrun, GetPeaks_reach h leaf N els inv (by omega)]

/-- On a reachable store the proof of leaf `k` replays to a digest that is among the
peaks. -/
theorem replay_mem_peaks (h : Hasher) (leaf : Nat → Bytes) (N k d : Nat)
    (hN : mmrSize N < 2 ^ 64)
    (h1 : (k / 2 ^ d) % 2 = 0) (h2 : (k / 2 ^ d + 1) * 2 ^ d ≤ N)
    (h3 : N < (k / 2 ^ d + 2) * 2 ^ d) :
    (specPath h leaf d 0 k).foldl (verifyStep h) (h [leaf k])
      ∈ peaksBelow h leaf N (Len64 (mmrSize N)) := by
  have hfold := foldl_specPath h leaf d 0 k
  simp only [pow_zero, Nat.mul_one, Nat.zero_add] at hfold
  have hstart : subtreeRoot h leaf 0 k = h [leaf k] := rfl
  rw [hstart] at hfold
  rw [hfold]
  apply peak_mem_peaksBelow h leaf N d (k / 2 ^ d) h1 h2 h3
  have hlen := lt_two_pow_Len64 (mmrSize N) hN
  have hle := le_mmrSize N
  have hpow : 2 ^ d ≤ (k / 2 ^ d + 1) * 2 ^ d := Nat.le_mul_of_pos_left _ (Nat.succ_pos _)
  have : 2 ^ d < 2 ^ Len64 (mmrSize N) := by omega
  exact (Nat.pow_lt_pow_iff_right (by norm_num)).mp this

/-! ## The residual of the oracle is a height -/

theorem treeHeights_length (g : Nat) : (treeHeights g).length + 1 = 2 ^ (g + 1) := by
  induction g with
  | zero => rfl
  | succ g ih =>
    simp only [treeHeights, List.length_append, List.length_singleton]
    rw [pow_succ]; omega

theorem trailingOnes_two_pow_add (g n : Nat) (hn : n < 2 ^ g) :
    trailingOnes n ≤ trailingOnes (2 ^ g + n) := by
  rw [trailingOnes_ge_iff]
  have h1 := (trailingOnes_ge_iff (trailingOnes n) n).mp le_rfl
  have h2 := two_pow_trailingOnes_le n
  have hle : trailingOnes n ≤ g := by
    by_contra hc
    have : 2 ^ (g + 1) ≤ 2 ^ trailingOnes n := Nat.pow_le_pow_right (by norm_num) (by omega)
    rw [pow_succ] at this
    omega
  have hdvd : 2 ^ trailingOnes n ∣ 2 ^ g := Nat.pow_dvd_pow 2 hle
  obtain ⟨c, hc⟩ := hdvd
  rw [hc, Nat.mul_add_mod]
  exact h1

theorem HeightBitmapForMMRSize_right_subtree (g x : Nat) (hx : x + 1 < 2 ^ (g + 1))
    (h64 : 2 ^ (g + 1) - 1 + x < 2 ^ 64) :
    (HeightBitmapForMMRSize (2 ^ (g + 1) - 1 + x)).2 = (HeightBitmapForMMRSize x).2 := by
  obtain ⟨hsum, hres, _⟩ := HeightBitmapForMMRSize_spec x (by omega)
  generalize (HeightBitmapForMMRSize x).1 = n at hsum hres
  generalize (HeightBitmapForMMRSize x).2 = r at hsum hres
  have hn : n < 2 ^ g := by
    have h1 := mmrSize_two_pow_add g 0 (by positivity)
    simp only [Nat.add_zero, mmrSize_zero] at h1
    have h2 : mmrSize n < mmrSize (2 ^ g) := by omega
    exact mmrSize_lt_iff.mp h2
  have h3 := mmrSize_two_pow_add g n hn
  have h4 := trailingOnes_two_pow_add g n hn
  have e : 2 ^ (g + 1) - 1 + x = mmrSize (2 ^ g + n) + r := by omega
  rw [e, HeightBitmapForMMRSize_decomp _ _ (by omega) (by omega)]

theorem HeightBitmapForMMRSize_tree_root (g : Nat) (h64 : 2 ^ (g + 1) - 2 < 2 ^ 64) :
    (HeightBitmapForMMRSize (2 ^ (g + 1) - 2)).2 = g := by
  have h1 := mmrSize_two_pow_sub_one g
  have h2 := trailingOnes_shift 0 g
  simp only [Nat.zero_mul, Nat.zero_add] at h2
  have h3 : trailingOnes 0 = 0 := rfl
  have e : 2 ^ (g + 1) - 2 = mmrSize (2 ^ g - 1) + g := by omega
  rw [e, HeightBitmapForMMRSize_decomp _ _ (by omega) (by omega)]

/-! ## Circuit verifier against native verifier -/

theorem apiSelect_flagOf {p : Nat} [Fact p.Prime] (b : Bool) (x y : ZMod p) :
    apiSelect (flagOf b) x y = if b then x else y := by
  cases b <;> simp [apiSelect, flagOf]

theorem flagOf_boolean {p : Nat} [Fact p.Prime] (b : Bool) :
    (flagOf b : ZMod p) * (1 - flagOf b) = 0 := by
  cases b <;> simp [flagOf]

theorem apiCmp_eq_zero_iff {p : Nat} [Fact p.Prime] (a b : ZMod p) :
    apiCmp a b = 0 ↔ a = b := by
  haveI : NeZero p := ⟨(Fact.out : p.Prime).ne_zero⟩
  unfold apiCmp
  by_cases h1 : a.val < b.val
  · have hne : a ≠ b := fun hc => by rw [hc] at h1; exact lt_irrefl _ h1
    simp [h1, hne]
  · by_cases h2 : a.val = b.val
    · have : a = b := ZMod.val_injective p h2
      simp [h2, this]
    · have hne : a ≠ b := fun hc => h2 (by rw [hc])
      simp [h1, h2, hne]

theorem eq_neg_self_iff {p : Nat} [Fact p.Prime] (hp : p ≠ 2) (x : ZMod p) :
    x = -x ↔ x = 0 := by
  constructor
  · intro h
    have h2 : (2 : ZMod p) * x = 0 := by
      have : x + x = 0 := by
        nth_rewrite 2 [h]
        exact add_neg_cancel x
      rw [two_mul]; exact this
    rcases mul_eq_zero.mp h2 with h3 | h3
    · exfalso
      have h4 : ((2 : Nat) : ZMod p) = 0 := by exact_mod_cast h3
      have h5 : p ∣ 2 := (ZMod.natCast_zmod_eq_zero_iff_dvd 2 p).mp h4
      have h6 := (Nat.prime_dvd_prime_iff_eq (Fact.out : p.Prime) Nat.prime_two).mp h5
      exact hp h6
    · exact h3
  · intro h; simp [h]

theorem cmp_product_eq {p : Nat} (hashed : ZMod p) (rest : List (ZMod p)) (acc : ZMod p) :
    rest.foldl (fun mul peak => mul * apiCmp peak hashed) acc
      = acc * (rest.map fun peak => apiCmp peak hashed).prod := by
  induction rest generalizing acc with
  | nil => simp
  | cons x xs ih => simp [ih, mul_assoc]

theorem cmp_product_zero_iff {p : Nat} [Fact p.Prime] (hashed : ZMod p)
    (peaks : List (ZMod p)) :
    (peaks.map fun peak => apiCmp peak hashed).prod = 0 ↔ hashed ∈ peaks := by
  rw [List.prod_eq_zero_iff]
  simp only [List.mem_map]
  constructor
  · rintro ⟨peak, hmem, hz⟩
    rw [apiCmp_eq_zero_iff] at hz
    rw [← hz]; exact hmem
  · intro hmem
    exact ⟨hashed, hmem, (apiCmp_eq_zero_iff _ _).mpr rfl⟩

theorem define_fold {p : Nat} [Fact p.Prime] (hc : FieldHasher p) (hn : Hasher)
    (dec : ZMod p → Bytes) (hH : ∀ xs, hn (xs.map dec) = dec (hc xs))
    (path : List (ZMod p × Bool)) (start : ZMod p) :
    ((path.map fun e => (⟨e.1, flagOf e.2⟩ : ProofElm p)).foldl (defineStep hc) (start, true)).2
        = true ∧
      dec ((path.map fun e => (⟨e.1, flagOf e.2⟩ : ProofElm p)).foldl (defineStep hc)
          (start, true)).1
        = (path.map fun e => (⟨dec e.1, e.2⟩ : ProofElement)).foldl (verifyStep hn)
          (dec start) := by
  induction path generalizing start with
  | nil => simp
  | cons e rest ih =>
    obtain ⟨v, b⟩ := e
    have hstep : defineStep hc (start, true) ⟨v, flagOf b⟩
        = (if b then hc [v, start] else hc [start, v], true) := by
      simp only [defineStep, apiSelect_flagOf, flagOf_boolean, decide_True, Bool.and_self]
      cases b <;> simp
    have hnat : verifyStep hn (dec start) ⟨dec v, b⟩
        = dec (if b then hc [v, start] else hc [start, v]) := by
      cases b
      · simpa [verifyStep] using hH [start, v]
      · simpa [verifyStep] using hH [v, start]
    simp only [List.map_cons, List.foldl_cons, hstep, hnat]
    exact ih _

theorem decode7_encode7 : ∀ x : ZMod 7, decode7 (encode7 x) = x := by decide

theorem encode7_injective : Function.Injective encode7 :=
  Function.LeftInverse.injective decode7_encode7

theorem sumHashBytes7_spec (xs : List (ZMod 7)) :
    sumHashBytes7 (xs.map encode7) = encode7 (sumHash7 xs) := by
  unfold sumHashBytes7
  rw [List.map_map]
  have : decode7 ∘ encode7 = id := funext decode7_encode7
  rw [this, List.map_id]

/-! ## Tampering with a proof -/

theorem subtreeRoot_treeDigest (h : Hasher) (leaf : Nat → Bytes) :
    ∀ g k, treeDigest h g (subtreeRoot h leaf g k) := by
  intro g
  induction g with
  | zero => intro k; exact ⟨leaf k, rfl⟩
  | succ g ih => intro k; exact ⟨_, _, ih k, ih (k + 2 ^ g), rfl⟩

theorem treeDigest_height_unique (h : Hasher) (hinj : Function.Injective h) :
    ∀ g g1 x, treeDigest h g x → treeDigest h g1 x → g = g1 := by
  intro g
  induction g with
  | zero =>
    intro g1 x hx hx1
    cases g1 with
    | zero => rfl
    | succ g1 =>
      obtain ⟨l, rfl⟩ := hx
      obtain ⟨a, b, _, _, hab⟩ := hx1
      have := hinj hab
      simp at this
  | succ g ih =>
    intro g1 x hx hx1
    cases g1 with
    | zero =>
      obtain ⟨l, rfl⟩ := hx1
      obtain ⟨a, b, _, _, hab⟩ := hx
      have := hinj hab
      simp at this
    | succ g1 =>
      obtain ⟨a, b, ha, _, rfl⟩ := hx
      obtain ⟨a1, b1, ha1, _, hab⟩ := hx1
      have := hinj hab
      simp only [List.cons.injEq, and_true] at this
      rw [← this.1] at ha1
      rw [ih g1 a ha ha1]

theorem siblingElem_treeDigest (h : Hasher) (leaf : Nat → Bytes) (r a : Nat) :
    treeDigest h r (siblingElem h leaf r a).Hash := by
  unfold siblingElem
  split <;> exact subtreeRoot_treeDigest h leaf r _

theorem specPath_typed (h : Hasher) (leaf : Nat → Bytes) :
    ∀ d r a, typedPath h r (specPath h leaf d r a) := by
  intro d
  induction d with
  | zero => intro r a; trivial
  | succ d ih => intro r a; exact ⟨siblingElem_treeDigest h leaf r a, ih (r + 1) (a / 2)⟩

theorem specPath_length (h : Hasher) (leaf : Nat → Bytes) :
    ∀ d r a, (specPath h leaf d r a).length = d := by
  intro d
  induction d with
  | zero => intro r a; rfl
  | succ d ih => intro r a; simp [specPath, ih]

theorem verifyStep_treeDigest (h : Hasher) (r : Nat) (x : Bytes) (e : ProofElement)
    (hx : treeDigest h r x) (he : treeDigest h r e.Hash) :
    treeDigest h (r + 1) (verifyStep h x e) := by
  unfold verifyStep
  split
  · exact ⟨_, _, he, hx, rfl⟩
  · exact ⟨_, _, hx, he, rfl⟩

theorem foldl_typed (h : Hasher) : ∀ (path : List ProofElement) (r : Nat) (x : Bytes),
    typedPath h r path → treeDigest h r x →
    treeDigest h (r + path.length) (path.foldl (verifyStep h) x) := by
  intro path
  induction path with
  | nil => intro r x _ hx; exact hx
  | cons e rest ih =>
    intro r x hp hx
    have := ih (r + 1) (verifyStep h x e) hp.2 (verifyStep_treeDigest h r x e hx hp.1)
    simp only [List.length_cons, List.foldl_cons]
    rwa [show r + (rest.length + 1) = r + 1 + rest.length by omega]

theorem verifyStep_injective (h : Hasher) (hinj : Function.Injective h) (e : ProofElement)
    (x y : Bytes) (hxy : verifyStep h x e = verifyStep h y e) : x = y := by
  unfold verifyStep at hxy
  split at hxy
  · have := hinj hxy
    simpa using this
  · have := hinj hxy
    simpa using this

theorem foldl_verifyStep_injective (h : Hasher) (hinj : Function.Injective h) :
    ∀ (path : List ProofElement) (x y : Bytes),
      path.foldl (verifyStep h) x = path.foldl (verifyStep h) y → x = y := by
  intro path
  induction path with
  | nil => intro x y hxy; exact hxy
  | cons e rest ih =>
    intro x y hxy
    exact verifyStep_injective h hinj e x y (ih _ _ hxy)

theorem flipFlag_typed (h : Hasher) : ∀ (path : List ProofElement) (j r : Nat),
    typedPath h r path → typedPath h r (flipFlag path j) := by
  intro path
  induction path with
  | nil => intro j r hp; exact hp
  | cons e rest ih =>
    intro j r hp
    cases j with
    | zero => exact ⟨hp.1, hp.2⟩
    | succ j => exact ⟨hp.1, ih j (r + 1) hp.2⟩

theorem flipFlag_length : ∀ (path : List ProofElement) (j : Nat),
    (flipFlag path j).length = path.length := by
  intro path
  induction path with
  | nil => intro j; rfl
  | cons e rest ih =>
    intro j
    cases j with
    | zero => rfl
    | succ j => simp [flipFlag, ih]

theorem flipFlag_foldl_ne (h : Hasher) (hinj : Function.Injective h) :
    ∀ (path : List ProofElement) (j : Nat) (x : Bytes) (e : ProofElement),
      path[j]? = some e → e.Hash ≠ (path.take j).foldl (verifyStep h) x →
      (flipFlag path j).foldl (verifyStep h) x ≠ path.foldl (verifyStep h) x := by
  intro path
  induction path with
  | nil => intro j x e he; simp at he
  | cons e0 rest ih =>
    intro j x e he hne
    cases j with
    | zero =>
      simp only [List.getElem?_cons_zero, Option.some.injEq] at he
      subst he
      simp only [List.take_zero, List.foldl_nil] at hne
      simp only [flipFlag, List.foldl_cons]
      intro hc
      have hstep := foldl_verifyStep_injective h hinj rest _ _ hc
      unfold verifyStep at hstep
      cases hfl : e0.IsLeft <;> simp only [hfl, Bool.not_true, Bool.not_false, if_true,
        if_false, Bool.false_eq_true] at hstep
      · have := hinj hstep
        simp only [List.cons.injEq, and_true] at this
        exact hne this.2.symm
      · have := hinj hstep
        simp only [List.cons.injEq, and_true] at this
        exact hne this.1.symm
    | succ j =>
      simp only [List.getElem?_cons_succ] at he
      simp only [List.take_succ_cons, List.foldl_cons] at hne
      simp only [flipFlag, List.foldl_cons]
      exact ih j _ e he hne

theorem mem_peaksBelow (h : Hasher) (leaf : Nat → Bytes) (N : Nat) (x : Bytes) :
    ∀ K, x ∈ peaksBelow h leaf N K →
      ∃ g, g < K ∧ (N / 2 ^ g) % 2 = 1 ∧ x = subtreeRoot h leaf g ((N / 2 ^ g - 1) * 2 ^ g) := by
  intro K
  induction K with
  | zero => intro hx; simp [peaksBelow] at hx
  | succ K ih =>
    intro hx
    simp only [peaksBelow, List.mem_append] at hx
    rcases hx with hx | hx
    · by_cases hbit : (N / 2 ^ K) % 2 = 1
      · simp only [hbit, if_true, List.mem_singleton] at hx
        exact ⟨K, by omega, hbit, hx⟩
      · simp [hbit] at hx
    · obtain ⟨g, hg, h1, h2⟩ := ih hx
      exact ⟨g, by omega, h1, h2⟩

/-- A digest of the height of the peak above leaf `k` that is not that peak is not
among the peaks, when the hash is injective. -/
theorem not_mem_peaksBelow (h : Hasher) (hinj : Function.Injective h) (leaf : Nat → Bytes)
    (N k d K : Nat) (h2 : (k / 2 ^ d + 1) * 2 ^ d ≤ N) (h3 : N < (k / 2 ^ d + 2) * 2 ^ d)
    (x : Bytes) (hx : treeDigest h d x)
    (hne : x ≠ subtreeRoot h leaf d (k / 2 ^ d * 2 ^ d)) :
    x ∉ peaksBelow h leaf N K := by
  intro hmem
  obtain ⟨g, _, _, hxg⟩ := mem_peaksBelow h leaf N x K hmem
  have hg : d = g := by
    apply treeDigest_height_unique h hinj d g x hx
    rw [hxg]; exact subtreeRoot_treeDigest h leaf g _
  subst hg
  have hdiv : N / 2 ^ d = k / 2 ^ d + 1 := by
    apply Nat.div_eq_of_lt_le h2
    have : (k / 2 ^ d + 1 + 1) * 2 ^ d = (k / 2 ^ d + 2) * 2 ^ d := by ring
    omega
  rw [hdiv, Nat.add_sub_cancel] at hxg
  exact hne hxg

theorem encodeChunk_append_inj : ∀ (c c1 t t1 : Bytes),
    encodeChunk c ++ t = encodeChunk c1 ++ t1 → c = c1 ∧ t = t1 := by
  intro c
  induction c with
  | nil =>
    intro c1 t t1 hc
    cases c1 with
    | nil => simpa [encodeChunk] using hc
    | cons b r => simp [encodeChunk] at hc
  | cons b r ih =>
    intro c1 t t1 hc
    cases c1 with
    | nil => simp [encodeChunk] at hc
    | cons b1 r1 =>
      simp only [encodeChunk, List.cons_append, List.cons.injEq, true_and] at hc
      obtain ⟨hb, hr⟩ := hc
      obtain ⟨e1, e2⟩ := ih r1 t t1 hr
      exact ⟨by rw [hb, e1], e2⟩

theorem encodeChunk_ne_nil (c t : Bytes) : encodeChunk c ++ t ≠ [] := by
  cases c <;> simp [encodeChunk]

theorem tagHash_injective : Function.Injective tagHash := by
  intro cs
  induction cs with
  | nil =>
    intro cs1 hc
    cases cs1 with
    | nil => rfl
    | cons c r => exact absurd hc.symm (encodeChunk_ne_nil c _)
  | cons c r ih =>
    intro cs1 hc
    cases cs1 with
    | nil => exact absurd hc (encodeChunk_ne_nil c _)
    | cons c1 r1 =>
      obtain ⟨e1, e2⟩ := encodeChunk_append_inj c c1 _ _ hc
      rw [e1, ih e2]

/-! ## Verifying the proofs of a reachable store -/

/-- The proof built for leaf `k` on a reachable store is accepted for that leaf. -/
theorem Verify_accepts_reach (h ph : Hasher) (leaf : Nat → Bytes) (N k d : Nat)
    (hN : mmrSize N < 2 ^ 64) (h1 : (k / 2 ^ d) % 2 = 0) (h2 : (k / 2 ^ d + 1) * 2 ^ d ≤ N)
    (h3 : N < (k / 2 ^ d + 2) * 2 ^ d) :
    Verify ⟨specPath h leaf d 0 k, peaksBelow h leaf N (Len64 (mmrSize N)), ph⟩ (leaf k)
      (h (peaksBelow h leaf N (Len64 (mmrSize N)))) h = true := by
  rw [Verify_iff]
  exact ⟨replay_mem_peaks h leaf N k d hN h1 h2 h3, rfl⟩

/-- The proof built for leaf `k` on a reachable store is rejected for every other leaf
value, when the hash is injective on sequences of writes. -/
theorem Verify_rejects_reach (h ph : Hasher) (hinj : Function.Injective h)
    (leaf : Nat → Bytes) (N k d K : Nat) (h2 : (k / 2 ^ d + 1) * 2 ^ d ≤ N)
    (h3 : N < (k / 2 ^ d + 2) * 2 ^ d) (tampered root : Bytes) (hne : tampered ≠ leaf k) :
    Verify ⟨specPath h leaf d 0 k, peaksBelow h leaf N K, ph⟩ tampered root h = false := by
  rw [Bool.eq_false_iff]
  intro hc
  rw [Verify_iff] at hc
  simp only at hc
  have hfold := foldl_specPath h leaf d 0 k
  simp only [pow_zero, Nat.mul_one, Nat.zero_add] at hfold
  have hstart : subtreeRoot h leaf 0 k = h [leaf k] := rfl
  rw [hstart] at hfold
  have hdiff : (specPath h leaf d 0 k).foldl (verifyStep h) (h [tampered])
      ≠ subtreeRoot h leaf d (k / 2 ^ d * 2 ^ d) := by
    rw [← hfold]
    intro heq
    have := hinj (foldl_verifyStep_injective h hinj _ _ _ heq)
    simp only [List.cons.injEq, and_true] at this
    exact hne this
  have htyped := foldl_typed h (specPath h leaf d 0 k) 0 (h [tampered])
    (specPath_typed h leaf d 0 k) ⟨tampered, rfl⟩
  rw [specPath_length, Nat.zero_add] at htyped
  exact not_mem_peaksBelow h hinj leaf N k d K h2 h3 _ htyped hdiff hc.1

theorem getD_of_getElem? (leaves : List Bytes) (k : Nat) (leaf : Bytes)
    (hleaf : leaves[k]? = some leaf) : leaves.getD k [] = leaf := by
  simp [List.getD_eq_getElem?_getD, hleaf]

/-- Leaf `k` of a reachable store sits at storage index `mmrSize k`, as the hash of the
leaf, and the oracle reports `(k, 0)` there. -/
theorem StoreInv.leaf_at {h : Hasher} {leaf : Nat → Bytes} {N : Nat} {els : List Bytes}
    (inv : StoreInv h leaf N els) (k : Nat) (hk : k < N) :
    els[mmrSize k]? = some (h [leaf k]) := by
  have := inv.get 0 k (by simpa using hk)
  simpa [nodeIndex_zero, subtreeRoot] using this

/-! ## Structure of a reachable store, and growth of proof paths -/

/-- Every element of a reachable store is the hash of a leaf (height 0) or the hash of
the two elements at `p - 2 ^ g` and `p - 1` (height `g > 0`), where the leaf number and
the height are the two results of the oracle at `p`. -/
theorem StoreInv.merge_structure {h : Hasher} {leaf : Nat → Bytes} {N : Nat}
    {els : List Bytes} (inv : StoreInv h leaf N els) (hN : mmrSize N ≤ 2 ^ 64) (p : Nat)
    (hp : p < els.length) :
    (HeightBitmapForMMRSize p).1 < N ∧
    ((HeightBitmapForMMRSize p).2 = 0 →
      els[p]? = some (h [leaf (HeightBitmapForMMRSize p).1])) ∧
    (0 < (HeightBitmapForMMRSize p).2 →
      2 ^ (HeightBitmapForMMRSize p).2 ≤ p ∧
      ∃ a b, els[p - 2 ^ (HeightBitmapForMMRSize p).2]? = some a ∧ els[p - 1]? = some b ∧
        els[p]? = some (h [a, b])) := by
  rw [inv.1] at hp
  obtain ⟨hsum, hres, _⟩ := HeightBitmapForMMRSize_spec p (by omega)
  generalize (HeightBitmapForMMRSize p).1 = n at hsum hres
  generalize (HeightBitmapForMMRSize p).2 = g at hsum hres
  have hn : n < N := by
    have : mmrSize n < mmrSize N := by omega
    exact mmrSize_lt_iff.mp this
  refine ⟨hn, ?_, ?_⟩
  · intro hg
    subst hg
    rw [← hsum, Nat.add_zero]
    exact inv.leaf_at n hn
  · intro hg
    obtain ⟨g1, rfl⟩ : ∃ g1, g = g1 + 1 := ⟨g - 1, by omega⟩
    have hsplit := trailingOnes_split n (g1 + 1) hres
    have hidx := mmrSize_add_eq_nodeIndex n (g1 + 1) hres
    have hpr : 0 < 2 ^ (g1 + 1) := by positivity
    have hpr1 : 0 < 2 ^ g1 := by positivity
    have hle : (n / 2 ^ (g1 + 1) + 1) * 2 ^ (g1 + 1) ≤ N := by
      have : (n / 2 ^ (g1 + 1) + 1) * 2 ^ (g1 + 1)
          = n / 2 ^ (g1 + 1) * 2 ^ (g1 + 1) + 2 ^ (g1 + 1) := by ring
      omega
    have hright : (2 * (n / 2 ^ (g1 + 1)) + 1 + 1) * 2 ^ g1 ≤ N := by
      have : (2 * (n / 2 ^ (g1 + 1)) + 1 + 1) * 2 ^ g1
          = (n / 2 ^ (g1 + 1) + 1) * 2 ^ (g1 + 1) := by ring
      omega
    have hleft : (2 * (n / 2 ^ (g1 + 1)) + 1) * 2 ^ g1 ≤ N := by
      have : (2 * (n / 2 ^ (g1 + 1)) + 1 + 1) * 2 ^ g1
          = (2 * (n / 2 ^ (g1 + 1)) + 1) * 2 ^ g1 + 2 ^ g1 := by ring
      omega
    have hparent := nodeIndex_odd_succ g1 (n / 2 ^ (g1 + 1))
    have hsib := nodeIndex_even_add g1 (n / 2 ^ (g1 + 1))
    have e1 : p - 1 = nodeIndex g1 (2 * (n / 2 ^ (g1 + 1)) + 1) := by omega
    have e2 : p - 2 ^ (g1 + 1) = nodeIndex g1 (2 * (n / 2 ^ (g1 + 1))) := by omega
    refine ⟨by omega, subtreeRoot h leaf g1 (2 * (n / 2 ^ (g1 + 1)) * 2 ^ g1),
      subtreeRoot h leaf g1 ((2 * (n / 2 ^ (g1 + 1)) + 1) * 2 ^ g1), ?_, ?_, ?_⟩
    · rw [e2]; exact inv.get g1 _ hleft
    · rw [e1]; exact inv.get g1 _ hright
    · rw [← hsum, hidx, inv.get (g1 + 1) _ hle, subtreeRoot_succ_even]

theorem subtree_end_mono (k j : Nat) : ∀ i,
    (k / 2 ^ j + 1) * 2 ^ j ≤ (k / 2 ^ (j + i) + 1) * 2 ^ (j + i) := by
  intro i
  induction i with
  | zero => exact le_rfl
  | succ i ih =>
    refine le_trans ih ?_
    have e : k / 2 ^ (j + (i + 1)) = k / 2 ^ (j + i) / 2 := by
      rw [← Nat.add_assoc, pow_succ, Nat.div_div_eq_div_mul]
    rw [e, show j + (i + 1) = j + i + 1 by omega, pow_succ]
    have h1 : k / 2 ^ (j + i) + 1 ≤ (k / 2 ^ (j + i) / 2 + 1) * 2 := by
      generalize k / 2 ^ (j + i) = a
      omega
    calc (k / 2 ^ (j + i) + 1) * 2 ^ (j + i)
        ≤ (k / 2 ^ (j + i) / 2 + 1) * 2 * 2 ^ (j + i) := Nat.mul_le_mul_right _ h1
      _ = (k / 2 ^ (j + i) / 2 + 1) * (2 ^ (j + i) * 2) := by ring

/-- The height of the peak above leaf `k` does not decrease when leaves are added. -/
theorem peak_height_le (k N N1 d d1 : Nat) (hNN : N ≤ N1)
    (h2 : (k / 2 ^ d + 1) * 2 ^ d ≤ N)
    (g1 : (k / 2 ^ d1) % 2 = 0) (g3 : N1 < (k / 2 ^ d1 + 2) * 2 ^ d1) : d ≤ d1 := by
  by_contra hc
  have hmono := subtree_end_mono k (d1 + 1) (d - (d1 + 1))
  rw [show d1 + 1 + (d - (d1 + 1)) = d by omega] at hmono
  have e : k / 2 ^ (d1 + 1) = k / 2 ^ d1 / 2 := by
    rw [pow_succ, Nat.div_div_eq_div_mul]
  have h5 : (k / 2 ^ (d1 + 1) + 1) * 2 ^ (d1 + 1) = (k / 2 ^ d1 + 2) * 2 ^ d1 := by
    rw [e, pow_succ]
    have : (k / 2 ^ d1 / 2 + 1) * 2 = k / 2 ^ d1 + 2 := by
      generalize k / 2 ^ d1 = a at g1
      omega
    calc (k / 2 ^ d1 / 2 + 1) * (2 ^ d1 * 2)
        = (k / 2 ^ d1 / 2 + 1) * 2 * 2 ^ d1 := by ring
      _ = (k / 2 ^ d1 + 2) * 2 ^ d1 := by rw [this]
  omega

theorem specPath_prefix (h : Hasher) (leaf : Nat → Bytes) : ∀ (d i r a : Nat),
    specPath h leaf d r a <+: specPath h leaf (d + i) r a := by
  intro d
  induction d with
  | zero => intro i r a; exact List.nil_prefix
  | succ d ih =>
    intro i r a
    rw [show d + 1 + i = (d + i) + 1 by omega]
    simp only [specPath]
    exact (List.prefix_cons_inj _).mpr (ih i (r + 1) (a / 2))

theorem GetSubtreeProofElm_reach (h : Hasher) (leaf : Nat → Bytes) (N : Nat)
    (els : List Bytes) (inv : StoreInv h leaf N els) (hN : mmrSize N < 2 ^ 63) (k : Nat)
    (hk : k < N) (fuel : Nat) (hfuel : Len64 (mmrSize N) ≤ fuel) :
    ∃ d, d < Len64 (mmrSize N) ∧
      GetSubtreeProofElmLoop ⟨els, h⟩ fuel [] (mmrSize k) 0
        = Outcome.done (specPath h leaf d 0 k) ∧
      (k / 2 ^ d) % 2 = 0 ∧ (k / 2 ^ d + 1) * 2 ^ d ≤ N ∧ N < (k / 2 ^ d + 2) * 2 ^ d := by
  have hlen := lt_two_pow_Len64 (mmrSize N) (by omega)
  have hNlt : N < 2 ^ (0 + Len64 (mmrSize N)) := by
    have := le_mmrSize N
    rw [Nat.zero_add]; omega
  obtain ⟨d, hd, hrun, h1, h2, h3⟩ := GetSubtreeProofElmLoop_reach h leaf N els inv hN
    (Len64 (mmrSize N)) 0 k fuel [] hNlt hfuel (by simpa using hk)
  simp only [Nat.zero_add, List.nil_append, nodeIndex_zero] at hrun h2 h3
  exact ⟨d, hd, hrun, h1, h2, h3⟩

theorem map_getD_append (leaves : List Bytes) (x : Bytes) :
    (List.range leaves.length).map (fun i => (leaves ++ [x]).getD i []) = leaves := by
  apply List.ext_getElem
  · simp
  · intro n h1 h2
    simp only [List.length_map, List.length_range] at h1
    simp [List.getElem?_append_left h1, List.getElem?_eq_getElem h1]

/-! ## The two range tests of the right-sibling step agree on a reachable store -/

theorem addRightElmSpec_even (h : Hasher) (leaf : Nat → Bytes) (N : Nat) (els : List Bytes)
    (inv : StoreInv h leaf N els) (hN : mmrSize N < 2 ^ 63) (r b : Nat)
    (ha : (2 * b + 1) * 2 ^ r ≤ N) (proofElms : List ProofElement) :
    addRightElmSpec (nodeIndex r (2 * b)) r ⟨els, h⟩ proofElms =
      if (b + 1) * 2 ^ (r + 1) ≤ N then
        Outcome.done (proofElms ++ [⟨subtreeRoot h leaf r ((2 * b + 1) * 2 ^ r), false⟩],
          nodeIndex (r + 1) b, true)
      else Outcome.done (proofElms, nodeIndex r (2 * b), false) := by
  have hr := height_lt_of_node ha hN
  have hidx := (nodeIndex_lt_mmrSize_iff r (2 * b) N).mpr ha
  have hsz : sub64 (shl64 1 ((r + 1) % 2 ^ 32)) 1 = 2 ^ (r + 1) - 1 := by
    rw [Nat.mod_eq_of_lt (by omega), subtreeSize64 _ (by omega)]
  have hpow : 2 ^ (r + 1) ≤ 2 ^ 63 := Nat.pow_le_pow_right (by norm_num) (by omega)
  have hnext : add64 (nodeIndex r (2 * b)) (2 ^ (r + 1) - 1) = nodeIndex r (2 * b + 1) := by
    rw [add64_of_lt _ _ (by omega), nodeIndex_even_add]
  have hparent := nodeIndex_odd_succ r b
  have hiff := nodeIndex_lt_mmrSize_iff r (2 * b + 1) N
  have e : (2 * b + 1 + 1) * 2 ^ r = (b + 1) * 2 ^ (r + 1) := by ring
  rw [e] at hiff
  have hpar := nodeIndex_lt_mmrSize_iff (r + 1) b N
  unfold addRightElmSpec
  simp only [hsz, hnext, inv.1, toU64_of_lt _ (by omega : mmrSize N < 2 ^ 64)]
  by_cases hin : (b + 1) * 2 ^ (r + 1) ≤ N
  · have hlt := hiff.mpr hin
    have hle : (2 * b + 1 + 1) * 2 ^ r ≤ N := by omega
    have := hpar.mpr hin
    simp only [hlt, hin, if_true, inv.get r (2 * b + 1) hle]
    rw [add64_of_lt _ _ (by omega), hparent]
  · have hlt : ¬ nodeIndex r (2 * b + 1) < mmrSize N := fun hc => hin (hiff.mp hc)
    simp only [hlt, hin, if_false]

theorem GetSubtreeProofElmSpecLoop_odd (h : Hasher) (leaf : Nat → Bytes) (N : Nat)
    (els : List Bytes) (inv : StoreInv h leaf N els) (hN : mmrSize N < 2 ^ 63) (r b : Nat)
    (ha : (2 * b + 1 + 1) * 2 ^ r ≤ N) (fuel : Nat) (proofElms : List ProofElement) :
    GetSubtreeProofElmSpecLoop ⟨els, h⟩ (fuel + 1) proofElms (nodeIndex r (2 * b + 1)) r =
      GetSubtreeProofElmSpecLoop ⟨els, h⟩ fuel
        (proofElms ++ [⟨subtreeRoot h leaf r (2 * b * 2 ^ r), true⟩]) (nodeIndex (r + 1) b)
        (r + 1) := by
  have hr := height_lt_of_node ha hN
  have hidx := (nodeIndex_lt_mmrSize_iff r (2 * b + 1) N).mpr ha
  have hsz : sub64 (shl64 1 ((r + 1) % 2 ^ 32)) 1 = 2 ^ (r + 1) - 1 := by
    rw [Nat.mod_eq_of_lt (by omega), subtreeSize64 _ (by omega)]
  have heven := nodeIndex_even_add r b
  have hge : nodeIndex r (2 * b + 1) ≥ 2 ^ (r + 1) - 1 := by omega
  have hprev : sub64 (nodeIndex r (2 * b + 1)) (2 ^ (r + 1) - 1) = nodeIndex r (2 * b) := by
    rw [sub64_of_le _ _ (by omega) hge]; omega
  have horacle := HeightBitmapForMMRSize_nodeIndex r (2 * b) (by omega)
  have hle : (2 * b + 1) * 2 ^ r ≤ N := by
    have : (2 * b + 1 + 1) * 2 ^ r = (2 * b + 1) * 2 ^ r + 2 ^ r := by ring
    have hp : 0 < 2 ^ r := by positivity
    omega
  have hmod : (r + 1) % 2 ^ 32 = r + 1 := Nat.mod_eq_of_lt (by omega)
  rw [GetSubtreeProofElmSpecLoop]
  simp only [hsz, hge, if_true, hprev, horacle, inv.get r (2 * b) hle]
  rw [add64_of_lt _ _ (by omega), nodeIndex_odd_succ, hmod]

theorem GetSubtreeProofElmSpecLoop_even (h : Hasher) (leaf : Nat → Bytes) (N : Nat)
    (els : List Bytes) (inv : StoreInv h leaf N els) (hN : mmrSize N < 2 ^ 63) (r b : Nat)
    (ha : (2 * b + 1) * 2 ^ r ≤ N) (fuel : Nat) (proofElms : List ProofElement) :
    GetSubtreeProofElmSpecLoop ⟨els, h⟩ (fuel + 1) proofElms (nodeIndex r (2 * b)) r =
      if (b + 1) * 2 ^ (r + 1) ≤ N then
        GetSubtreeProofElmSpecLoop ⟨els, h⟩ fuel
          (proofElms ++ [⟨subtreeRoot h leaf r ((2 * b + 1) * 2 ^ r), false⟩])
          (nodeIndex (r + 1) b) (r + 1)
      else Outcome.done proofElms := by
  have hr := height_lt_of_node ha hN
  have hidx := (nodeIndex_lt_mmrSize_iff r (2 * b) N).mpr ha
  have hsz : sub64 (shl64 1 ((r + 1) % 2 ^ 32)) 1 = 2 ^ (r + 1) - 1 := by
    rw [Nat.mod_eq_of_lt (by omega), subtreeSize64 _ (by omega)]
  have hmod : (r + 1) % 2 ^ 32 = r + 1 := Nat.mod_eq_of_lt (by omega)
  have hright := addRightElmSpec_even h leaf N els inv hN r b ha proofElms
  have hnotleft : ¬ (nodeIndex r (2 * b) ≥ 2 ^ (r + 1) - 1 ∧
      (HeightBitmapForMMRSize (sub64 (nodeIndex r (2 * b)) (2 ^ (r + 1) - 1))).2 = r) := by
    rintro ⟨hge, heq⟩
    rw [sub64_of_le _ _ (by omega) hge] at heq
    have hb : 1 ≤ b := by
      by_contra hc
      have hb0 : b = 0 := by omega
      subst hb0
      have := nodeIndex_add r 0
      simp only [popcount_zero, Nat.add_zero, Nat.zero_add, Nat.one_mul] at this
      simp only [Nat.mul_zero] at hge
      omega
    exact HeightBitmapForMMRSize_before_even r b hb (by omega) heq
  rw [GetSubtreeProofElmSpecLoop]
  rw [hmod] at hsz
  simp only [hmod, hsz, hright]
  by_cases hge : nodeIndex r (2 * b) ≥ 2 ^ (r + 1) - 1
  · have hne : ¬ (HeightBitmapForMMRSize (sub64 (nodeIndex r (2 * b)) (2 ^ (r + 1) - 1))).2 = r :=
      fun hc => hnotleft ⟨hge, hc⟩
    simp only [hge, if_true, hne, if_false]
    by_cases hin : (b + 1) * 2 ^ (r + 1) ≤ N
    · simp only [hin, if_true]
    · simp only [hin, if_false]; rfl
  · simp only [hge, if_false]
    by_cases hin : (b + 1) * 2 ^ (r + 1) ≤ N
    · simp only [hin, if_true]
    · simp only [hin, if_false]; rfl

theorem GetSubtreeProofElmSpecLoop_eq (h : Hasher) (leaf : Nat → Bytes) (N : Nat)
    (els : List Bytes) (inv : StoreInv h leaf N els) (hN : mmrSize N < 2 ^ 63) :
    ∀ (fuel r a : Nat) (proofElms : List ProofElement), (a + 1) * 2 ^ r ≤ N →
      GetSubtreeProofElmSpecLoop ⟨els, h⟩ fuel proofElms (nodeIndex r a) r
        = GetSubtreeProofElmLoop ⟨els, h⟩ fuel proofElms (nodeIndex r a) r := by
  intro fuel
  induction fuel with
  | zero => intro r a proofElms _; rfl
  | succ f ih =>
    intro r a proofElms ha
    rcases Nat.even_or_odd' a with ⟨b, rfl | rfl⟩
    · rw [GetSubtreeProofElmSpecLoop_even h leaf N els inv hN r b ha,
        GetSubtreeProofElmLoop_even h leaf N els inv hN r b ha]
      by_cases hin : (b + 1) * 2 ^ (r + 1) ≤ N
      · simp only [hin, if_true]
        exact ih (r + 1) b _ hin
      · simp only [hin, if_false]
    · have hin : (b + 1) * 2 ^ (r + 1) ≤ N := by
        have : (2 * b + 1 + 1) * 2 ^ r = (b + 1) * 2 ^ (r + 1) := by ring
        omega
      rw [GetSubtreeProofElmSpecLoop_odd h leaf N els inv hN r b ha,
        GetSubtreeProofElmLoop_odd h leaf N els inv hN r b ha]
      exact ih (r + 1) b _ hin

/-! ## `AddLeafWithErrors` over a hash that never fails is `AddLeaf` -/

theorem AddLeafWithErrorsLoop_infallible (h : Hasher) : ∀ (fuel : Nat) (elements : List Bytes)
    (peaks currentPos : Nat) (nextHash : Bytes) (height : Nat),
    AddLeafWithErrorsLoop (infallible h) fuel elements peaks currentPos nextHash height
      = AddLeafLoop h fuel elements peaks currentPos nextHash height := by
  intro fuel
  induction fuel with
  | zero => intros; rfl
  | succ f ih =>
    intro elements peaks currentPos nextHash height
    simp only [AddLeafWithErrorsLoop, AddLeafLoop]
    split_ifs
    · cases hget : elements[sub64 currentPos (sub64 (shl64 1 height) 1)]? with
      | none => rfl
      | some prevPeak =>
        simp only [infallible, List.nil_append, List.cons_append]
        exact ih _ _ _ _ _
    · rfl
    · rfl

theorem AddLeafWithErrors_infallible (h : Hasher) (elements : List Bytes) (leaf : Bytes) :
    AddLeafWithErrors (infallible h) elements leaf =
      match AddLeaf ⟨elements, h⟩ leaf with
      | Outcome.done mmr => Outcome.done mmr.elements
      | Outcome.panicked => Outcome.panicked
      | Outcome.outOfFuel => Outcome.outOfFuel := by
  unfold AddLeafWithErrors AddLeaf
  simp only [AddLeafWithErrorsLoop_infallible]
  by_cases h0 : elements.length = 0
  · simp [h0, infallible]
  · simp only [h0, if_false, infallible, List.nil_append, Bool.false_eq_true]
    cases AddLeafLoop h 65 (elements ++ [h [leaf]])
      (HeightBitmapForMMRSize (toU64 elements.length)).1 (toU64 elements.length) (h [leaf]) 1
      <;> rfl

/-! ## `GetPeaks` walks the store in step with the height-bitmap oracle -/

theorem mem_peakHeights (b : Nat) : ∀ (k j : Nat), j ∈ peakHeights b k → j < k := by
  intro k
  induction k with
  | zero => intro j hj; simp [peakHeights] at hj
  | succ k ih =>
    intro j hj
    simp only [peakHeights, List.mem_append] at hj
    rcases hj with hj | hj
    · split_ifs at hj
      · simp at hj; omega
      · simp at hj
    · have := ih j hj; omega

theorem subtreeSizeSum_self (b k : Nat) : subtreeSizeSum b k k = 0 := by
  unfold subtreeSizeSum
  have : (peakHeights b k).filter (fun i => decide (k ≤ i)) = [] := by
    rw [List.filter_eq_nil_iff]
    intro a ha
    have := mem_peakHeights b k a ha
    simp; omega
  rw [this]; rfl

theorem subtreeSizeSum_succ_set (b k j : Nat) (hbit : (b / 2 ^ k) % 2 = 1) (hj : j ≤ k) :
    subtreeSizeSum b (k + 1) j = (2 ^ (k + 1) - 1) + subtreeSizeSum b k j := by
  unfold subtreeSizeSum
  simp [peakHeights, hbit, List.filter_cons, hj]

theorem subtreeSizeSum_succ_clear (b k j : Nat) (hbit : ¬ (b / 2 ^ k) % 2 = 1) :
    subtreeSizeSum b (k + 1) j = subtreeSizeSum b k j := by
  unfold subtreeSizeSum
  simp [peakHeights, hbit]

/-- The oracle loop keeps the bits it has already decided. -/
theorem HeightBitmapLoop_high (k fuel upd p : Nat) (hfuel : k ≤ fuel)
    (hp : (p + 1) * 2 ^ k ≤ 2 ^ 64) (hupd : upd ≤ 2 * (2 ^ k - 1) + trailingOnes p) :
    (HeightBitmapLoop fuel (2 ^ k - 1) upd p).1 / 2 ^ k = p := by
  obtain ⟨h1, h2, h3⟩ := HeightBitmapLoop_spec k fuel upd p hfuel hp hupd
  generalize (HeightBitmapLoop fuel (2 ^ k - 1) upd p).1 = b at h1 h2 h3
  generalize (HeightBitmapLoop fuel (2 ^ k - 1) upd p).2 = r at h1 h2
  apply Nat.div_eq_of_lt_le _ h3
  by_contra hc
  have hlt : b + 1 ≤ p * 2 ^ k := by omega
  have hm := mmrSize_le_iff.mpr hlt
  have := mmrSize_succ b
  omega

theorem GetPeaksLoop_mirror (els : List Bytes) : ∀ (k f g u p pp : Nat) (acc : List Bytes),
    k ≤ f → k ≤ g → (p + 1) * 2 ^ k ≤ 2 ^ 64 → u ≤ 2 * (2 ^ k - 1) + trailingOnes p →
    pp + u = toU64 els.length →
    (GetPeaksLoop els g (2 ^ k - 1) u pp acc).map some
      = acc.map some ++ (peakHeights (HeightBitmapLoop f (2 ^ k - 1) u p).1 k).map fun j =>
          els[pp + subtreeSizeSum (HeightBitmapLoop f (2 ^ k - 1) u p).1 k j - 1]? := by
  intro k
  induction k with
  | zero =>
    intro f g u p pp acc _ _ _ _ _
    cases g <;> simp [GetPeaksLoop, peakHeights]
  | succ k ih =>
    intro f g u p pp acc hf hg hp hu hsum
    have hhigh := HeightBitmapLoop_high (k + 1) f u p hf hp hu
    obtain ⟨f1, rfl⟩ : ∃ f1, f = f1 + 1 := ⟨f - 1, by omega⟩
    obtain ⟨g1, rfl⟩ : ∃ g1, g = g1 + 1 := ⟨g - 1, by omega⟩
    have hk : 0 < 2 ^ k := by positivity
    have e3 : 2 ^ (k + 1) = 2 * 2 ^ k := by ring
    have hpk : 2 * p < 2 ^ 64 := by
      have : (p + 1) * 2 ^ (k + 1) = 2 * ((p + 1) * 2 ^ k) := by ring
      have : p + 1 ≤ (p + 1) * 2 ^ k := Nat.le_mul_of_pos_right _ hk
      omega
    have hsub : 2 ^ (k + 1) - 1 > 0 := by omega
    have hL : toU64 els.length < 2 ^ 64 := Nat.mod_lt _ (by positivity)
    have hLle : toU64 els.length ≤ els.length := Nat.mod_le _ _
    have hdiv : ∀ b : Nat, b / 2 ^ (k + 1) = b / 2 ^ k / 2 := by
      intro b; rw [pow_succ, Nat.div_div_eq_div_mul]
    by_cases hge : u ≥ 2 ^ (k + 1) - 1
    · have hp1 : (2 * p + 1 + 1) * 2 ^ k ≤ 2 ^ 64 := by
        have : (2 * p + 1 + 1) * 2 ^ k = (p + 1) * 2 ^ (k + 1) := by ring
        omega
      have hu1 : u - (2 ^ (k + 1) - 1) ≤ 2 * (2 ^ k - 1) + trailingOnes (2 * p + 1) := by
        rw [trailingOnes_double_succ]; omega
      have hO : HeightBitmapLoop (f1 + 1) (2 ^ (k + 1) - 1) u p
          = HeightBitmapLoop f1 (2 ^ k - 1) (u - (2 ^ (k + 1) - 1)) (2 * p + 1) := by
        simp only [HeightBitmapLoop, hsub, if_true, pow_succ_sub_one_shiftRight,
          shl64_one p hpk, two_mul_lor_one, hge]
      have hhigh1 := HeightBitmapLoop_high k f1 (u - (2 ^ (k + 1) - 1)) (2 * p + 1)
        (by omega) hp1 hu1
      have hadd : add64 pp (2 ^ (k + 1) - 1) = pp + (2 ^ (k + 1) - 1) :=
        add64_of_lt _ _ (by omega)
      have hidx : sub64 (pp + (2 ^ (k + 1) - 1)) 1 = pp + (2 ^ (k + 1) - 1) - 1 :=
        sub64_of_le _ _ (by omega) (by omega)
      have hin : pp + (2 ^ (k + 1) - 1) - 1 < els.length := by omega
      have hguard : pp + (2 ^ (k + 1) - 1) - 1 < toU64 els.length := by omega
      have hP : GetPeaksLoop els (g1 + 1) (2 ^ (k + 1) - 1) u pp acc
          = GetPeaksLoop els g1 (2 ^ k - 1) (u - (2 ^ (k + 1) - 1)) (pp + (2 ^ (k + 1) - 1))
              (acc ++ [els[pp + (2 ^ (k + 1) - 1) - 1]]) := by
        rw [GetPeaksLoop]
        simp only [hsub, if_true, hge, hadd, hidx, hguard, pow_succ_sub_one_shiftRight,
          List.getElem?_eq_getElem hin, Option.toList_some]
      rw [hO] at hhigh ⊢
      rw [hP, ih f1 g1 _ (2 * p + 1) _ _ (by omega) (by omega) hp1 hu1 (by omega)]
      generalize (HeightBitmapLoop f1 (2 ^ k - 1) (u - (2 ^ (k + 1) - 1)) (2 * p + 1)).1 = b
        at hhigh hhigh1
      have hbit : (b / 2 ^ k) % 2 = 1 := by omega
      simp only [peakHeights, hbit, if_true, List.map_append, List.map_cons, List.map_nil,
        List.append_assoc, List.singleton_append, List.cons_append, List.nil_append]
      have hhead : els[pp + subtreeSizeSum b (k + 1) k - 1]?
          = some els[pp + (2 ^ (k + 1) - 1) - 1] := by
        rw [subtreeSizeSum_succ_set b k k hbit le_rfl, subtreeSizeSum_self,
          ← List.getElem?_eq_getElem hin]
        rfl
      have htail : (peakHeights b k).map (fun j =>
            els[pp + (2 ^ (k + 1) - 1) + subtreeSizeSum b k j - 1]?)
          = (peakHeights b k).map (fun j => els[pp + subtreeSizeSum b (k + 1) j - 1]?) := by
        apply List.map_congr_left
        intro j hj
        have hjk := mem_peakHeights b k j hj
        rw [subtreeSizeSum_succ_set b k j hbit (by omega), Nat.add_assoc]
      rw [hhead, htail]
    · have hp1 : (2 * p + 1) * 2 ^ k ≤ 2 ^ 64 := by
        have : (p + 1) * 2 ^ (k + 1) = (2 * p + 1) * 2 ^ k + 2 ^ k := by ring
        omega
      have hu1 : u ≤ 2 * (2 ^ k - 1) + trailingOnes (2 * p) := by
        rw [trailingOnes_double]; omega
      have hO : HeightBitmapLoop (f1 + 1) (2 ^ (k + 1) - 1) u p
          = HeightBitmapLoop f1 (2 ^ k - 1) u (2 * p) := by
        simp only [HeightBitmapLoop, hsub, if_true, pow_succ_sub_one_shiftRight,
          shl64_one p hpk, hge, if_false]
      have hhigh1 := HeightBitmapLoop_high k f1 u (2 * p) (by omega) hp1 hu1
      have hP : GetPeaksLoop els (g1 + 1) (2 ^ (k + 1) - 1) u pp acc
          = GetPeaksLoop els g1 (2 ^ k - 1) u pp acc := by
        rw [GetPeaksLoop]
        simp only [hsub, if_true, hge, if_false, pow_succ_sub_one_shiftRight]
      rw [hO] at hhigh ⊢
      rw [hP, ih f1 g1 _ (2 * p) _ _ (by omega) (by omega) hp1 hu1 hsum]
      generalize (HeightBitmapLoop f1 (2 ^ k - 1) u (2 * p)).1 = b at hhigh hhigh1
      have hbit : ¬ (b / 2 ^ k) % 2 = 1 := by omega
      simp only [peakHeights, hbit, if_false, List.nil_append]
      have htail : (peakHeights b k).map (fun j => els[pp + subtreeSizeSum b k j - 1]?)
          = (peakHeights b k).map (fun j => els[pp + subtreeSizeSum b (k + 1) j - 1]?) := by
        apply List.map_congr_left
        intro j _
        rw [subtreeSizeSum_succ_clear b k j hbit]
      rw [htail]

/-! ## The peaks returned by `GetPeaks`, by height -/

theorem peakHeights_of_lt (b K : Nat) (hb : b < 2 ^ K) : ∀ m, K ≤ m →
    peakHeights b m = peakHeights b K := by
  intro m hm
  induction m, hm using Nat.le_induction with
  | base => rfl
  | succ m hKm ih =>
    have hpow : 2 ^ K ≤ 2 ^ m := Nat.pow_le_pow_right (by norm_num) hKm
    have hdiv : b / 2 ^ m = 0 := Nat.div_eq_of_lt (by omega)
    simp only [peakHeights, hdiv, Nat.zero_mod, zero_ne_one, if_false, List.nil_append]
    exact ih

theorem peakHeights_length (b : Nat) : ∀ k, (peakHeights b k).length = popcount (b % 2 ^ k) := by
  intro k
  induction k with
  | zero => simp [peakHeights, Nat.mod_one, popcount_zero]
  | succ k ih =>
    have hmod : b % 2 ^ (k + 1) = (b / 2 ^ k % 2) * 2 ^ k + b % 2 ^ k := by
      rw [Nat.mod_pow_succ]; ring
    have hlt : b % 2 ^ k < 2 ^ k := Nat.mod_lt _ (by positivity)
    rw [hmod, popcount_shift _ k _ hlt]
    simp only [peakHeights, List.length_append, ih]
    rcases Nat.mod_two_eq_zero_or_one (b / 2 ^ k) with h0 | h1
    · simp [h0, popcount_zero]
    · have : popcount 1 = 1 := rfl
      simp [h1, this]

/-- The digests `GetPeaks` returns are the store elements at the cumulative subtree sizes
of the set bits of the oracle's bitmap, from the tallest peak to the shortest. -/
theorem GetPeaks_mirror (mmr : MMR) :
    (GetPeaks mmr).map some
      = (peakHeights (HeightBitmapForMMRSize (toU64 mmr.elements.length)).1 64).map fun j =>
          mmr.elements[subtreeSizeSum (HeightBitmapForMMRSize (toU64 mmr.elements.length)).1
            64 j - 1]? := by
  have hL : toU64 mmr.elements.length < 2 ^ 64 := Nat.mod_lt _ (by positivity)
  have hK := Len64_le (toU64 mmr.elements.length)
  have hlt := lt_two_pow_Len64 _ hL
  have hpow : 2 ^ Len64 (toU64 mmr.elements.length) ≤ 2 ^ 64 :=
    Nat.pow_le_pow_right (by norm_num) hK
  have hO : HeightBitmapForMMRSize (toU64 mmr.elements.length)
      = HeightBitmapLoop 64 (2 ^ Len64 (toU64 mmr.elements.length) - 1)
          (toU64 mmr.elements.length) 0 := by
    unfold HeightBitmapForMMRSize
    by_cases h0 : toU64 mmr.elements.length = 0
    · rw [h0]; rfl
    · simp only [h0, if_false, allPeaksSet_eq]
  have hu : toU64 mmr.elements.length
      ≤ 2 * (2 ^ Len64 (toU64 mmr.elements.length) - 1) + trailingOnes 0 := by omega
  have hmir := GetPeaksLoop_mirror mmr.elements (Len64 (toU64 mmr.elements.length)) 64 64
    (toU64 mmr.elements.length) 0 0 [] hK hK (by simpa using hpow) hu (by simp)
  have hhigh := HeightBitmapLoop_high (Len64 (toU64 mmr.elements.length)) 64
    (toU64 mmr.elements.length) 0 hK (by simpa using hpow) hu
  rw [← hO] at hmir hhigh
  have hb : (HeightBitmapForMMRSize (toU64 mmr.elements.length)).1
      < 2 ^ Len64 (toU64 mmr.elements.length) := by
    by_contra hc
    have := Nat.div_pos (Nat.le_of_not_lt hc) (by positivity)
    omega
  have hpk := peakHeights_of_lt _ _ hb 64 hK
  unfold GetPeaks
  simp only [allPeaksSet_eq]
  rw [hmir]
  simp only [List.map_nil, List.nil_append, Nat.zero_add, subtreeSizeSum, hpk]

theorem peaksBelow_eq_nil (h : Hasher) (leaf : Nat → Bytes) (N : Nat) : ∀ k,
    N % 2 ^ k = 0 → peaksBelow h leaf N k = [] := by
  intro k
  induction k with
  | zero => intro _; rfl
  | succ k ih =>
    intro hk
    rw [Nat.mod_pow_succ] at hk
    have hp : 0 < 2 ^ k := by positivity
    have h1 : N % 2 ^ k = 0 := by omega
    have h2 : 2 ^ k * (N / 2 ^ k % 2) = 0 := by omega
    have h3 : N / 2 ^ k % 2 = 0 := by
      rcases Nat.mul_eq_zero.mp h2 with h | h
      · omega
      · exact h
    simp [peaksBelow, h3, ih h1]

theorem peaksBelow_getLast (h : Hasher) (leaf : Nat → Bytes) (N t : Nat)
    (hmod : N % 2 ^ t = 0) (hbit : (N / 2 ^ t) % 2 = 1) : ∀ k, t < k →
    (peaksBelow h leaf N k).getLast? = some (subtreeRoot h leaf t ((N / 2 ^ t - 1) * 2 ^ t)) := by
  intro k
  induction k with
  | zero => intro hk; omega
  | succ k ih =>
    intro hk
    rcases Nat.lt_or_ge t k with hlt | hge
    · simp only [peaksBelow, List.getLast?_append, ih hlt]
      rfl
    · have ht : t = k := by omega
      subst ht
      simp [peaksBelow, hbit, peaksBelow_eq_nil h leaf N t hmod]

/-- On a reachable store with at least one leaf the last peak is the last element. -/
theorem GetPeaks_getLast (h : Hasher) (leaf : Nat → Bytes) (N : Nat) (els : List Bytes)
    (inv : StoreInv h leaf N els) (hN : mmrSize N < 2 ^ 64) (hpos : 1 ≤ N) :
    (GetPeaks ⟨els, h⟩).getLast? = els.getLast? := by
  obtain ⟨n, rfl⟩ : ∃ n, N = n + 1 := ⟨N - 1, by omega⟩
  have hsplit := trailingOnes_split n (trailingOnes n) le_rfl
  have hdiv := trailingOnes_div n (trailingOnes n) le_rfl
  have hpw : 0 < 2 ^ trailingOnes n := by positivity
  have hN1 : n + 1 = (n / 2 ^ trailingOnes n + 1) * 2 ^ trailingOnes n := by
    have : (n / 2 ^ trailingOnes n + 1) * 2 ^ trailingOnes n
        = n / 2 ^ trailingOnes n * 2 ^ trailingOnes n + 2 ^ trailingOnes n := by ring
    omega
  have hmod : (n + 1) % 2 ^ trailingOnes n = 0 := by
    rw [hN1]; exact Nat.mul_mod_left _ _
  have hquot : (n + 1) / 2 ^ trailingOnes n = n / 2 ^ trailingOnes n + 1 := by
    nth_rewrite 1 [hN1]
    exact Nat.mul_div_cancel _ hpw
  have heven : (n / 2 ^ trailingOnes n) % 2 = 0 := by
    have h1 := trailingOnes_pos_iff (n / 2 ^ trailingOnes n)
    have h0 : trailingOnes (n / 2 ^ trailingOnes n) = 0 := by omega
    rw [h0] at h1
    have : ¬ (n / 2 ^ trailingOnes n) % 2 = 1 := fun hc => by
      have := h1.mpr hc
      omega
    omega
  have hbit : ((n + 1) / 2 ^ trailingOnes n) % 2 = 1 := by rw [hquot]; omega
  have hlen := lt_two_pow_Len64 (mmrSize (n + 1)) hN
  have hle := le_mmrSize (n + 1)
  have htK : trailingOnes n < Len64 (mmrSize (n + 1)) := by
    by_contra hc
    have hp2 : 2 ^ Len64 (mmrSize (n + 1)) ≤ 2 ^ trailingOnes n :=
      Nat.pow_le_pow_right (by norm_num) (Nat.le_of_not_lt hc)
    have : 2 ^ trailingOnes n ≤ n + 1 := by
      have := Nat.le_mul_of_pos_left (2 ^ trailingOnes n)
        (Nat.succ_pos (n / 2 ^ trailingOnes n))
      omega
    omega
  rw [GetPeaks_reach h leaf (n + 1) els inv hN,
    peaksBelow_getLast h leaf (n + 1) (trailingOnes n) hmod hbit _ htK, hquot,
    List.getLast?_eq_getElem?, inv.1]
  have hidx : mmrSize (n + 1) - 1 = nodeIndex (trailingOnes n) (n / 2 ^ trailingOnes n) := by
    have := mmrSize_succ n
    have := mmrSize_add_eq_nodeIndex n (trailingOnes n) le_rfl
    omega
  rw [hidx, inv.get (trailingOnes n) (n / 2 ^ trailingOnes n) (by omega)]
  simp

theorem mem_peakHeights_iff (b : Nat) : ∀ (k j : Nat),
    j ∈ peakHeights b k ↔ j < k ∧ (b / 2 ^ j) % 2 = 1 := by
  intro k
  induction k with
  | zero => intro j; simp [peakHeights]
  | succ k ih =>
    intro j
    simp only [peakHeights, List.mem_append, ih]
    constructor
    · rintro (hj | ⟨hj, hb⟩)
      · split_ifs at hj with hbit
        · simp only [List.mem_singleton] at hj
          subst hj
          exact ⟨by omega, hbit⟩
        · simp at hj
      · exact ⟨by omega, hb⟩
    · rintro ⟨hj, hb⟩
      rcases Nat.lt_or_ge j k with hlt | hge
      · exact Or.inr ⟨hlt, hb⟩
      · have : j = k := by omega
        subst this
        left
        simp [hb]

theorem peakHeights_descending (b : Nat) : ∀ k,
    (peakHeights b k).Pairwise (fun i j => j < i) := by
  intro k
  induction k with
  | zero => simp [peakHeights]
  | succ k ih =>
    simp only [peakHeights]
    rw [List.pairwise_append]
    refine ⟨?_, ih, ?_⟩
    · split_ifs <;> simp
    · intro a ha c hc
      have hck := mem_peakHeights b k c hc
      split_ifs at ha
      · simp only [List.mem_singleton] at ha
        omega
      · simp at ha

/-! ## The circuit on a witness filled from byte slices -/

theorem define_fold_bytes {p : Nat} [Fact p.Prime] (toField : Bytes → ZMod p)
    (hc : FieldHasher p) (hn : Hasher)
    (hH : ∀ chunks, toField (hn chunks) = hc (chunks.map toField)) :
    ∀ (path : List ProofElement) (start : Bytes),
      ((path.map fun e => (⟨toField e.Hash, flagOf e.IsLeft⟩ : ProofElm p)).foldl
          (defineStep hc) (toField start, true)).2 = true ∧
        ((path.map fun e => (⟨toField e.Hash, flagOf e.IsLeft⟩ : ProofElm p)).foldl
          (defineStep hc) (toField start, true)).1
          = toField (path.foldl (verifyStep hn) start) := by
  intro path
  induction path with
  | nil => intro start; exact ⟨rfl, rfl⟩
  | cons e rest ih =>
    intro start
    have hstep : defineStep hc (toField start, true) ⟨toField e.Hash, flagOf e.IsLeft⟩
        = (toField (verifyStep hn start e), true) := by
      simp only [defineStep, apiSelect_flagOf, flagOf_boolean, decide_True, Bool.and_self,
        verifyStep]
      cases e.IsLeft <;> simp [hH]
    simp only [List.map_cons, List.foldl_cons, hstep]
    exact ih (verifyStep hn start e)

/-- The digest replayed by `Verify` is always an output of the hash. -/
theorem foldl_verifyStep_output (h : Hasher) : ∀ (path : List ProofElement) (chunks : List Bytes),
    ∃ chunks1, path.foldl (verifyStep h) (h chunks) = h chunks1 := by
  intro path
  induction path with
  | nil => intro chunks; exact ⟨chunks, rfl⟩
  | cons e rest ih =>
    intro chunks
    simp only [List.foldl_cons, verifyStep]
    split_ifs
    · exact ih _
    · exact ih _

/-! ## The proof of storage index 0 in a store of two or three leaves -/

theorem GetProof_zero_small (h : Hasher) (leaves : List Bytes)
    (hlen : leaves.length = 2 ∨ leaves.length = 3) :
    ∃ els, AddLeaves (New h) leaves = Outcome.done ⟨els, h⟩ ∧
      GetProof ⟨els, h⟩ 0 = Outcome.done
        ⟨[⟨h [leaves.getD 1 []], false⟩],
          peaksBelow h (fun k => leaves.getD k []) leaves.length
            (Len64 (mmrSize leaves.length)), h⟩ ∧
      GetPeaks ⟨els, h⟩ = peaksBelow h (fun k => leaves.getD k []) leaves.length
        (Len64 (mmrSize leaves.length)) := by
  have hsize : mmrSize leaves.length < 2 ^ 63 := by
    rcases hlen with h2 | h3
    · rw [h2]; decide
    · rw [h3]; decide
  obtain ⟨els, hrun, inv⟩ := AddLeaves_list h leaves (by omega)
  obtain ⟨d, _, hproof, _, h2, h3⟩ :=
    GetProof_reach h _ leaves.length els inv hsize 0 (by omega)
  have hd : d = 1 := by
    simp only [Nat.zero_div, Nat.zero_add, Nat.one_mul] at h2 h3
    have hle : d ≤ 1 := by
      by_contra hc
      have : 2 ^ 2 ≤ 2 ^ d := Nat.pow_le_pow_right (by norm_num) (by omega)
      omega
    have hge : 1 ≤ d := by
      by_contra hc
      have hd0 : d = 0 := by omega
      subst hd0
      simp at h3
      omega
    omega
  subst hd
  have hzero : mmrSize 0 = 0 := rfl
  rw [hzero] at hproof
  refine ⟨els, hrun, ?_, GetPeaks_reach h _ _ els inv (by omega)⟩
  rw [hproof]
  simp [specPath, siblingElem, subtreeRoot]

/-! ## Claims -/

/-- C1. Round trip: for every hash function, every sequence of leaves appended one at a
time with `AddLeaf` to an empty MMR (the store fitting a Go slice) and every leaf `k` of
it, `GetProof` at the storage index `2k - popcount k` returns a proof, and that proof
verifies leaf `k` against the bagged peaks. -/
theorem C1_round_trip (h : Hasher) (leaves : List Bytes) (k : Nat) (leaf : Bytes)
    (hleaf : leaves[k]? = some leaf)
    (hfit : 2 * leaves.length - popcount leaves.length < 2 ^ 63) :
    ∃ mmr proof, AddLeaves (New h) leaves = Outcome.done mmr ∧
      GetProof mmr (2 * k - popcount k) = Outcome.done proof ∧
      Verify proof leaf (BaggingThePeaks mmr h) h = true := by
  have hfit' : mmrSize leaves.length < 2 ^ 63 := hfit
  obtain ⟨hk, hget⟩ := List.getElem?_eq_some_iff.mp hleaf
  obtain ⟨els, hrun, inv⟩ := AddLeaves_list h leaves (by omega)
  obtain ⟨d, _, hproof, h1, h2, h3⟩ :=
    GetProof_reach h _ leaves.length els inv hfit' k hk
  refine ⟨⟨els, h⟩, _, hrun, hproof, ?_⟩
  rw [Verify_iff]
  have hmem := replay_mem_peaks h (fun k => leaves.getD k []) leaves.length k d (by omega)
    h1 h2 h3
  have hl : leaves.getD k [] = leaf := by
    simp [List.getD_eq_getElem?_getD, hleaf]
  simp only [hl] at hmem
  refine ⟨hmem, ?_⟩
  unfold BaggingThePeaks
  rw [GetPeaks_reach h _ leaves.length els inv (by omega)]

/-- C1 at a concrete input: the 17-leaf store, storage index 7, leaf number 4. -/
theorem C1_round_trip_witness :
    ((byteLeaves 17)[4]? = some [4] ∧
        2 * (byteLeaves 17).length - popcount (byteLeaves 17).length < 2 ^ 63 ∧
        2 * 4 - popcount 4 = 7) ∧
      ∃ mmr proof, AddLeaves (New concatHash) (byteLeaves 17) = Outcome.done mmr ∧
        GetProof mmr (2 * 4 - popcount 4) = Outcome.done proof ∧
        Verify proof [4] (BaggingThePeaks mmr concatHash) concatHash = true :=
  ⟨⟨by decide, by decide, by decide⟩,
    C1_round_trip concatHash (byteLeaves 17) 4 [4] (by decide) (by decide)⟩

/-- C2, as stated, fails.  Over `ZMod 7`, with the native hash `sumHashBytes7` and the
circuit hash `sumHash7` the same function under the encoding, both verifiers are given
the same byte slices.  (a) With the root byte 11 in the place of 4 (the same field
element), `Verify` rejects and the constraints of `Define` are all satisfied.  (b) With
the peak byte 8 in the place of 1, `Verify` rejects and the constraints of `Define` are
all satisfied. -/
theorem C2_circuit_native_equivalence_counterexample :
    (∀ chunks, decode7 (sumHashBytes7 chunks) = sumHash7 (chunks.map decode7)) ∧
      Verify ⟨[⟨[5], true⟩], [[1], [4]], sumHashBytes7⟩ [2] [4] sumHashBytes7 = true ∧
      (Verify ⟨[⟨[5], true⟩], [[1], [4]], sumHashBytes7⟩ [2] [11] sumHashBytes7 = false ∧
        Define sumHash7
            (fillWitness decode7 ⟨[⟨[5], true⟩], [[1], [4]], sumHashBytes7⟩ [2] [11])
          = Outcome.done true) ∧
      (Verify ⟨[⟨[5], true⟩], [[8], [4]], sumHashBytes7⟩ [2] [4] sumHashBytes7 = false ∧
        Define sumHash7
            (fillWitness decode7 ⟨[⟨[5], true⟩], [[8], [4]], sumHashBytes7⟩ [2] [4])
          = Outcome.done true) := by
  refine ⟨fun chunks => ?_, by decide, ⟨by decide, by decide⟩, ⟨by decide, by decide⟩⟩
  simp only [sumHashBytes7, decode7_encode7]

/-- C2, amended.  Take any odd prime field, the map `toField` by which gnark reads a byte
slice as a field element, a canonical encoding `enc` in which the native hash returns
its digests, and a circuit hash and a native hash that are the same function under
`toField`.  For every leaf, proof path, non-empty list of peaks and root such that the
root and every peak are canonical, `Define` returns on the witness filled from these
byte slices, and its constraints are all satisfied exactly when `Verify` accepts the
same leaf, proof and root. -/
theorem C2_circuit_native_equivalence (p : Nat) [Fact p.Prime] (hp : p ≠ 2)
    (toField : Bytes → ZMod p) (enc : ZMod p → Bytes) (hc : FieldHasher p) (hn : Hasher)
    (hH : ∀ chunks, toField (hn chunks) = hc (chunks.map toField))
    (hout : ∀ chunks, enc (toField (hn chunks)) = hn chunks)
    (proof : MMRProof) (leaf root : Bytes) (hpeaks : proof.Peaks ≠ [])
    (hcanonPeaks : ∀ peak ∈ proof.Peaks, enc (toField peak) = peak)
    (hcanonRoot : enc (toField root) = root) :
    Define hc (fillWitness toField proof leaf root)
      = Outcome.done (Verify proof leaf root hn) := by
  obtain ⟨hbool, hfold⟩ := define_fold_bytes toField hc hn hH proof.MerkleProof (hn [leaf])
  have hleaf : toField (hn [leaf]) = hc [toField leaf] := by simpa using hH [leaf]
  rw [hleaf] at hbool hfold
  obtain ⟨chunks1, hout1⟩ := foldl_verifyStep_output hn proof.MerkleProof [leaf]
  have hcanon : ∀ a b : Bytes, enc (toField a) = a → enc (toField b) = b →
      (toField a = toField b ↔ a = b) := by
    intro a b ha hb
    constructor
    · intro hab; rw [← ha, ← hb, hab]
    · intro hab; rw [hab]
  have hfoldc : enc (toField (proof.MerkleProof.foldl (verifyStep hn) (hn [leaf])))
      = proof.MerkleProof.foldl (verifyStep hn) (hn [leaf]) := by
    rw [hout1]; exact hout chunks1
  obtain ⟨peak0, rest, hpk⟩ : ∃ a l, proof.Peaks = a :: l :=
    List.exists_cons_of_ne_nil hpeaks
  have hmem : toField (proof.MerkleProof.foldl (verifyStep hn) (hn [leaf]))
        ∈ proof.Peaks.map toField
      ↔ proof.MerkleProof.foldl (verifyStep hn) (hn [leaf]) ∈ proof.Peaks := by
    rw [List.mem_map]
    constructor
    · rintro ⟨peak, hin, heq⟩
      have := (hcanon _ _ (hcanonPeaks peak hin) hfoldc).mp heq
      rwa [← this]
    · intro hin; exact ⟨_, hin, rfl⟩
  have hroot : hc (proof.Peaks.map toField) = toField root ↔ hn proof.Peaks = root := by
    rw [← hH proof.Peaks]
    exact hcanon _ _ (hout _) hcanonRoot
  simp only [Define, fillWitness, hbool, Bool.true_and, hpk, List.map_cons]
  congr 1
  rw [Bool.eq_iff_iff, Verify_iff]
  simp only [Bool.and_eq_true, decide_eq_true_eq]
  rw [hfold, eq_neg_self_iff hp, cmp_product_eq]
  have hprod := cmp_product_zero_iff
    (toField (proof.MerkleProof.foldl (verifyStep hn) (hn [leaf])))
    (toField peak0 :: rest.map toField)
  simp only [List.map_cons, List.prod_cons] at hprod
  rw [hprod]
  rw [hpk] at hmem hroot
  simp only [List.map_cons] at hmem hroot
  rw [hmem, hroot, hpk]

/-- C2 (amended) at a concrete input over `ZMod 7`: a one-step path, two peaks, the
matching canonical root; both verifiers accept. -/
theorem C2_circuit_native_equivalence_witness :
    ((7 : Nat) ≠ 2 ∧
        (∀ chunks, decode7 (sumHashBytes7 chunks) = sumHash7 (chunks.map decode7)) ∧
        (∀ chunks, encode7 (decode7 (sumHashBytes7 chunks)) = sumHashBytes7 chunks) ∧
        ([[1], [4]] : List Bytes) ≠ [] ∧
        (∀ peak ∈ ([[1], [4]] : List Bytes), encode7 (decode7 peak) = peak) ∧
        encode7 (decode7 [4]) = [4]) ∧
      Define sumHash7 (fillWitness decode7 ⟨[⟨[5], true⟩], [[1], [4]], sumHashBytes7⟩ [2] [4])
        = Outcome.done
            (Verify ⟨[⟨[5], true⟩], [[1], [4]], sumHashBytes7⟩ [2] [4] sumHashBytes7) ∧
      Verify ⟨[⟨[5], true⟩], [[1], [4]], sumHashBytes7⟩ [2] [4] sumHashBytes7 = true :=
  ⟨⟨by decide, fun chunks => by simp only [sumHashBytes7, decode7_encode7],
      fun chunks => by simp only [sumHashBytes7, decode7_encode7], by decide, by decide,
      by decide⟩,
    C2_circuit_native_equivalence 7 (by decide) decode7 encode7 sumHash7 sumHashBytes7
      (fun chunks => by simp only [sumHashBytes7, decode7_encode7])
      (fun chunks => by simp only [sumHashBytes7, decode7_encode7])
      ⟨[⟨[5], true⟩], [[1], [4]], sumHashBytes7⟩ [2] [4] (by decide) (by decide) (by decide),
    by decide⟩

/-- C3. `Verify` returns true exactly when (a) the digest obtained by hashing the leaf
and folding the path left to right is equal to an entry of `proof.Peaks` and (b) the
hash of all `proof.Peaks` in list order is equal to `root`; a proof with an empty peak
list is rejected. -/
theorem C3_verify_is_conjunction (path : List ProofElement) (peaks : List Bytes)
    (ph h : Hasher) (leaf root : Bytes) :
    (Verify ⟨path, peaks, ph⟩ leaf root h = true ↔
      ((∃ peak ∈ peaks, path.foldl
          (fun running elem =>
            if elem.IsLeft then h [elem.Hash, running] else h [running, elem.Hash])
          (h [leaf]) = peak) ∧
        h peaks = root)) ∧
      Verify ⟨path, [], ph⟩ leaf root h = false := by
  constructor
  · rw [Verify_iff]
    have : (fun running elem =>
        if elem.IsLeft then h [elem.Hash, running] else h [running, elem.Hash])
          = verifyStep h := by
      funext running elem; simp [verifyStep]
    rw [this]
    simp
  · simp [Verify, foundAmong]

/-- C4. After appending `n` leaves one at a time to an empty MMR the store holds
`2n - popcount n` elements, whatever the leaves and the hash (for stores whose length
fits 64 bits). -/
theorem C4_stored_element_count (h : Hasher) (leaves : List Bytes)
    (hfit : 2 * leaves.length - popcount leaves.length < 2 ^ 64) :
    ∃ mmr, AddLeaves (New h) leaves = Outcome.done mmr ∧
      mmr.elements.length = 2 * leaves.length - popcount leaves.length := by
  have hfit' : mmrSize leaves.length < 2 ^ 64 := hfit
  obtain ⟨els, hrun, inv⟩ := AddLeaves_list h leaves (by omega)
  exact ⟨⟨els, h⟩, hrun, inv.1⟩

/-- C4 at a concrete input: seven leaves give eleven stored elements. -/
theorem C4_stored_element_count_witness :
    (2 * (byteLeaves 7).length - popcount (byteLeaves 7).length < 2 ^ 64 ∧
        2 * (byteLeaves 7).length - popcount (byteLeaves 7).length = 11) ∧
      ∃ mmr, AddLeaves (New concatHash) (byteLeaves 7) = Outcome.done mmr ∧
        mmr.elements.length = 2 * (byteLeaves 7).length - popcount (byteLeaves 7).length :=
  ⟨⟨by decide, by decide⟩, C4_stored_element_count concatHash (byteLeaves 7) (by decide)⟩

/-- C5. For every leaf count `n` with `2n - popcount n` representable in 64 bits,
`HeightBitmapForMMRSize (2n - popcount n)` returns `(n, 0)`: the peak bitmap is `n`
itself and the residual is zero. -/
theorem C5_bitmap_of_valid_size (n : Nat) (hfit : 2 * n - popcount n < 2 ^ 64) :
    HeightBitmapForMMRSize (2 * n - popcount n) = (n, 0) := by
  have := HeightBitmapForMMRSize_decomp n 0 (Nat.zero_le _) (by simpa [mmrSize] using hfit)
  simpa [mmrSize] using this

/-- C5 at a concrete input: size 25 is the store of 14 leaves. -/
theorem C5_bitmap_of_valid_size_witness :
    (2 * 14 - popcount 14 < 2 ^ 64 ∧ 2 * 14 - popcount 14 = 25) ∧
      HeightBitmapForMMRSize (2 * 14 - popcount 14) = (14, 0) :=
  ⟨⟨by decide, by decide⟩, C5_bitmap_of_valid_size 14 (by decide)⟩

/-- C6. For every 64-bit `size`, the second result of `HeightBitmapForMMRSize size` is
the height of the node stored at 0-based index `size`: the entry at that index of the
post-order height list of any perfect tree large enough to contain it (0 for a leaf,
`g` for the parent of two subtrees of height `g - 1`). -/
theorem C6_residual_is_height (g size : Nat) (hsize : size < 2 ^ 64)
    (hg : size < (treeHeights g).length) :
    (treeHeights g)[size]? = some (HeightBitmapForMMRSize size).2 := by
  induction g generalizing size with
  | zero =>
    have : size = 0 := by simpa [treeHeights] using hg
    subst this
    rfl
  | succ g ih =>
    have hlen := treeHeights_length g
    have hlen' := treeHeights_length (g + 1)
    have hp : 2 ^ (g + 1 + 1) = 2 * 2 ^ (g + 1) := by ring
    simp only [treeHeights]
    rcases Nat.lt_or_ge size (treeHeights g).length with h1 | h1
    · rw [List.append_assoc, List.getElem?_append_left h1]
      exact ih size hsize h1
    · rw [List.append_assoc, List.getElem?_append_right h1]
      rcases Nat.lt_or_ge (size - (treeHeights g).length) (treeHeights g).length with h2 | h2
      · rw [List.getElem?_append_left h2, ih _ (by omega) h2]
        have e : size = 2 ^ (g + 1) - 1 + (size - (treeHeights g).length) := by omega
        conv_rhs => rw [e]
        rw [HeightBitmapForMMRSize_right_subtree g _ (by omega) (by omega)]
      · have e : size = 2 ^ (g + 1 + 1) - 2 := by omega
        rw [List.getElem?_append_right h2]
        have e0 : size - (treeHeights g).length - (treeHeights g).length = 0 := by omega
        rw [e0, e, HeightBitmapForMMRSize_tree_root (g + 1) (by omega)]
        rfl

/-- C6 at a concrete input: index 13 of the store is a node of height 2. -/
theorem C6_residual_is_height_witness :
    (13 < 2 ^ 64 ∧ 13 < (treeHeights 3).length ∧ (treeHeights 3)[13]? = some 2) ∧
      (treeHeights 3)[13]? = some (HeightBitmapForMMRSize 13).2 :=
  ⟨⟨by decide, by decide, by decide⟩, C6_residual_is_height 3 13 (by decide) (by decide)⟩

/-- C7. Append-only store: on every MMR state and every leaf `AddLeaf` returns, the old
element sequence is a prefix of the new one, the new one is strictly longer, and every
old storage index still holds the element it held. -/
theorem C7_append_only (mmr : MMR) (leaf : Bytes) :
    ∃ mmr1, AddLeaf mmr leaf = Outcome.done mmr1 ∧
      mmr.elements <+: mmr1.elements ∧
      mmr.elements.length < mmr1.elements.length ∧
      ∀ i, i < mmr.elements.length → mmr1.elements[i]? = mmr.elements[i]? := by
  obtain ⟨ext, hrun, hext⟩ := AddLeaf_total mmr leaf
  refine ⟨_, hrun, List.prefix_append _ _, ?_, ?_⟩
  · simp only [List.length_append]; omega
  · intro i hi
    exact List.getElem?_append_left hi

/-- C8. A given leaf and proof are accepted for at most one root: if `Verify` returns
true for `r` it returns false for every other root. -/
theorem C8_root_tamper (proof : MMRProof) (leaf r r1 : Bytes) (h : Hasher)
    (hok : Verify proof leaf r h = true) (hne : r1 ≠ r) :
    Verify proof leaf r1 h = false := by
  rw [Verify_iff] at hok
  rw [Bool.eq_false_iff]
  intro hc
  rw [Verify_iff] at hc
  exact hne (hc.2.symm.trans hok.2)

/-- C8 at a concrete input: the proof of the only leaf of a one-leaf store, with the
last byte of the root changed. -/
theorem C8_root_tamper_witness :
    (Verify ⟨[], [[7]], concatHash⟩ [7] [7] concatHash = true ∧ ([6] : Bytes) ≠ [7]) ∧
      Verify ⟨[], [[7]], concatHash⟩ [7] [6] concatHash = false :=
  ⟨⟨by decide, by decide⟩,
    C8_root_tamper ⟨[], [[7]], concatHash⟩ [7] [7] [6] concatHash (by decide) (by decide)⟩

/-- C9 fails on the code.  (a) For every hash and every leaf `x`, after appending `x`
twice the proof of storage index 0 with its only flag flipped is accepted by `Verify`
for the leaf and the bagged root: the sibling and the running digest are equal, so both
orders hash alike.  (b) For every streaming hash and all leaves `x0`, `x1`, after
appending `x0`, `x1` and the leaf `H x1 ++ H x0`, the proof of storage index 0 with its
only flag flipped is accepted as well: the digest replayed in the wrong order is the
peak of the third leaf. -/
theorem C9_flag_flip_accepted (h : Hasher) (H : Bytes → Bytes) (x x0 x1 : Bytes) :
    (∃ mmr proof, AddLeaves (New h) [x, x] = Outcome.done mmr ∧
        GetProof mmr 0 = Outcome.done proof ∧
        proof.MerkleProof = [⟨h [x], false⟩] ∧
        Verify ⟨flipFlag proof.MerkleProof 0, proof.Peaks, proof.Hash⟩ x
          (BaggingThePeaks mmr h) h = true) ∧
      (∃ mmr proof,
        AddLeaves (New (streamHash H)) [x0, x1, H x1 ++ H x0] = Outcome.done mmr ∧
        GetProof mmr 0 = Outcome.done proof ∧
        proof.MerkleProof = [⟨H x1, false⟩] ∧
        Verify ⟨flipFlag proof.MerkleProof 0, proof.Peaks, proof.Hash⟩ x0
          (BaggingThePeaks mmr (streamHash H)) (streamHash H) = true) := by
  constructor
  · obtain ⟨els, hrun, hproof, hpeaks⟩ := GetProof_zero_small h [x, x] (Or.inl rfl)
    refine ⟨_, _, hrun, hproof, rfl, ?_⟩
    rw [Verify_iff]
    refine ⟨?_, by unfold BaggingThePeaks; rw [hpeaks]⟩
    have hmem := peak_mem_peaksBelow h (fun k => [x, x].getD k []) 2 1 0 rfl (by decide)
      (by decide) (Len64 (mmrSize 2)) (by decide)
    simpa [flipFlag, verifyStep, subtreeRoot] using hmem
  · obtain ⟨els, hrun, hproof, hpeaks⟩ :=
      GetProof_zero_small (streamHash H) [x0, x1, H x1 ++ H x0] (Or.inr rfl)
    have hx1 : streamHash H [[x0, x1, H x1 ++ H x0].getD 1 []] = H x1 := by
      simp [streamHash]
    rw [hx1] at hproof
    refine ⟨_, _, hrun, hproof, rfl, ?_⟩
    rw [Verify_iff]
    refine ⟨?_, by unfold BaggingThePeaks; rw [hpeaks]⟩
    have hmem := peak_mem_peaksBelow (streamHash H)
      (fun k => [x0, x1, H x1 ++ H x0].getD k []) 3 0 2 rfl (by decide) (by decide)
      (Len64 (mmrSize 3)) (by decide)
    simpa [flipFlag, verifyStep, subtreeRoot, streamHash] using hmem

/-- C10 fails on the code.  For every streaming hash `H` and all byte strings `x0`, `x1`
and `y`, after appending the leaves `x0`, `x1` and `H y ++ H x1` the proof of storage
index 0 is accepted by `Verify` against the bagged root both for the leaf `x0` and for
`y`: leaves and inner nodes are hashed alike, and the digest replayed from `y` is the
peak of the third leaf.  The hash may be injective on its byte stream, as `streamHash id`
is, and `y` may differ from `x0` in a single byte, as `[5]` from `[0]`. -/
theorem C10_tampered_leaf_accepted (H : Bytes → Bytes) (x0 x1 y : Bytes) :
    (∃ mmr proof,
        AddLeaves (New (streamHash H)) [x0, x1, H y ++ H x1] = Outcome.done mmr ∧
        GetProof mmr 0 = Outcome.done proof ∧
        Verify proof x0 (BaggingThePeaks mmr (streamHash H)) (streamHash H) = true ∧
        Verify proof y (BaggingThePeaks mmr (streamHash H)) (streamHash H) = true) ∧
      Function.Injective (fun stream : Bytes => streamHash id [stream]) ∧
      ([5] : Bytes) = ([0] : Bytes).set 0 5 ∧ ([5] : Bytes) ≠ [0] := by
  refine ⟨?_, fun a b hab => by simpa [streamHash] using hab, rfl, by decide⟩
  obtain ⟨els, hrun, hproof, hpeaks⟩ :=
    GetProof_zero_small (streamHash H) [x0, x1, H y ++ H x1] (Or.inr rfl)
  refine ⟨_, _, hrun, hproof, ?_, ?_⟩
  · rw [Verify_iff]
    refine ⟨?_, by unfold BaggingThePeaks; rw [hpeaks]⟩
    have hmem := peak_mem_peaksBelow (streamHash H)
      (fun k => [x0, x1, H y ++ H x1].getD k []) 3 1 0 rfl (by decide) (by decide)
      (Len64 (mmrSize 3)) (by decide)
    simpa [verifyStep, subtreeRoot, streamHash] using hmem
  · rw [Verify_iff]
    refine ⟨?_, by unfold BaggingThePeaks; rw [hpeaks]⟩
    have hmem := peak_mem_peaksBelow (streamHash H)
      (fun k => [x0, x1, H y ++ H x1].getD k []) 3 0 2 rfl (by decide) (by decide)
      (Len64 (mmrSize 3)) (by decide)
    simpa [verifyStep, subtreeRoot, streamHash] using hmem

/-- C11, as stated, fails.  With 17 leaves the proof for storage index 7 is the proof of
leaf number 4: under a hash that is injective on sequences of writes it verifies the
bytes of leaf 4 and rejects the bytes of leaf 7. -/
theorem C11_scenario_17_leaves_counterexample :
    ∃ mmr proof, AddLeaves (New tagHash) (byteLeaves 17) = Outcome.done mmr ∧
      GetProof mmr 7 = Outcome.done proof ∧
      (byteLeaves 17)[4]? = some [4] ∧ (byteLeaves 17)[7]? = some [7] ∧
      Verify proof [4] (BaggingThePeaks mmr tagHash) tagHash = true ∧
      Verify proof [7] (BaggingThePeaks mmr tagHash) tagHash = false := by
  obtain ⟨els, hrun, inv⟩ := AddLeaves_list tagHash (byteLeaves 17) (by decide)
  obtain ⟨d, _, hproof, h1, h2, h3⟩ :=
    GetProof_reach tagHash _ (byteLeaves 17).length els inv (by decide) 4 (by decide)
  have h7 : mmrSize 4 = 7 := by decide
  rw [h7] at hproof
  refine ⟨_, _, hrun, hproof, by decide, by decide, ?_, ?_⟩
  · unfold BaggingThePeaks
    rw [GetPeaks_reach tagHash _ _ els inv (by decide)]
    exact Verify_accepts_reach tagHash tagHash _ _ 4 d (by decide) h1 h2 h3
  · exact Verify_rejects_reach tagHash tagHash tagHash_injective _ _ 4 d _ h2 h3 [7] _
      (by decide)

/-- C11, amended.  After inserting 17 leaves into an empty accumulator, the proof
requested for storage index 7 verifies, against the bagged root, the raw bytes of leaf
number 4 (for every hash); it rejects the raw bytes of leaf number 7 whenever they differ
from those of leaf 4 and the hash is injective on sequences of writes. -/
theorem C11_scenario_17_leaves (h : Hasher) (leaves : List Bytes) (leaf4 leaf7 : Bytes)
    (hlen : leaves.length = 17) (h4 : leaves[4]? = some leaf4)
    (h7 : leaves[7]? = some leaf7) :
    ∃ mmr proof, AddLeaves (New h) leaves = Outcome.done mmr ∧
      GetProof mmr 7 = Outcome.done proof ∧
      Verify proof leaf4 (BaggingThePeaks mmr h) h = true ∧
      (Function.Injective h → leaf7 ≠ leaf4 →
        Verify proof leaf7 (BaggingThePeaks mmr h) h = false) := by
  have hsize : mmrSize leaves.length = 32 := by rw [hlen]; decide
  have _ := h7
  obtain ⟨els, hrun, inv⟩ := AddLeaves_list h leaves (by omega)
  obtain ⟨d, _, hproof, h1, h2, h3⟩ :=
    GetProof_reach h _ leaves.length els inv (by omega) 4 (by omega)
  have hidx : mmrSize 4 = 7 := by decide
  rw [hidx] at hproof
  have hl := getD_of_getElem? leaves 4 leaf4 h4
  refine ⟨_, _, hrun, hproof, ?_, ?_⟩
  · unfold BaggingThePeaks
    rw [GetPeaks_reach h _ _ els inv (by omega)]
    have := Verify_accepts_reach h h (fun k => leaves.getD k []) leaves.length 4 d (by omega)
      h1 h2 h3
    simpa only [hl] using this
  · intro hinj hne
    exact Verify_rejects_reach h h hinj _ _ 4 d _ h2 h3 leaf7 _ (by simpa only [hl] using hne)

/-- C11 (amended) at a concrete input: the leaves `[0]`, …, `[16]` under `tagHash`. -/
theorem C11_scenario_17_leaves_witness :
    ((byteLeaves 17).length = 17 ∧ (byteLeaves 17)[4]? = some [4] ∧
        (byteLeaves 17)[7]? = some [7]) ∧
      ∃ mmr proof, AddLeaves (New tagHash) (byteLeaves 17) = Outcome.done mmr ∧
        GetProof mmr 7 = Outcome.done proof ∧
        Verify proof [4] (BaggingThePeaks mmr tagHash) tagHash = true ∧
        (Function.Injective tagHash → ([7] : Bytes) ≠ [4] →
          Verify proof [7] (BaggingThePeaks mmr tagHash) tagHash = false) :=
  ⟨⟨by decide, by decide, by decide⟩,
    C11_scenario_17_leaves tagHash (byteLeaves 17) [4] [7] (by decide) (by decide)
      (by decide)⟩

/-- C12. Single-leaf accumulator: for every leaf `x` and hash `h`, one `AddLeaf x` on an
empty MMR returns the store `[h [x]]`; on it `GetPeaks` returns `[h [x]]`, the proof path
for index 0 is empty, and `BaggingThePeaks` returns `h [h [x]]`. -/
theorem C12_single_leaf (h : Hasher) (x : Bytes) :
    ∃ mmr, AddLeaf (New h) x = Outcome.done mmr ∧ mmr.elements = [h [x]] ∧
      GetPeaks mmr = [h [x]] ∧
      GetSubtreeProofElm mmr 0 = Outcome.done [] ∧
      BaggingThePeaks mmr h = h [h [x]] := by
  have hpeaks : GetPeaks ⟨[h [x]], h⟩ = [h [x]] := by
    simp [GetPeaks, toU64, LeadingZeros64, Len64, bitLength, MaxUint64, GetPeaksLoop, add64,
      sub64]
  refine ⟨⟨[h [x]], h⟩, rfl, rfl, hpeaks, rfl, ?_⟩
  unfold BaggingThePeaks
  rw [hpeaks]

/-- C13 fails on the code.  With the hash `secondWriteFails` the store `[[1]]` is built by
`AddLeaf [1]` on the empty store; in `AddLeaf [2]` on it the leaf write succeeds, the
second write of the peak merge reports an error, and `AddLeaf` still returns, having
appended the digest `[1]` taken from the hash after the failed write (without the error
the merged element is `[1, 2]`). -/
theorem C13_merge_write_error_ignored :
    AddLeafWithErrors secondWriteFails [] [1] = Outcome.done [[1]] ∧
      (secondWriteFails.write secondWriteFails.reset [2]).2 = false ∧
      (secondWriteFails.write (secondWriteFails.write secondWriteFails.reset [1]).1 [2]).2
        = true ∧
      AddLeafWithErrors secondWriteFails [[1]] [2] = Outcome.done [[1], [2], [1]] ∧
      AddLeafWithErrors (infallible concatHash) [[1]] [2] = Outcome.done [[1], [2], [1, 2]] := by
  refine ⟨by decide, by decide, by decide, by decide, by decide⟩

/-- C14. Leaf placement: for every sequence of leaves appended to an empty MMR (the
store length fitting 64 bits) and every leaf number `k`, the element stored at index
`2k - popcount k` is the hash of the raw bytes of leaf `k`, and the oracle reports
height 0 for that index. -/
theorem C14_leaf_placement (h : Hasher) (leaves : List Bytes) (k : Nat) (leaf : Bytes)
    (hleaf : leaves[k]? = some leaf)
    (hfit : 2 * leaves.length - popcount leaves.length < 2 ^ 64) :
    ∃ mmr, AddLeaves (New h) leaves = Outcome.done mmr ∧
      mmr.elements[2 * k - popcount k]? = some (h [leaf]) ∧
      (HeightBitmapForMMRSize (2 * k - popcount k)).2 = 0 := by
  have hfit' : mmrSize leaves.length < 2 ^ 64 := hfit
  obtain ⟨hk, _⟩ := List.getElem?_eq_some_iff.mp hleaf
  obtain ⟨els, hrun, inv⟩ := AddLeaves_list h leaves (by omega)
  have hl := getD_of_getElem? leaves k leaf hleaf
  have hlt : mmrSize k < mmrSize leaves.length := mmrSize_lt_iff.mpr hk
  refine ⟨_, hrun, ?_, ?_⟩
  · have := inv.leaf_at k hk
    simpa only [hl] using this
  · have := HeightBitmapForMMRSize_decomp k 0 (Nat.zero_le _) (by simpa using by omega)
    simp only [Nat.add_zero] at this
    show (HeightBitmapForMMRSize (mmrSize k)).2 = 0
    rw [this]

/-- C14 at a concrete input: leaf 4 of 9 leaves sits at index 7. -/
theorem C14_leaf_placement_witness :
    ((byteLeaves 9)[4]? = some [4] ∧
        2 * (byteLeaves 9).length - popcount (byteLeaves 9).length < 2 ^ 64 ∧
        2 * 4 - popcount 4 = 7) ∧
      ∃ mmr, AddLeaves (New concatHash) (byteLeaves 9) = Outcome.done mmr ∧
        mmr.elements[2 * 4 - popcount 4]? = some (concatHash [[4]]) ∧
        (HeightBitmapForMMRSize (2 * 4 - popcount 4)).2 = 0 :=
  ⟨⟨by decide, by decide, by decide⟩,
    C14_leaf_placement concatHash (byteLeaves 9) 4 [4] (by decide) (by decide)⟩

/-- C15. Merge structure invariant: in the store built from any sequence of leaves by
`AddLeaf` on an empty MMR (the store length fitting 64 bits), every element at an index
`p` whose height `g` (second result of the oracle at `p`) is positive is the hash of the
element at `p - 2 ^ g` followed by the element at `p - 1`, and every element of height 0
is the hash of one of the appended leaves. -/
theorem C15_merge_structure (h : Hasher) (leaves : List Bytes)
    (hfit : 2 * leaves.length - popcount leaves.length < 2 ^ 64) :
    ∃ mmr : MMR, AddLeaves (New h) leaves = Outcome.done mmr ∧
      ∀ p, p < mmr.elements.length →
        (0 < (HeightBitmapForMMRSize p).2 →
          2 ^ (HeightBitmapForMMRSize p).2 ≤ p ∧
          ∃ a b : Bytes, mmr.elements[p - 2 ^ (HeightBitmapForMMRSize p).2]? = some a ∧
            mmr.elements[p - 1]? = some b ∧ mmr.elements[p]? = some (h [a, b])) ∧
        ((HeightBitmapForMMRSize p).2 = 0 →
          ∃ (k : Nat) (leaf : Bytes), leaves[k]? = some leaf ∧ mmr.elements[p]? = some (h [leaf])) := by
  have hfit' : mmrSize leaves.length < 2 ^ 64 := hfit
  obtain ⟨els, hrun, inv⟩ := AddLeaves_list h leaves (by omega)
  refine ⟨_, hrun, ?_⟩
  intro p hp
  obtain ⟨hn, hzero, hpos⟩ := inv.merge_structure (by omega) p hp
  refine ⟨hpos, ?_⟩
  intro hg
  refine ⟨(HeightBitmapForMMRSize p).1, leaves.getD (HeightBitmapForMMRSize p).1 [], ?_,
    hzero hg⟩
  rw [List.getD_eq_getElem?_getD, List.getElem?_eq_getElem hn]
  rfl

/-- C15 at a concrete input: in the store of three leaves the element at index 2 has
height 1 and is the hash of the elements at indices 0 and 1. -/
theorem C15_merge_structure_witness :
    (2 * (byteLeaves 3).length - popcount (byteLeaves 3).length < 2 ^ 64) ∧
      ∃ mmr : MMR, AddLeaves (New concatHash) (byteLeaves 3) = Outcome.done mmr ∧
        ∀ p, p < mmr.elements.length →
          (0 < (HeightBitmapForMMRSize p).2 →
            2 ^ (HeightBitmapForMMRSize p).2 ≤ p ∧
            ∃ a b : Bytes, mmr.elements[p - 2 ^ (HeightBitmapForMMRSize p).2]? = some a ∧
              mmr.elements[p - 1]? = some b ∧
              mmr.elements[p]? = some (concatHash [a, b])) ∧
          ((HeightBitmapForMMRSize p).2 = 0 →
            ∃ (k : Nat) (leaf : Bytes), (byteLeaves 3)[k]? = some leaf ∧
              mmr.elements[p]? = some (concatHash [leaf])) :=
  ⟨by decide, C15_merge_structure concatHash (byteLeaves 3) (by decide)⟩

/-- C16. `GetPeaks` mirrors the oracle: for every store, with `b` the bitmap that
`HeightBitmapForMMRSize` returns for the store length, `GetPeaks` returns `popcount b`
digests, one per set bit of `b` from the most significant to the least significant
(`peakHeights b 64` lists exactly the set bits, in descending order); the digest for the
bit at height `j` is the element at index `s - 1`, where `s` is the sum of the subtree
sizes `2 ^ (i + 1) - 1` of the set bits `i ≥ j`.  For a store built from one or more
leaves (its length fitting 64 bits) the last peak returned is the last stored element. -/
theorem C16_peaks_mirror_oracle (mmr : MMR) (h : Hasher) (leaves : List Bytes) :
    (GetPeaks mmr).map some
        = (peakHeights (HeightBitmapForMMRSize (toU64 mmr.elements.length)).1 64).map
            (fun j => mmr.elements[
              subtreeSizeSum (HeightBitmapForMMRSize (toU64 mmr.elements.length)).1 64 j - 1]?) ∧
      (GetPeaks mmr).length = popcount (HeightBitmapForMMRSize (toU64 mmr.elements.length)).1 ∧
      (∀ j, j ∈ peakHeights (HeightBitmapForMMRSize (toU64 mmr.elements.length)).1 64 ↔
        j < 64 ∧ ((HeightBitmapForMMRSize (toU64 mmr.elements.length)).1 / 2 ^ j) % 2 = 1) ∧
      (peakHeights (HeightBitmapForMMRSize (toU64 mmr.elements.length)).1 64).Pairwise
        (fun i j => j < i) ∧
      (leaves ≠ [] → 2 * leaves.length - popcount leaves.length < 2 ^ 64 →
        ∃ mmr1, AddLeaves (New h) leaves = Outcome.done mmr1 ∧
          (GetPeaks mmr1).getLast? = mmr1.elements.getLast?) := by
  have hmir := GetPeaks_mirror mmr
  have hL : toU64 mmr.elements.length < 2 ^ 64 := Nat.mod_lt _ (by positivity)
  obtain ⟨_, _, hb⟩ := HeightBitmapForMMRSize_spec _ hL
  refine ⟨hmir, ?_, mem_peakHeights_iff _ 64, peakHeights_descending _ 64, ?_⟩
  · have hlen := congrArg List.length hmir
    simp only [List.length_map] at hlen
    rw [hlen, peakHeights_length, Nat.mod_eq_of_lt hb]
  · intro hne hfit
    have hfit' : mmrSize leaves.length < 2 ^ 64 := hfit
    obtain ⟨els, hrun, inv⟩ := AddLeaves_list h leaves (by omega)
    have hpos : 1 ≤ leaves.length := by
      cases leaves with
      | nil => exact absurd rfl hne
      | cons x xs => simp
    exact ⟨_, hrun, GetPeaks_getLast h _ _ els inv hfit' hpos⟩

/-- C16 at a concrete input: the store of three leaves, whose last peak is the last
stored element. -/
theorem C16_peaks_mirror_oracle_witness :
    (byteLeaves 3 ≠ [] ∧ 2 * (byteLeaves 3).length - popcount (byteLeaves 3).length < 2 ^ 64) ∧
      ∃ mmr1, AddLeaves (New concatHash) (byteLeaves 3) = Outcome.done mmr1 ∧
        (GetPeaks mmr1).getLast? = mmr1.elements.getLast? :=
  ⟨⟨by decide, by decide⟩,
    (C16_peaks_mirror_oracle (New concatHash) concatHash (byteLeaves 3)).2.2.2.2
      (by decide) (by decide)⟩

/-- C17. Circuit membership gadget: over a prime field of characteristic other than 2,
for every digest `d` and every non-empty list of peaks `peak0 :: rest`, each comparison
value `apiCmp peak d` is `-1`, `0` or `1` and is zero exactly when the peak equals `d`,
and the product `mul` that `Define` accumulates over the comparison values satisfies the
asserted equation `mul = -mul` if and only if at least one peak equals `d`. -/
theorem C17_membership_gadget (p : Nat) [Fact p.Prime] (hp : p ≠ 2) (d peak0 : ZMod p)
    (rest : List (ZMod p)) :
    (∀ peak : ZMod p, (apiCmp peak d = -1 ∨ apiCmp peak d = 0 ∨ apiCmp peak d = 1) ∧
        (apiCmp peak d = 0 ↔ peak = d)) ∧
      (rest.foldl (fun mul peak => mul * apiCmp peak d) (apiCmp peak0 d)
          = -(rest.foldl (fun mul peak => mul * apiCmp peak d) (apiCmp peak0 d))
        ↔ ∃ peak, peak ∈ peak0 :: rest ∧ peak = d) := by
  refine ⟨?_, ?_⟩
  · intro peak
    refine ⟨?_, apiCmp_eq_zero_iff peak d⟩
    unfold apiCmp
    by_cases h1 : peak.val < d.val
    · simp [h1]
    · by_cases h2 : peak.val = d.val
      · simp [h2]
      · simp [h1, h2]
  · rw [eq_neg_self_iff hp, cmp_product_eq]
    have hprod : apiCmp peak0 d * (rest.map fun peak => apiCmp peak d).prod
        = ((peak0 :: rest).map fun peak => apiCmp peak d).prod := by
      simp
    rw [hprod, cmp_product_zero_iff]
    constructor
    · intro hm; exact ⟨d, hm, rfl⟩
    · rintro ⟨peak, hm, rfl⟩; exact hm

/-- C17 at a concrete input: in `ZMod 7` the digest 3 is found among the peaks 2, 3. -/
theorem C17_membership_gadget_witness :
    (7 ≠ 2) ∧
      ((∀ peak : ZMod 7, (apiCmp peak 3 = -1 ∨ apiCmp peak 3 = 0 ∨ apiCmp peak 3 = 1) ∧
          (apiCmp peak 3 = 0 ↔ peak = 3)) ∧
        (([3] : List (ZMod 7)).foldl (fun mul peak => mul * apiCmp peak 3) (apiCmp 2 3)
            = -(([3] : List (ZMod 7)).foldl (fun mul peak => mul * apiCmp peak 3) (apiCmp 2 3))
          ↔ ∃ peak, peak ∈ (2 : ZMod 7) :: [3] ∧ peak = 3)) :=
  ⟨by decide, C17_membership_gadget 7 (by decide) 3 2 [3]⟩

/-- C18. Right-sibling range test: on the store built from any sequence of leaves by
`AddLeaf` on an empty MMR (its length below `2 ^ 63`) and for every leaf number `k`,
`GetSubtreeProofElm` with the test of the code, `nextElmIndex < len elements - 1`, and
with the test of the specification, `nextElmIndex < len elements`, return the same path
for the storage index `2k - popcount k`; and at every stored left node `(r, k / 2 ^ r)`
above the leaf, where the right-sibling branch is taken, `addRightElm` and
`addRightElmSpec` return the same result. -/
theorem C18_right_sibling_range_test (h : Hasher) (leaves : List Bytes) (k : Nat)
    (hk : k < leaves.length)
    (hfit : 2 * leaves.length - popcount leaves.length < 2 ^ 63) :
    ∃ mmr path, AddLeaves (New h) leaves = Outcome.done mmr ∧
      GetSubtreeProofElm mmr (2 * k - popcount k) = Outcome.done path ∧
      GetSubtreeProofElmSpec mmr (2 * k - popcount k) = Outcome.done path ∧
      ∀ (r : Nat) (proofElms : List ProofElement), (k / 2 ^ r) % 2 = 0 →
        (k / 2 ^ r + 1) * 2 ^ r ≤ leaves.length →
        addRightElm (nodeIndex r (k / 2 ^ r)) r mmr proofElms
          = addRightElmSpec (nodeIndex r (k / 2 ^ r)) r mmr proofElms := by
  have hfit' : mmrSize leaves.length < 2 ^ 63 := hfit
  obtain ⟨els, hrun, inv⟩ := AddLeaves_list h leaves (by omega)
  obtain ⟨d, _, hpath, _, _, _⟩ := GetSubtreeProofElm_reach h _ _ els inv hfit' k hk 65
    (by have := Len64_le (mmrSize leaves.length); omega)
  have heq := GetSubtreeProofElmSpecLoop_eq h _ _ els inv hfit' 65 0 k [] (by simpa using hk)
  rw [nodeIndex_zero] at heq
  refine ⟨_, _, hrun, hpath, ?_, ?_⟩
  · show GetSubtreeProofElmSpecLoop ⟨els, h⟩ 65 [] (mmrSize k) 0 = _
    rw [heq]; exact hpath
  · intro r proofElms heven hle
    obtain ⟨b, hb⟩ : ∃ b, k / 2 ^ r = 2 * b := ⟨k / 2 ^ r / 2, by omega⟩
    rw [hb] at hle ⊢
    rw [addRightElm_even h _ _ els inv hfit' r b hle,
      addRightElmSpec_even h _ _ els inv hfit' r b hle]

/-- C18 at a concrete input: leaf 4 of 17 leaves. -/
theorem C18_right_sibling_range_test_witness :
    (4 < (byteLeaves 17).length ∧
        2 * (byteLeaves 17).length - popcount (byteLeaves 17).length < 2 ^ 63) ∧
      ∃ mmr path, AddLeaves (New concatHash) (byteLeaves 17) = Outcome.done mmr ∧
        GetSubtreeProofElm mmr (2 * 4 - popcount 4) = Outcome.done path ∧
        GetSubtreeProofElmSpec mmr (2 * 4 - popcount 4) = Outcome.done path ∧
        ∀ (r : Nat) (proofElms : List ProofElement), (4 / 2 ^ r) % 2 = 0 →
          (4 / 2 ^ r + 1) * 2 ^ r ≤ (byteLeaves 17).length →
          addRightElm (nodeIndex r (4 / 2 ^ r)) r mmr proofElms
            = addRightElmSpec (nodeIndex r (4 / 2 ^ r)) r mmr proofElms :=
  ⟨⟨by decide, by decide⟩,
    C18_right_sibling_range_test concatHash (byteLeaves 17) 4 (by decide) (by decide)⟩

/-- C19. Totality of the store operations: (a) `AddLeaf` returns on every state and leaf,
so no read of its merge loop is out of range; (b) on the store built from any sequence of
leaves by `AddLeaf` on an empty MMR (its length below `2 ^ 63`) and for every leaf
number `k`, the loop of `GetSubtreeProofElm` started at the leaf's storage index
`2k - popcount k` returns a path within `Len64 (len elements)` iterations, so none of its
reads is out of range, and `GetSubtreeProofElm` returns that path. -/
theorem C19_reachable_totality (h : Hasher) (leaves : List Bytes)
    (hfit : 2 * leaves.length - popcount leaves.length < 2 ^ 63) :
    (∀ (mmr0 : MMR) (leaf : Bytes), ∃ mmr1, AddLeaf mmr0 leaf = Outcome.done mmr1) ∧
      ∃ mmr, AddLeaves (New h) leaves = Outcome.done mmr ∧
        ∀ k, k < leaves.length →
          ∃ path,
            GetSubtreeProofElmLoop mmr (Len64 mmr.elements.length) [] (2 * k - popcount k) 0
              = Outcome.done path ∧
            GetSubtreeProofElm mmr (2 * k - popcount k) = Outcome.done path := by
  have hfit' : mmrSize leaves.length < 2 ^ 63 := hfit
  refine ⟨fun mmr0 leaf => ?_, ?_⟩
  · obtain ⟨ext, hrun, _⟩ := AddLeaf_total mmr0 leaf
    exact ⟨_, hrun⟩
  · obtain ⟨els, hrun, inv⟩ := AddLeaves_list h leaves (by omega)
    refine ⟨_, hrun, ?_⟩
    intro k hk
    obtain ⟨d, _, hrun1, g1, g2, g3⟩ := GetSubtreeProofElm_reach h _ _ els inv hfit' k hk
      (Len64 (mmrSize leaves.length)) le_rfl
    obtain ⟨d1, _, hrun2, f1, f2, f3⟩ := GetSubtreeProofElm_reach h _ _ els inv hfit' k hk
      65 (by have := Len64_le (mmrSize leaves.length); omega)
    have hd : d = d1 :=
      le_antisymm (peak_height_le k _ _ d d1 le_rfl g2 f1 f3)
        (peak_height_le k _ _ d1 d le_rfl f2 g1 g3)
    subst hd
    refine ⟨_, ?_, hrun2⟩
    show GetSubtreeProofElmLoop ⟨els, h⟩ (Len64 els.length) [] (mmrSize k) 0 = _
    rw [inv.1]
    exact hrun1

/-- C19 at a concrete input: the store of 17 leaves. -/
theorem C19_reachable_totality_witness :
    (2 * (byteLeaves 17).length - popcount (byteLeaves 17).length < 2 ^ 63) ∧
      ((∀ (mmr0 : MMR) (leaf : Bytes), ∃ mmr1, AddLeaf mmr0 leaf = Outcome.done mmr1) ∧
        ∃ mmr, AddLeaves (New concatHash) (byteLeaves 17) = Outcome.done mmr ∧
          ∀ k, k < (byteLeaves 17).length →
            ∃ path,
              GetSubtreeProofElmLoop mmr (Len64 mmr.elements.length) []
                  (2 * k - popcount k) 0 = Outcome.done path ∧
              GetSubtreeProofElm mmr (2 * k - popcount k) = Outcome.done path) :=
  ⟨by decide, C19_reachable_totality concatHash (byteLeaves 17) (by decide)⟩

/-- C20. Proof paths only grow: for the store built from any sequence of leaves by
`AddLeaf` on an empty MMR, every leaf number `k` in it and every further leaf `x` (the
store length after the append staying below `2 ^ 63`), the path that
`GetSubtreeProofElm` returns for the storage index `2k - popcount k` before `AddLeaf x`
is a prefix of the path it returns for the same index after `AddLeaf x`. -/
theorem C20_paths_only_grow (h : Hasher) (leaves : List Bytes) (k : Nat) (x : Bytes)
    (hk : k < leaves.length)
    (hfit : 2 * (leaves.length + 1) - popcount (leaves.length + 1) < 2 ^ 63) :
    ∃ mmr mmr1 path path1, AddLeaves (New h) leaves = Outcome.done mmr ∧
      AddLeaf mmr x = Outcome.done mmr1 ∧
      GetSubtreeProofElm mmr (2 * k - popcount k) = Outcome.done path ∧
      GetSubtreeProofElm mmr1 (2 * k - popcount k) = Outcome.done path1 ∧
      path <+: path1 := by
  have hfit1 : mmrSize (leaves.length + 1) < 2 ^ 63 := hfit
  have hsucc := mmrSize_succ leaves.length
  have hfit0 : mmrSize leaves.length < 2 ^ 63 := by omega
  obtain ⟨els, hrun, inv⟩ := AddLeaves_reach h (fun i => (leaves ++ [x]).getD i [])
    leaves.length (by omega)
  rw [map_getD_append] at hrun
  have hx : (leaves ++ [x]).getD leaves.length [] = x := by
    simp [List.getD_eq_getElem?_getD]
  have hadd := AddLeaf_reach h _ leaves.length els inv (by omega)
  simp only [hx] at hadd
  have inv1 := StoreInv_succ h _ leaves.length els inv
  obtain ⟨d, _, hp0, _, g2, _⟩ := GetSubtreeProofElm_reach h _ _ els inv hfit0 k hk 65
    (by have := Len64_le (mmrSize leaves.length); omega)
  obtain ⟨d1, _, hp1, f1, _, f3⟩ := GetSubtreeProofElm_reach h _ _ _ inv1 hfit1 k
    (by omega) 65 (by have := Len64_le (mmrSize (leaves.length + 1)); omega)
  have hle : d ≤ d1 := peak_height_le k _ _ d d1 (Nat.le_succ _) g2 f1 f3
  refine ⟨_, _, _, _, hrun, hadd, hp0, hp1, ?_⟩
  have := specPath_prefix h (fun i => (leaves ++ [x]).getD i []) d (d1 - d) 0 k
  rwa [show d + (d1 - d) = d1 by omega] at this

/-- C20 at a concrete input: leaf 2 of three leaves, before and after a fourth leaf. -/
theorem C20_paths_only_grow_witness :
    (2 < (byteLeaves 3).length ∧
        2 * ((byteLeaves 3).length + 1) - popcount ((byteLeaves 3).length + 1) < 2 ^ 63) ∧
      ∃ mmr mmr1 path path1, AddLeaves (New concatHash) (byteLeaves 3) = Outcome.done mmr ∧
        AddLeaf mmr [9] = Outcome.done mmr1 ∧
        GetSubtreeProofElm mmr (2 * 2 - popcount 2) = Outcome.done path ∧
        GetSubtreeProofElm mmr1 (2 * 2 - popcount 2) = Outcome.done path1 ∧
        path <+: path1 :=
  ⟨⟨by decide, by decide⟩,
    C20_paths_only_grow concatHash (byteLeaves 3) 2 [9] (by decide) (by decide)⟩

end MerkleTreesGnark
